import Mathlib

/-!
Verification development for the benchpress template compiler front-end:
the tokenizer (`src/compiler/src/parse/tokens.rs`) and the expression parser
(`src/compiler/src/parse/expression.rs`).

The Rust code is written against nom 7 over `nom_locate` located spans.
The embedding models a located span as the viewed fragment (a list of
characters) together with its absolute offset into the original source;
span equality is fragment-plus-offset equality, matching `LocatedSpan`
equality (offset, fragment).  Parsers are functions
`Span → Option (Span × α)`; `none` models `nom::Err::Error` (every error
produced by this code is a recoverable `Error`).  All patterns and
delimiters in the grammar are ASCII, so the byte-level Rust code and this
character-level model coincide.
-/

namespace Benchpress

/-- Modelled from the spec: `Span` (from `parse/mod.rs`, which is not among
the sources) is an immutable view into the source string: the viewed
fragment plus its absolute offset.  Two spans are equal iff they cover the
same range with the same content, as with `nom_locate::LocatedSpan`. -/
structure Span where
  frag : List Char
  off  : Nat
deriving DecidableEq, Repr

namespace Span

/-- Length of the viewed fragment, `Span::len`. -/
def len (s : Span) : Nat := s.frag.length

/-- Rust `span.slice(i..)`. -/
def sliceFrom (s : Span) (i : Nat) : Span := ⟨s.frag.drop i, s.off + i⟩

/-- Rust `span.slice(..j)` (callers always have `j ≤ len`). -/
def sliceTo (s : Span) (j : Nat) : Span := ⟨s.frag.take j, s.off⟩

/-- Rust `Span::new_extra`: a fresh span over its own text, at offset 0. -/
def fresh (cs : List Char) : Span := ⟨cs, 0⟩

end Span

/-- The type of nom parsers over spans: `none` is a recoverable error. -/
def P (α : Type) : Type := Span → Option (Span × α)

/-- nom `map`. -/
def pmap {α β : Type} (p : P α) (f : α → β) : P β :=
  fun s => (p s).map (fun rv => (rv.1, f rv.2))

/-- nom `alt` on two parsers; n-ary `alt` is nested use of this. -/
def palt {α : Type} (p q : P α) : P α :=
  fun s => match p s with
    | some r => some r
    | none => q s

/-- nom `pair`. -/
def ppair {α β : Type} (p : P α) (q : P β) : P (α × β) :=
  fun s => match p s with
    | none => none
    | some (r1, a) => match q r1 with
      | none => none
      | some (r2, b) => some (r2, (a, b))

/-- nom `preceded`. -/
def preceded {α β : Type} (p : P α) (q : P β) : P β :=
  pmap (ppair p q) Prod.snd

/-- nom `delimited`. -/
def delimited {α β γ : Type} (a : P α) (b : P β) (c : P γ) : P β :=
  fun s => match a s with
    | none => none
    | some (r1, _) => match b r1 with
      | none => none
      | some (r2, v) => match c r2 with
        | none => none
        | some (r3, _) => some (r3, v)

/-- nom `consumed`: also return the input slice the inner parser consumed. -/
def consumed {α : Type} (p : P α) : P (Span × α) :=
  fun s => match p s with
    | none => none
    | some (r, v) => some (r, (s.sliceTo (s.len - r.len), v))

/-- nom `recognize`. -/
def recognize {α : Type} (p : P α) : P Span :=
  pmap (consumed p) Prod.fst

/-- nom `opt`. -/
def popt {α : Type} (p : P α) : P (Option α) :=
  fun s => match p s with
    | some (r, v) => some (r, some v)
    | none => some (s, none)

/-- nom `tag`. -/
def tag (lit : List Char) : P Span :=
  fun s => if s.frag.take lit.length = lit
    then some (s.sliceFrom lit.length, s.sliceTo lit.length)
    else none

/-- nom `take(1usize)`. -/
def take1 : P Span :=
  fun s => match s.frag with
    | [] => none
    | _ :: _ => some (s.sliceFrom 1, s.sliceTo 1)

/-- Longest run of characters satisfying `f`; fails if empty
(nom `is_a` / `alphanumeric1` shape). -/
def munch1 (f : Char → Bool) : P Span :=
  fun s =>
    if (s.frag.takeWhile f).length = 0 then none
    else some (s.sliceFrom (s.frag.takeWhile f).length, s.sliceTo (s.frag.takeWhile f).length)

/-- Longest (possibly empty) run of characters satisfying `f`. -/
def munch0 (f : Char → Bool) : P Span :=
  fun s => some (s.sliceFrom (s.frag.takeWhile f).length, s.sliceTo (s.frag.takeWhile f).length)

/-- nom `character::complete::alphanumeric1` over `char` input: ASCII
letters and digits. -/
def alphanumeric1 : P Span := munch1 (fun c => c.isAlpha || c.isDigit)

/-- Whether a character is nom multispace (space, tab, CR, LF). -/
def wsChar (c : Char) : Bool := c = ' ' || c = '\t' || c = '\r' || c = '\n'

/-- nom `multispace0`. -/
def multispace0 : P Span := munch0 wsChar

/-- nom `is_a`. -/
def isA (set : List Char) : P Span := munch1 (fun c => set.contains c)

/-- nom `is_not`. -/
def isNot (set : List Char) : P Span := munch1 (fun c => !(set.contains c))

/-- Index of the first occurrence of `lit` in `cs`, if any. -/
def findSubIdx (lit : List Char) : List Char → Option Nat
  | [] => if lit = [] then some 0 else none
  | c :: t => if (c :: t).take lit.length = lit then some 0
      else (findSubIdx lit t).map (· + 1)

/-- nom `take_until`. -/
def takeUntil (lit : List Char) : P Span :=
  fun s => (findSubIdx lit s.frag).map (fun k => (s.sliceFrom k, s.sliceTo k))

/-- Loop of nom `many0_count` / `many1_count`, with nom 7's protection:
an element match that consumes nothing is an error.  Fueled; every
successful iteration consumes, so `len + 1` fuel is exact. -/
def many0CountF {α : Type} (p : P α) : Nat → Span → Nat → Option (Span × Nat)
  | 0, _, _ => none
  | f + 1, s, n => match p s with
    | none => some (s, n)
    | some (r, _) => if r.len = s.len then none else many0CountF p f r (n + 1)

/-- nom `many0_count`. -/
def many0Count {α : Type} (p : P α) : P Nat :=
  fun s => many0CountF p (s.len + 1) s 0

/-- nom `many1_count`. -/
def many1Count {α : Type} (p : P α) : P Nat :=
  fun s => match p s with
    | none => none
    | some (r, _) => many0CountF p (r.len + 1) r 1

/-- Loop of nom `many0`, with the same zero-consumption protection. -/
def many0F {α : Type} (p : P α) : Nat → Span → List α → Option (Span × List α)
  | 0, _, _ => none
  | f + 1, s, acc => match p s with
    | none => some (s, acc)
    | some (r, v) => if r.len = s.len then none else many0F p f r (acc ++ [v])

/-- nom `many0`. -/
def many0P {α : Type} (p : P α) : P (List α) :=
  fun s => many0F p (s.len + 1) s []

/-- Loop of nom `separated_list0/1`: after a separator and an element, the
pair together must have consumed (nom 7's infinite-loop check). -/
def sepLoopF {α β : Type} (sep : P β) (elem : P α) :
    Nat → Span → List α → Option (Span × List α)
  | 0, _, _ => none
  | f + 1, i, acc => match sep i with
    | none => some (i, acc)
    | some (i1, _) => match elem i1 with
      | none => some (i, acc)
      | some (i2, v) =>
        if i2.len = i.len then none else sepLoopF sep elem f i2 (acc ++ [v])

/-- nom `separated_list1`. -/
def sepList1 {α β : Type} (sep : P β) (elem : P α) : P (List α) :=
  fun i => match elem i with
    | none => none
    | some (i1, v) => sepLoopF sep elem (i1.len + 1) i1 [v]

/-- nom `separated_list0`. -/
def sepList0 {α β : Type} (sep : P β) (elem : P α) : P (List α) :=
  fun i => match elem i with
    | none => some (i, [])
    | some (i1, v) => sepLoopF sep elem (i1.len + 1) i1 [v]

/-- Modelled from the spec: `ws` (from `parse/mod.rs`, not among the
sources) consumes any run of ASCII whitespace before and after the wrapped
element. -/
def ws {α : Type} (p : P α) : P α := delimited multispace0 p multispace0

/-! ## The expression data model (`expression.rs`, `path.rs`) -/

/-- Modelled from the spec: `PathPart` (from `parse/path.rs`, not among the
sources) is a tagged value holding a single span; literal segments and
scope markers share the one representation. -/
inductive PathPart where
  | Part : Span → PathPart
deriving DecidableEq, Repr

/-- The `Expression` sum type of `expression.rs`. -/
inductive Expression where
  | StringLiteral : Span → Expression
  | Path : Span → List PathPart → Expression
  | Negative : Span → Expression → Expression
  | Helper : Span → Span → List Expression → Expression
  | LegacyHelper : Span → Span → List Expression → Expression
deriving Repr

/-- `Expression::span`. -/
def Expression.span : Expression → Span
  | .StringLiteral s => s
  | .Path s _ => s
  | .Negative s _ => s
  | .Helper s _ _ => s
  | .LegacyHelper s _ _ => s

/-- `Expression::path_from_span`. -/
def path_from_span (s : Span) : Expression := .Path s [.Part s]

/-- `string_literal` of `expression.rs`. -/
def string_literal : P Expression :=
  pmap (recognize (delimited (tag ['"'])
      (many0Count (palt (preceded (tag ['\\']) take1) (isNot ['\\', '"'])))
      (tag ['"'])))
    Expression.StringLiteral

/-- Whether the fragment ends with `--` (Rust `ends_with("--")`). -/
def endsDashDash (cs : List Char) : Bool :=
  decide (cs.drop (cs.length - 2) = ['-', '-'] ∧ 2 ≤ cs.length)

/-- `identifier` of `expression.rs`, including the `-->` backup. -/
def identifier : P Span :=
  fun input =>
    match recognize (many1Count (palt alphanumeric1 (isA ['_', '-', ':', '@']))) input with
    | none => none
    | some (rest, res) =>
      if endsDashDash res.frag ∧ rest.frag.head? = some '>' then
        let split := res.len - 2
        some (input.sliceFrom split, input.sliceTo split)
      else some (rest, res)

/-- The six keyword alternatives at the head of `path`. -/
def keyword_tags : P Span :=
  palt (tag ['@', 'r', 'o', 'o', 't']) (palt (tag ['@', 'k', 'e', 'y'])
    (palt (tag ['@', 'i', 'n', 'd', 'e', 'x']) (palt (tag ['@', 'v', 'a', 'l', 'u', 'e'])
    (palt (tag ['@', 'f', 'i', 'r', 's', 't']) (tag ['@', 'l', 'a', 's', 't'])))))

/-- A single scope marker (`./` or `../`) of `path`. -/
def scope_marker : P PathPart :=
  pmap (palt (tag ['.', '/']) (tag ['.', '.', '/'])) PathPart.Part

/-- `path` of `expression.rs`. -/
def path : P Expression :=
  palt
    (pmap keyword_tags path_from_span)
    (pmap (consumed (ppair
        (many0P scope_marker)
        (sepList1 (tag ['.']) (pmap identifier PathPart.Part))))
      (fun x => Expression.Path x.1 (x.2.1 ++ x.2.2)))

/-- `negative` of `expression.rs`, abstracted over the recursive call. -/
def negativeP (expr : P Expression) : P Expression :=
  pmap (consumed (preceded (ws (tag ['!'])) expr))
    (fun x => Expression.Negative x.1 x.2)

/-- `helper` of `expression.rs`, abstracted over the recursive call. -/
def helperP (expr : P Expression) : P Expression :=
  pmap (consumed (ppair identifier
      (delimited (tag ['(']) (sepList0 (tag [',']) (ws expr)) (tag [')']))))
    (fun x => Expression.Helper x.1 x.2.1 x.2.2)

/-- The inner `consumed(pair(...))` of `legacy_helper`: the helper name and
the optional argument list. -/
def legacyHelperBody (expr : P Expression) : P (Span × (Span × Option (List Expression))) :=
  consumed (ppair (preceded (tag ['f', 'u', 'n', 'c', 't', 'i', 'o', 'n', '.']) identifier)
    (popt (preceded (ws (tag [','])) (sepList0 (ws (tag [','])) expr))))

/-- `legacy_helper` of `expression.rs`, abstracted over the recursive call:
a missing argument list is replaced by a single implicit `@value` path with
a zero-width span at the end of the consumed expression. -/
def legacyHelperP (expr : P Expression) : P Expression :=
  pmap (legacyHelperBody expr)
    (fun x => Expression.LegacyHelper x.1 x.2.1
      (match x.2.2 with
       | some args => args
       | none => [Expression.Path (x.1.sliceFrom x.1.len)
           [PathPart.Part (Span.fresh ['@', 'v', 'a', 'l', 'u', 'e'])]]))

/-- Fueled `expression` of `expression.rs`: the alternatives in source
order (negative, legacy helper, helper, string literal, path).  Each
recursive call sits behind at least one consumed character, so fuel
`len + 1` always suffices. -/
def expressionF : Nat → P Expression
  | 0 => fun _ => none
  | f + 1 =>
    palt (negativeP (expressionF f))
      (palt (legacyHelperP (expressionF f))
        (palt (helperP (expressionF f))
          (palt string_literal path)))

/-- `expression` of `expression.rs`. -/
def expression : P Expression := fun s => expressionF (s.len + 1) s

/-- `legacy_helper` with the recursion tied, as exported by the source. -/
def legacy_helper : P Expression := legacyHelperP expression

/-! ## The token data model and recognizers (`tokens.rs`) -/

/-- The `Token` sum type of `tokens.rs`. -/
inductive Token where
  | Text : Span → Token
  | InterpEscaped : Span → Expression → Token
  | InterpRaw : Span → Expression → Token
  | If : Span → Expression → Token
  | Each : Span → Expression → Token
  | Else : Span → Token
  | End : Span → Token
  | LegacyIf : Span → Expression → Token
  | LegacyBegin : Span → Expression → Token
  | LegacyElse : Span → Token
  | LegacyEnd : Span → Span → Token
deriving Repr

/-- `Token::span`. -/
def Token.span : Token → Span
  | .Text s => s
  | .InterpEscaped s _ => s
  | .InterpRaw s _ => s
  | .If s _ => s
  | .Each s _ => s
  | .Else s => s
  | .End s => s
  | .LegacyIf s _ => s
  | .LegacyBegin s _ => s
  | .LegacyElse s => s
  | .LegacyEnd s _ => s

/-- `interp_escaped` of `tokens.rs`. -/
def interp_escaped : P Token :=
  pmap (consumed (delimited (tag ['{']) (ws expression) (tag ['}'])))
    (fun x => Token.InterpEscaped x.1 x.2)

/-- `interp_raw` of `tokens.rs`. -/
def interp_raw : P Token :=
  pmap (consumed (delimited (tag ['{', '{']) (ws expression) (tag ['}', '}'])))
    (fun x => Token.InterpRaw x.1 x.2)

/-- `new_each` of `tokens.rs`. -/
def new_each : P Token :=
  pmap (consumed (delimited (ppair (tag ['{', '{', '{']) (ws (tag ['e', 'a', 'c', 'h'])))
      (ws expression) (tag ['}', '}', '}'])))
    (fun x => Token.Each x.1 x.2)

/-- `new_if` of `tokens.rs`. -/
def new_if : P Token :=
  pmap (consumed (delimited (ppair (tag ['{', '{', '{']) (ws (tag ['i', 'f'])))
      (ws expression) (tag ['}', '}', '}'])))
    (fun x => Token.If x.1 x.2)

/-- `new_else` of `tokens.rs`. -/
def new_else : P Token :=
  pmap (recognize (delimited (tag ['{', '{', '{']) (ws (tag ['e', 'l', 's', 'e']))
      (tag ['}', '}', '}'])))
    Token.Else

/-- `new_end` of `tokens.rs`. -/
def new_end : P Token :=
  pmap (recognize (delimited (tag ['{', '{', '{']) (ws (tag ['e', 'n', 'd']))
      (tag ['}', '}', '}'])))
    Token.End

/-- `legacy_begin` of `tokens.rs`. -/
def legacy_begin : P Token :=
  pmap (consumed (delimited (ppair (tag ['<', '!', '-', '-']) (ws (tag ['B', 'E', 'G', 'I', 'N'])))
      (ws expression) (tag ['-', '-', '>'])))
    (fun x => Token.LegacyBegin x.1 x.2)

/-- The `@root` insertion done by `legacy_if`: a `LegacyHelper` subject
receives an implicit first argument `Path [@root]` whose span is zero-width
at the start of the first original argument, or at end-of-subject when
there is none. -/
def legacyIfSubject (subject : Expression) : Expression :=
  match subject with
  | Expression.LegacyHelper sp name args =>
      Expression.LegacyHelper sp name
        (Expression.Path
            (match args.head? with
             | some a => (Expression.span a).sliceTo 0
             | none => sp.sliceFrom sp.len)
            [PathPart.Part (Span.fresh ['@', 'r', 'o', 'o', 't'])] :: args)
  | e => e

/-- The inner `consumed(delimited(...))` of `legacy_if`: the full token
span and the parsed subject, before the `@root` insertion. -/
def legacyIfBody : P (Span × Expression) :=
  consumed (delimited (ppair (tag ['<', '!', '-', '-']) (ws (tag ['I', 'F'])))
    (ws expression) (tag ['-', '-', '>']))

/-- `legacy_if` of `tokens.rs`. -/
def legacy_if : P Token :=
  pmap legacyIfBody (fun x => Token.LegacyIf x.1 (legacyIfSubject x.2))

/-- `legacy_else` of `tokens.rs`. -/
def legacy_else : P Token :=
  pmap (recognize (delimited (tag ['<', '!', '-', '-']) (ws (tag ['E', 'L', 'S', 'E']))
      (tag ['-', '-', '>'])))
    Token.LegacyElse

/-- `trim_end` of `tokens.rs`. -/
def trim_end (s : Span) : Span :=
  s.sliceTo (s.frag.length - (s.frag.reverse.takeWhile wsChar).length)

/-- `legacy_end` of `tokens.rs`. -/
def legacy_end : P Token :=
  pmap (consumed (delimited
      (ppair (tag ['<', '!', '-', '-']) (ws (palt (tag ['E', 'N', 'D', 'I', 'F']) (tag ['E', 'N', 'D']))))
      (ws (takeUntil ['-', '-', '>'])) (tag ['-', '-', '>'])))
    (fun x => Token.LegacyEnd x.1 (trim_end x.2))

/-- `token` of `tokens.rs`: the ten recognizers in source order. -/
def token : P Token :=
  palt interp_escaped (palt interp_raw (palt new_each (palt new_if
    (palt new_else (palt new_end (palt legacy_begin (palt legacy_if
    (palt legacy_else legacy_end))))))))

/-! ## The top-level tokenizer (`tokens.rs`) -/

/-- The `PATTERNS` table of `tokens.rs`, in priority order. -/
def PATTERNS : List (List Char) :=
  [['\\', '{', '{', '{'],
   ['\\', '{', '{'],
   ['\\', '{'],
   '\\' :: ['<', '!', '-', '-'],
   ['{'],
   ['<', '!', '-', '-'],
   ['@', 'k', 'e', 'y'],
   ['@', 'v', 'a', 'l', 'u', 'e'],
   ['@', 'i', 'n', 'd', 'e', 'x']]

/-- Scan a pattern list for the first (in priority order) pattern matching
at the head of `cs`, numbering from `i`. -/
def firstMatch (cs : List Char) : List (List Char) → Nat → Option Nat
  | [], _ => none
  | p :: ps, i => if cs.take p.length = p then some i else firstMatch cs ps (i + 1)

/-- The first pattern (in priority order) matching at the head of `cs`. -/
def firstPatIdx (cs : List Char) : Option Nat :=
  firstMatch cs PATTERNS 0

/-- The `TOKEN_START` Aho–Corasick automaton with leftmost-first match
semantics: the leftmost match position wins, ties broken by pattern
priority.  Returns (pattern index, match start). -/
def acFind : List Char → Option (Nat × Nat)
  | [] => none
  | c :: t =>
    match firstPatIdx (c :: t) with
    | some pi => some (pi, 0)
    | none => (acFind t).map (fun pr => (pr.1, pr.2 + 1))

/-- The main loop of `tokens` of `tokens.rs`, fueled.  One fuel unit is one
iteration of the Rust `while` loop; the measure `2·len − index` strictly
decreases each iteration, so the fuel given by `tokens` below suffices.
The deprecation warnings issued in the bare-keyword branch are output to an
abstract diagnostic sink and are not modelled. -/
def tokensF : Nat → Span → Nat → List Token → Option (Span × List Token)
  | 0, _, _, _ => none
  | fuel + 1, input, index, acc =>
    if index < input.len then
      match acFind (input.sliceFrom index).frag with
      | some (pi, st) =>
        if 4 ≤ pi ∧ pi ≤ 5 then
          -- an opener: step to it and attempt a token
          let idx := index + st
          match token (input.sliceFrom idx) with
          | none => tokensF fuel input (idx + 1) acc
          | some (rest, tok) =>
            if rest = input then none
            else tokensF fuel rest 0
              ((if 0 < idx then acc ++ [Token.Text (input.sliceTo idx)] else acc) ++ [tok])
        else if pi ≤ 3 then
          -- an escaped opener: drop the escape character and skip it
          let start := index + st
          let plen := (PATTERNS.getD pi []).length
          tokensF fuel (input.sliceFrom (start + 1)) (plen - 1)
            (if 0 < start then acc ++ [Token.Text (input.sliceTo start)] else acc)
        else
          -- a bare keyword: emit it as an escaped interpolation
          let start := index + st
          let plen := (PATTERNS.getD pi []).length
          match expression ((input.sliceFrom start).sliceTo plen) with
          | none => none
          | some (_, expr) =>
            tokensF fuel (input.sliceFrom (start + plen)) 0
              ((if 0 < start then acc ++ [Token.Text (input.sliceTo start)] else acc)
                ++ [Token.InterpEscaped ((input.sliceFrom start).sliceTo plen) expr])
      | none =>
        some (input.sliceFrom input.len,
          acc ++ (if 0 < input.len then [Token.Text (input.sliceTo input.len)] else []))
    else
      some (input.sliceFrom input.len,
        acc ++ (if 0 < index then [Token.Text (input.sliceTo index)] else []))

/-- `tokens` of `tokens.rs`. -/
def tokens : P (List Token) := fun s => tokensF (2 * s.len + 2) s 0 []

/-! ## Evaluation lemmas for the combinators -/

theorem expressionF_succ (f : Nat) : expressionF (f + 1) =
    palt (negativeP (expressionF f))
      (palt (legacyHelperP (expressionF f))
        (palt (helperP (expressionF f))
          (palt string_literal path))) := rfl

theorem palt_none {α : Type} {p q : P α} {s : Span} (h : p s = none) : palt p q s = q s := by
  simp [palt, h]

theorem palt_some {α : Type} {p q : P α} {s : Span} {r : Span × α} (h : p s = some r) :
    palt p q s = some r := by simp [palt, h]

theorem pmap_none {α β : Type} {p : P α} {f : α → β} {s : Span} (h : p s = none) :
    pmap p f s = none := by simp [pmap, h]

theorem pmap_some {α β : Type} {p : P α} {f : α → β} {s r : Span} {v : α}
    (h : p s = some (r, v)) : pmap p f s = some (r, f v) := by simp [pmap, h]

theorem ppair_none1 {α β : Type} {p : P α} {q : P β} {s : Span} (h : p s = none) :
    ppair p q s = none := by simp [ppair, h]

theorem ppair_none2 {α β : Type} {p : P α} {q : P β} {s r1 : Span} {a : α}
    (h1 : p s = some (r1, a)) (h2 : q r1 = none) : ppair p q s = none := by
  simp [ppair, h1, h2]

theorem ppair_some {α β : Type} {p : P α} {q : P β} {s r1 r2 : Span} {a : α} {b : β}
    (h1 : p s = some (r1, a)) (h2 : q r1 = some (r2, b)) :
    ppair p q s = some (r2, (a, b)) := by simp [ppair, h1, h2]

theorem preceded_none1 {α β : Type} {p : P α} {q : P β} {s : Span} (h : p s = none) :
    preceded p q s = none := pmap_none (ppair_none1 h)

theorem preceded_none2 {α β : Type} {p : P α} {q : P β} {s r1 : Span} {a : α}
    (h1 : p s = some (r1, a)) (h2 : q r1 = none) : preceded p q s = none :=
  pmap_none (ppair_none2 h1 h2)

theorem preceded_some {α β : Type} {p : P α} {q : P β} {s r1 r2 : Span} {a : α} {b : β}
    (h1 : p s = some (r1, a)) (h2 : q r1 = some (r2, b)) :
    preceded p q s = some (r2, b) := pmap_some (ppair_some h1 h2)

theorem delimited_none1 {α β γ : Type} {a : P α} {b : P β} {c : P γ} {s : Span}
    (h : a s = none) : delimited a b c s = none := by simp [delimited, h]

theorem delimited_none2 {α β γ : Type} {a : P α} {b : P β} {c : P γ} {s r1 : Span} {x : α}
    (h1 : a s = some (r1, x)) (h2 : b r1 = none) : delimited a b c s = none := by
  simp [delimited, h1, h2]

theorem delimited_none3 {α β γ : Type} {a : P α} {b : P β} {c : P γ} {s r1 r2 : Span}
    {x : α} {v : β} (h1 : a s = some (r1, x)) (h2 : b r1 = some (r2, v))
    (h3 : c r2 = none) : delimited a b c s = none := by simp [delimited, h1, h2, h3]

theorem delimited_some {α β γ : Type} {a : P α} {b : P β} {c : P γ} {s r1 r2 r3 : Span}
    {x : α} {v : β} {y : γ} (h1 : a s = some (r1, x)) (h2 : b r1 = some (r2, v))
    (h3 : c r2 = some (r3, y)) : delimited a b c s = some (r3, v) := by
  simp [delimited, h1, h2, h3]

theorem consumed_none {α : Type} {p : P α} {s : Span} (h : p s = none) :
    consumed p s = none := by simp [consumed, h]

theorem consumed_some {α : Type} {p : P α} {s r : Span} {v : α} (h : p s = some (r, v)) :
    consumed p s = some (r, (s.sliceTo (s.len - r.len), v)) := by simp [consumed, h]

theorem recognize_none {α : Type} {p : P α} {s : Span} (h : p s = none) :
    recognize p s = none := pmap_none (consumed_none h)

theorem recognize_some {α : Type} {p : P α} {s r : Span} {v : α} (h : p s = some (r, v)) :
    recognize p s = some (r, s.sliceTo (s.len - r.len)) :=
  pmap_some (consumed_some h)

theorem popt_none {α : Type} {p : P α} {s : Span} (h : p s = none) :
    popt p s = some (s, none) := by simp [popt, h]

theorem popt_some {α : Type} {p : P α} {s r : Span} {v : α} (h : p s = some (r, v)) :
    popt p s = some (r, some v) := by simp [popt, h]

theorem tag_some {lit : List Char} {s : Span} (h : s.frag.take lit.length = lit) :
    tag lit s = some (s.sliceFrom lit.length, s.sliceTo lit.length) := by
  simp [tag, h]

theorem tag_none {lit : List Char} {s : Span} (h : ¬ s.frag.take lit.length = lit) :
    tag lit s = none := by simp [tag, h]

theorem tag_none_cons {x c : Char} {xs t : List Char} {o : Nat} (hne : x ≠ c) :
    tag (x :: xs) ⟨c :: t, o⟩ = none := by
  apply tag_none
  simp [List.take_cons, hne.symm]

theorem tag_none_nil {x : Char} {xs : List Char} {o : Nat} :
    tag (x :: xs) ⟨[], o⟩ = none := by
  apply tag_none; simp

theorem munch1_none {f : Char → Bool} {s : Span}
    (h : (s.frag.takeWhile f).length = 0) : munch1 f s = none := by
  simp [munch1, h]

theorem munch1_some {f : Char → Bool} {s : Span} {k : Nat}
    (h : (s.frag.takeWhile f).length = k) (hk : k ≠ 0) :
    munch1 f s = some (s.sliceFrom k, s.sliceTo k) := by
  simp only [munch1, h]
  simp [hk]

theorem munch0_eval {f : Char → Bool} {s : Span} {k : Nat}
    (h : (s.frag.takeWhile f).length = k) :
    munch0 f s = some (s.sliceFrom k, s.sliceTo k) := by
  simp [munch0, h]

theorem take1_none {s : Span} (h : s.frag = []) : take1 s = none := by
  simp [take1, h]

theorem take1_some {s : Span} {c : Char} {t : List Char} (h : s.frag = c :: t) :
    take1 s = some (s.sliceFrom 1, s.sliceTo 1) := by
  simp only [take1, h]

theorem many0CountF_step_none {α : Type} {p : P α} {s : Span} {f n : Nat} (h : p s = none) :
    many0CountF p (f + 1) s n = some (s, n) := by simp [many0CountF, h]

theorem many0CountF_step_some {α : Type} {p : P α} {s r : Span} {v : α} {f n : Nat}
    (h : p s = some (r, v)) (hlt : ¬ r.len = s.len) :
    many0CountF p (f + 1) s n = many0CountF p f r (n + 1) := by
  simp [many0CountF, h, hlt]

theorem many1Count_none {α : Type} {p : P α} {s : Span} (h : p s = none) :
    many1Count p s = none := by simp [many1Count, h]

theorem many1Count_some {α : Type} {p : P α} {s r : Span} {v : α} (h : p s = some (r, v)) :
    many1Count p s = many0CountF p (r.len + 1) r 1 := by simp [many1Count, h]

theorem many0F_step_none {α : Type} {p : P α} {s : Span} {f : Nat} {acc : List α}
    (h : p s = none) : many0F p (f + 1) s acc = some (s, acc) := by simp [many0F, h]

theorem many0F_step_some {α : Type} {p : P α} {s r : Span} {v : α} {f : Nat} {acc : List α}
    (h : p s = some (r, v)) (hlt : ¬ r.len = s.len) :
    many0F p (f + 1) s acc = many0F p f r (acc ++ [v]) := by
  simp [many0F, h, hlt]

theorem many0P_eq {α : Type} {p : P α} {s : Span} :
    many0P p s = many0F p (s.len + 1) s [] := rfl

theorem sepLoopF_step_nosep {α β : Type} {sep : P β} {elem : P α} {i : Span} {f : Nat}
    {acc : List α} (h : sep i = none) :
    sepLoopF sep elem (f + 1) i acc = some (i, acc) := by
  simp [sepLoopF, h]

theorem sepLoopF_step_noelem {α β : Type} {sep : P β} {elem : P α} {i i1 : Span} {b : β}
    {f : Nat} {acc : List α} (h1 : sep i = some (i1, b)) (h2 : elem i1 = none) :
    sepLoopF sep elem (f + 1) i acc = some (i, acc) := by
  simp [sepLoopF, h1, h2]

theorem sepLoopF_step_some {α β : Type} {sep : P β} {elem : P α} {i i1 i2 : Span} {b : β}
    {v : α} {f : Nat} {acc : List α} (h1 : sep i = some (i1, b))
    (h2 : elem i1 = some (i2, v)) (hlt : ¬ i2.len = i.len) :
    sepLoopF sep elem (f + 1) i acc = sepLoopF sep elem f i2 (acc ++ [v]) := by
  simp [sepLoopF, h1, h2, hlt]

theorem sepList1_none {α β : Type} {sep : P β} {elem : P α} {i : Span} (h : elem i = none) :
    sepList1 sep elem i = none := by simp [sepList1, h]

theorem sepList1_some {α β : Type} {sep : P β} {elem : P α} {i i1 : Span} {v : α}
    (h : elem i = some (i1, v)) :
    sepList1 sep elem i = sepLoopF sep elem (i1.len + 1) i1 [v] := by
  simp [sepList1, h]

theorem sepList0_none {α β : Type} {sep : P β} {elem : P α} {i : Span} (h : elem i = none) :
    sepList0 sep elem i = some (i, []) := by simp [sepList0, h]

theorem sepList0_some {α β : Type} {sep : P β} {elem : P α} {i i1 : Span} {v : α}
    (h : elem i = some (i1, v)) :
    sepList0 sep elem i = sepLoopF sep elem (i1.len + 1) i1 [v] := by
  simp [sepList0, h]

theorem ws_eval {α : Type} {p : P α} {s r1 r2 r3 : Span} {a b : Span} {v : α}
    (h1 : multispace0 s = some (r1, a)) (h2 : p r1 = some (r2, v))
    (h3 : multispace0 r2 = some (r3, b)) : ws p s = some (r3, v) :=
  delimited_some h1 h2 h3

theorem ws_none {α : Type} {p : P α} {s r1 : Span} {a : Span}
    (h1 : multispace0 s = some (r1, a)) (h2 : p r1 = none) : ws p s = none :=
  delimited_none2 h1 h2

theorem sliceFrom_zero (s : Span) : s.sliceFrom 0 = s := by
  simp [Span.sliceFrom]

theorem sliceTo_zero (s : Span) : s.sliceTo 0 = ⟨[], s.off⟩ := by
  simp [Span.sliceTo]

/-- The recognizer run inside `identifier`. -/
def identRun : P Span :=
  recognize (many1Count (palt alphanumeric1 (isA ['_', '-', ':', '@'])))

theorem identifier_eq (input : Span) :
    identifier input = match identRun input with
      | none => none
      | some (rest, res) =>
        if endsDashDash res.frag ∧ rest.frag.head? = some '>' then
          some (input.sliceFrom (res.len - 2), input.sliceTo (res.len - 2))
        else some (rest, res) := rfl

theorem identifier_eq_some {input rest res : Span} (h : identRun input = some (rest, res)) :
    identifier input =
      if endsDashDash res.frag ∧ rest.frag.head? = some '>' then
        some (input.sliceFrom (res.len - 2), input.sliceTo (res.len - 2))
      else some (rest, res) := by
  rw [identifier_eq, h]

theorem identifier_none {input : Span} (h : identRun input = none) :
    identifier input = none := by
  rw [identifier_eq, h]

theorem identifier_backup {input rest res : Span} (h : identRun input = some (rest, res))
    (h1 : endsDashDash res.frag = true) (h2 : rest.frag.head? = some '>') :
    identifier input = some (input.sliceFrom (res.len - 2), input.sliceTo (res.len - 2)) := by
  rw [identifier_eq_some h, if_pos ⟨h1, h2⟩]

theorem identifier_plain {input rest res : Span} (h : identRun input = some (rest, res))
    (hcond : ¬ (endsDashDash res.frag = true ∧ rest.frag.head? = some '>')) :
    identifier input = some (rest, res) := by
  rw [identifier_eq_some h, if_neg hcond]


theorem c10core (cs : List Char) (o : Nat) :
    expression ⟨'-' :: '-' :: '>' :: cs, o⟩ =
      some (⟨'-' :: '-' :: '>' :: cs, o⟩,
        Expression.Path ⟨[], o⟩ [PathPart.Part ⟨[], o⟩]) := by
  set s : Span := ⟨'-' :: '-' :: '>' :: cs, o⟩ with hs
  have hms : multispace0 s = some (s, ⟨[], o⟩) := by
    have h0 : (s.frag.takeWhile wsChar).length = 0 := by simp [hs, List.takeWhile, wsChar]
    unfold multispace0
    rw [munch0_eval h0, sliceFrom_zero, sliceTo_zero]
  have halpha : alphanumeric1 s = none := by
    apply munch1_none; simp [hs, List.takeWhile]
  have hisa : isA ['_', '-', ':', '@'] s = some (⟨'>' :: cs, o + 2⟩, ⟨['-', '-'], o⟩) := by
    have h2 : (s.frag.takeWhile (fun c => List.contains ['_', '-', ':', '@'] c)).length = 2 := by
      simp [hs, List.takeWhile]
    have := munch1_some (s := s) h2 (by simp)
    simpa [Span.sliceFrom, Span.sliceTo, hs, isA] using this
  have hpalt1 : palt alphanumeric1 (isA ['_', '-', ':', '@']) s =
      some (⟨'>' :: cs, o + 2⟩, ⟨['-', '-'], o⟩) := by
    rw [palt_none halpha, hisa]
  have hpfail : palt alphanumeric1 (isA ['_', '-', ':', '@']) ⟨'>' :: cs, o + 2⟩ = none := by
    rw [palt_none]
    · apply munch1_none; simp [List.takeWhile]
    · apply munch1_none; simp [List.takeWhile]
  have hmany : many1Count (palt alphanumeric1 (isA ['_', '-', ':', '@'])) s =
      some (⟨'>' :: cs, o + 2⟩, 1) := by
    rw [many1Count_some hpalt1]
    exact many0CountF_step_none hpfail
  have hsub : s.len - (Span.mk ('>' :: cs) (o + 2)).len = 2 := by
    simp [hs, Span.len]
  have hrun : identRun s = some (⟨'>' :: cs, o + 2⟩, ⟨['-', '-'], o⟩) := by
    unfold identRun
    rw [recognize_some hmany, hsub]
    simp [Span.sliceTo, hs]
  have hident : identifier s = some (s, ⟨[], o⟩) := by
    rw [identifier_backup hrun (by simp [endsDashDash]) (by simp)]
    norm_num [Span.len, sliceFrom_zero, sliceTo_zero, hs]
  have hneg : ∀ q : P Expression, negativeP q s = none := by
    intro q
    apply pmap_none; apply consumed_none; apply preceded_none1
    exact ws_none hms (tag_none_cons (by decide))
  have hlegacy : ∀ q : P Expression, legacyHelperP q s = none := by
    intro q
    apply pmap_none
    unfold legacyHelperBody
    apply consumed_none; apply ppair_none1; apply preceded_none1
    exact tag_none_cons (by decide)
  have hhelper : ∀ q : P Expression, helperP q s = none := by
    intro q
    apply pmap_none; apply consumed_none
    apply ppair_none2 hident
    apply delimited_none1
    exact tag_none_cons (by decide)
  have hstr : string_literal s = none := by
    apply pmap_none; apply recognize_none; apply delimited_none1
    exact tag_none_cons (by decide)
  have t1 : tag ['@', 'r', 'o', 'o', 't'] s = none := tag_none_cons (by decide)
  have t2 : tag ['@', 'k', 'e', 'y'] s = none := tag_none_cons (by decide)
  have t3 : tag ['@', 'i', 'n', 'd', 'e', 'x'] s = none := tag_none_cons (by decide)
  have t4 : tag ['@', 'v', 'a', 'l', 'u', 'e'] s = none := tag_none_cons (by decide)
  have t5 : tag ['@', 'f', 'i', 'r', 's', 't'] s = none := tag_none_cons (by decide)
  have t6 : tag ['@', 'l', 'a', 's', 't'] s = none := tag_none_cons (by decide)
  have hkw : pmap keyword_tags path_from_span s = none := by
    apply pmap_none
    unfold keyword_tags
    rw [palt_none t1, palt_none t2, palt_none t3, palt_none t4, palt_none t5, t6]
  have hmark : scope_marker s = none := by
    apply pmap_none
    rw [palt_none (tag_none_cons (by decide))]
    exact tag_none_cons (by decide)
  have hm0 : many0P scope_marker s = some (s, []) := by
    rw [many0P_eq]
    exact many0F_step_none hmark
  have hlist : sepList1 (tag ['.']) (pmap identifier PathPart.Part) s =
      some (s, [PathPart.Part ⟨[], o⟩]) := by
    rw [sepList1_some (pmap_some hident)]
    exact sepLoopF_step_nosep (tag_none_cons (by decide))
  have hpath : path s = some (s, Expression.Path ⟨[], o⟩ [PathPart.Part ⟨[], o⟩]) := by
    unfold path
    rw [palt_none hkw, pmap_some (consumed_some (ppair_some hm0 hlist))]
    simp [hs, Span.len, Span.sliceTo]
  show expressionF (s.len + 1) s = _
  rw [expressionF_succ, palt_none (hneg _), palt_none (hlegacy _), palt_none (hhelper _),
    palt_none hstr, hpath]



/-! ## Claim theorems -/

/-- Claim C10: for every input whose first three characters are `-->`,
`expression` succeeds rather than reporting a parse failure: the identifier
backup gives back the entire matched run, yielding a `Path` containing a
single zero-length part, and the returned rest equals the entire input
(zero characters consumed). -/
theorem claim_C10 (s : Span) (cs : List Char) (h : s.frag = '-' :: '-' :: '>' :: cs) :
    expression s = some (s, Expression.Path ⟨[], s.off⟩ [PathPart.Part ⟨[], s.off⟩]) := by
  obtain ⟨frag, off⟩ := s
  simp only at h
  subst h
  exact c10core cs off

/-- Witness for C10 at the concrete input `-->`. -/
theorem claim_C10_witness :
    expression ⟨['-', '-', '>'], 0⟩ =
      some (⟨['-', '-', '>'], 0⟩, Expression.Path ⟨[], 0⟩ [PathPart.Part ⟨[], 0⟩]) :=
  claim_C10 ⟨['-', '-', '>'], 0⟩ [] rfl

/-- Claim C6: whenever the consumed identifier run ends with `--` and the
immediately following input character is `>`, the trailing `--` is given
back to the input; in particular inside `<!-- IF cond-->` the subject
parses to `Path[cond]`, not to an identifier `cond--`. -/
theorem claim_C6 :
    (∀ input rest res : Span, identRun input = some (rest, res) →
      endsDashDash res.frag = true → rest.frag.head? = some '>' →
      identifier input =
        some (input.sliceFrom (res.len - 2), input.sliceTo (res.len - 2))) ∧
    tokens ⟨"<!-- IF cond-->".toList, 0⟩ =
      some (⟨[], 15⟩, [Token.LegacyIf ⟨"<!-- IF cond-->".toList, 0⟩
        (Expression.Path ⟨"cond".toList, 8⟩ [PathPart.Part ⟨"cond".toList, 8⟩])]) :=
  ⟨fun _ _ _ h h1 h2 => identifier_backup h h1 h2, rfl⟩

/-- Witness for C6 at the concrete input `cond-->`. -/
theorem claim_C6_witness :
    identifier ⟨"cond-->".toList, 0⟩ =
      some (⟨['-', '-', '>'], 4⟩, ⟨"cond".toList, 0⟩) :=
  claim_C6.1 ⟨"cond-->".toList, 0⟩ ⟨['>'], 6⟩ ⟨"cond--".toList, 0⟩ rfl rfl rfl

/-- Claim C5: a legacy helper written without an argument list gets exactly
one synthesized `Path([@value])` argument with a zero-width span at the end
of the consumed expression; in particular `function.foo` parses to
`LegacyHelper(foo, [Path[@value]])` with a zero-width argument span at the
end. -/
theorem claim_C5 :
    (∀ input rest sp name : Span,
      legacyHelperBody expression input = some (rest, (sp, (name, none))) →
      legacy_helper input = some (rest, Expression.LegacyHelper sp name
          [Expression.Path (sp.sliceFrom sp.len)
            [PathPart.Part (Span.fresh ['@', 'v', 'a', 'l', 'u', 'e'])]]) ∧
        (sp.sliceFrom sp.len).len = 0 ∧ (sp.sliceFrom sp.len).off = sp.off + sp.len) ∧
    expression ⟨"function.foo".toList, 0⟩ =
      some (⟨[], 12⟩, Expression.LegacyHelper ⟨"function.foo".toList, 0⟩ ⟨"foo".toList, 9⟩
        [Expression.Path ⟨[], 12⟩ [PathPart.Part ⟨"@value".toList, 0⟩]]) := by
  constructor
  · intro input rest sp name h
    refine ⟨?_, ?_, rfl⟩
    · unfold legacy_helper legacyHelperP
      rw [pmap_some h]
    · simp [Span.sliceFrom, Span.len]
  · rfl

/-- Witness for C5 at the concrete input `function.foo`. -/
theorem claim_C5_witness :
    legacy_helper ⟨"function.foo".toList, 0⟩ =
      some (⟨[], 12⟩, Expression.LegacyHelper ⟨"function.foo".toList, 0⟩ ⟨"foo".toList, 9⟩
        [Expression.Path ((⟨"function.foo".toList, 0⟩ : Span).sliceFrom
            (⟨"function.foo".toList, 0⟩ : Span).len)
          [PathPart.Part (Span.fresh ['@', 'v', 'a', 'l', 'u', 'e'])]]) :=
  (claim_C5.1 ⟨"function.foo".toList, 0⟩ ⟨[], 12⟩ ⟨"function.foo".toList, 0⟩
    ⟨"foo".toList, 9⟩ rfl).1

/-- Claim C4: for every legacy IF directive whose parsed subject is a
`LegacyHelper`, the recognizer inserts an implicit first argument
`Path[@root]` whose span is the zero-width position immediately before the
original first argument, or at end-of-subject if there were no arguments;
in particular `<!--IF function.bar, a, b -->` tokenizes to one `LegacyIf`
whose subject is `LegacyHelper(bar)` with arguments: a zero-width
`Path[@root]` at the start of `a`, then `Path[a]`, then `Path[b]`. -/
theorem claim_C4 :
    (∀ (input rest tokSp sp name : Span) (args : List Expression),
      legacyIfBody input = some (rest, (tokSp, Expression.LegacyHelper sp name args)) →
      legacy_if input = some (rest, Token.LegacyIf tokSp
        (Expression.LegacyHelper sp name
          (Expression.Path
              (match args.head? with
               | some a => (Expression.span a).sliceTo 0
               | none => sp.sliceFrom sp.len)
              [PathPart.Part (Span.fresh ['@', 'r', 'o', 'o', 't'])] :: args)))) ∧
    (∀ a : Span, (a.sliceTo 0).len = 0 ∧ (a.sliceTo 0).off = a.off) ∧
    (∀ sp : Span, (sp.sliceFrom sp.len).len = 0 ∧
      (sp.sliceFrom sp.len).off = sp.off + sp.len) ∧
    tokens ⟨"<!--IF function.bar, a, b -->".toList, 0⟩ =
      some (⟨[], 29⟩, [Token.LegacyIf ⟨"<!--IF function.bar, a, b -->".toList, 0⟩
        (Expression.LegacyHelper ⟨"function.bar, a, b".toList, 7⟩ ⟨"bar".toList, 16⟩
          [Expression.Path ⟨[], 21⟩ [PathPart.Part ⟨"@root".toList, 0⟩],
           Expression.Path ⟨"a".toList, 21⟩ [PathPart.Part ⟨"a".toList, 21⟩],
           Expression.Path ⟨"b".toList, 24⟩ [PathPart.Part ⟨"b".toList, 24⟩]])]) := by
  refine ⟨?_, fun a => ⟨by simp [Span.sliceTo, Span.len], rfl⟩,
    fun sp => ⟨by simp [Span.sliceFrom, Span.len], rfl⟩, rfl⟩
  intro input rest tokSp sp name args h
  unfold legacy_if
  rw [pmap_some h]
  rfl

/-- Witness for C4: the `@root` insertion rule applied at the concrete
input `<!--IF function.bar, a, b -->`. -/
theorem claim_C4_witness :
    legacy_if ⟨"<!--IF function.bar, a, b -->".toList, 0⟩ =
      some (⟨[], 29⟩, Token.LegacyIf ⟨"<!--IF function.bar, a, b -->".toList, 0⟩
        (Expression.LegacyHelper ⟨"function.bar, a, b".toList, 7⟩ ⟨"bar".toList, 16⟩
          [Expression.Path ⟨[], 21⟩ [PathPart.Part (Span.fresh ['@', 'r', 'o', 'o', 't'])],
           Expression.Path ⟨"a".toList, 21⟩ [PathPart.Part ⟨"a".toList, 21⟩],
           Expression.Path ⟨"b".toList, 24⟩ [PathPart.Part ⟨"b".toList, 24⟩]])) :=
  claim_C4.1 ⟨"<!--IF function.bar, a, b -->".toList, 0⟩ ⟨[], 29⟩
    ⟨"<!--IF function.bar, a, b -->".toList, 0⟩ ⟨"function.bar, a, b".toList, 7⟩
    ⟨"bar".toList, 16⟩
    [Expression.Path ⟨"a".toList, 21⟩ [PathPart.Part ⟨"a".toList, 21⟩],
     Expression.Path ⟨"b".toList, 24⟩ [PathPart.Part ⟨"b".toList, 24⟩]] rfl


/-- Whether span `a` covers a sub-range of span `b`. -/
def Span.within (a b : Span) : Prop :=
  b.off ≤ a.off ∧ a.off + a.len ≤ b.off + b.len

/-- The `escape` function named by the escape-semantics invariant of the
spec: prefix a backslash before every opener (a brace or `<!--`) occurring
in the string. -/
def escape : List Char → List Char
  | [] => []
  | c :: cs =>
    if c = '{' ∨ (c = '<' ∧ cs.take 3 = ['!', '-', '-']) then '\\' :: c :: escape cs
    else c :: escape cs

/-- Counterexample to claim C7 as stated: in the tokenization of
`<!--IF function.bar, a, b -->`, the synthesized `@root` path part carries
a fresh span (offset 0 over the text `@root`) that is not a sub-range of
its enclosing expression's zero-width span at offset 21. -/
theorem claim_C7_counterexample :
    tokens ⟨"<!--IF function.bar, a, b -->".toList, 0⟩ =
      some (⟨[], 29⟩, [Token.LegacyIf ⟨"<!--IF function.bar, a, b -->".toList, 0⟩
        (Expression.LegacyHelper ⟨"function.bar, a, b".toList, 7⟩ ⟨"bar".toList, 16⟩
          [Expression.Path ⟨[], 21⟩ [PathPart.Part ⟨"@root".toList, 0⟩],
           Expression.Path ⟨"a".toList, 21⟩ [PathPart.Part ⟨"a".toList, 21⟩],
           Expression.Path ⟨"b".toList, 24⟩ [PathPart.Part ⟨"b".toList, 24⟩]])]) ∧
    ¬ Span.within ⟨"@root".toList, 0⟩ ⟨[], 21⟩ :=
  ⟨rfl, by simp [Span.within]⟩

/-- Counterexample to claim C8 as stated: for `s = a{b`, the tokenization
of `escape s` is two `Text` tokens (the escape forces a token break), not
the singleton `[Text s]`. -/
theorem claim_C8_counterexample :
    tokens ⟨escape ['a', '{', 'b'], 0⟩ =
      some (⟨[], 4⟩, [Token.Text ⟨['a'], 0⟩, Token.Text ⟨['{', 'b'], 2⟩]) ∧
    ¬ ∃ (r sp : Span), tokens ⟨escape ['a', '{', 'b'], 0⟩ = some (r, [Token.Text sp]) ∧
        sp.frag = ['a', '{', 'b'] := by
  refine ⟨rfl, ?_⟩
  rintro ⟨r, sp, h, -⟩
  rw [show tokens ⟨escape ['a', '{', 'b'], 0⟩ =
    some (⟨[], 4⟩, [Token.Text ⟨['a'], 0⟩, Token.Text ⟨['{', 'b'], 2⟩]) from rfl] at h
  simp at h


/-! ## Inversion lemmas -/

theorem pmap_inv {α β : Type} {p : P α} {f : α → β} {s r : Span} {v : β}
    (h : pmap p f s = some (r, v)) : ∃ v0, p s = some (r, v0) ∧ v = f v0 := by
  unfold pmap at h
  cases hps : p s with
  | none => rw [hps] at h; simp at h
  | some rv =>
    obtain ⟨r0, v0⟩ := rv
    rw [hps] at h
    simp only [Option.map_some', Option.some.injEq, Prod.mk.injEq] at h
    obtain ⟨heq, hv⟩ := h
    refine ⟨v0, ?_, ?_⟩
    · rw [heq]
    · rw [hv]

theorem palt_inv {α : Type} {p q : P α} {s : Span} {rv : Span × α}
    (h : palt p q s = some rv) : p s = some rv ∨ (p s = none ∧ q s = some rv) := by
  unfold palt at h
  split at h
  · rename_i heq
    cases h
    exact Or.inl heq
  · rename_i heq
    exact Or.inr ⟨heq, h⟩

theorem ppair_inv {α β : Type} {p : P α} {q : P β} {s r : Span} {v : α × β}
    (h : ppair p q s = some (r, v)) :
    ∃ r1, p s = some (r1, v.1) ∧ q r1 = some (r, v.2) := by
  unfold ppair at h
  split at h
  · cases h
  · split at h
    · cases h
    · cases h
      exact ⟨_, by assumption, by assumption⟩

theorem preceded_inv {α β : Type} {p : P α} {q : P β} {s r : Span} {v : β}
    (h : preceded p q s = some (r, v)) :
    ∃ r1 a, p s = some (r1, a) ∧ q r1 = some (r, v) := by
  obtain ⟨v0, hp, rfl⟩ := pmap_inv h
  obtain ⟨r1, h1, h2⟩ := ppair_inv hp
  exact ⟨r1, v0.1, h1, h2⟩

theorem delimited_inv {α β γ : Type} {a : P α} {b : P β} {c : P γ} {s r : Span} {v : β}
    (h : delimited a b c s = some (r, v)) :
    ∃ r1 x r2 y, a s = some (r1, x) ∧ b r1 = some (r2, v) ∧ c r2 = some (r, y) := by
  unfold delimited at h
  split at h
  · cases h
  · split at h
    · cases h
    · split at h
      · cases h
      · cases h
        exact ⟨_, _, _, _, by assumption, by assumption, by assumption⟩

theorem consumed_inv {α : Type} {p : P α} {s r sp : Span} {v : α}
    (h : consumed p s = some (r, (sp, v))) :
    p s = some (r, v) ∧ sp = s.sliceTo (s.len - r.len) := by
  unfold consumed at h
  split at h
  · cases h
  · cases h
    exact ⟨by assumption, rfl⟩

theorem recognize_inv {α : Type} {p : P α} {s r sp : Span}
    (h : recognize p s = some (r, sp)) :
    ∃ v0, p s = some (r, v0) ∧ sp = s.sliceTo (s.len - r.len) := by
  obtain ⟨⟨sp0, v0⟩, hc, rfl⟩ := pmap_inv h
  obtain ⟨hp, hsp⟩ := consumed_inv hc
  exact ⟨v0, hp, hsp⟩

theorem popt_inv {α : Type} {p : P α} {s r : Span} {ov : Option α}
    (h : popt p s = some (r, ov)) :
    (p s = none ∧ r = s ∧ ov = none) ∨ (∃ v, p s = some (r, v) ∧ ov = some v) := by
  unfold popt at h
  split at h
  · cases h
    exact Or.inr ⟨_, by assumption, rfl⟩
  · cases h
    exact Or.inl ⟨by assumption, rfl, rfl⟩

theorem tag_inv {lit : List Char} {s r : Span} {v : Span}
    (h : tag lit s = some (r, v)) :
    s.frag.take lit.length = lit ∧ r = s.sliceFrom lit.length ∧ v = s.sliceTo lit.length := by
  unfold tag at h
  split at h
  · cases h
    exact ⟨by assumption, rfl, rfl⟩
  · cases h

theorem take1_inv {s r v : Span} (h : take1 s = some (r, v)) :
    s.frag ≠ [] ∧ r = s.sliceFrom 1 ∧ v = s.sliceTo 1 := by
  unfold take1 at h
  split at h
  · cases h
  · cases h
    rename_i heq
    exact ⟨by simp [heq], rfl, rfl⟩

theorem munch1_inv {f : Char → Bool} {s r v : Span} (h : munch1 f s = some (r, v)) :
    (s.frag.takeWhile f).length ≠ 0 ∧ r = s.sliceFrom (s.frag.takeWhile f).length ∧
      v = s.sliceTo (s.frag.takeWhile f).length := by
  unfold munch1 at h
  split at h
  · cases h
  · cases h
    exact ⟨by assumption, rfl, rfl⟩

theorem munch0_inv {f : Char → Bool} {s r v : Span} (h : munch0 f s = some (r, v)) :
    r = s.sliceFrom (s.frag.takeWhile f).length ∧
      v = s.sliceTo (s.frag.takeWhile f).length := by
  unfold munch0 at h
  cases h
  exact ⟨rfl, rfl⟩

theorem takeUntil_inv {lit : List Char} {s r v : Span}
    (h : takeUntil lit s = some (r, v)) :
    ∃ k, findSubIdx lit s.frag = some k ∧ r = s.sliceFrom k ∧ v = s.sliceTo k := by
  unfold takeUntil at h
  simp only [Option.map_eq_some'] at h
  obtain ⟨k, hk, heq⟩ := h
  cases heq
  exact ⟨k, hk, rfl, rfl⟩

theorem many0CountF_succ_inv {α : Type} {p : P α} {s r : Span} {f n m : Nat}
    (h : many0CountF p (f + 1) s n = some (r, m)) :
    (p s = none ∧ r = s ∧ m = n) ∨
    (∃ r0 v0, p s = some (r0, v0) ∧ r0.len ≠ s.len ∧
      many0CountF p f r0 (n + 1) = some (r, m)) := by
  unfold many0CountF at h
  split at h
  · cases h
    exact Or.inl ⟨by assumption, rfl, rfl⟩
  · split at h
    · cases h
    · exact Or.inr ⟨_, _, by assumption, by assumption, h⟩

theorem many0F_succ_inv {α : Type} {p : P α} {s r : Span} {f : Nat} {acc out : List α}
    (h : many0F p (f + 1) s acc = some (r, out)) :
    (p s = none ∧ r = s ∧ out = acc) ∨
    (∃ r0 v0, p s = some (r0, v0) ∧ r0.len ≠ s.len ∧
      many0F p f r0 (acc ++ [v0]) = some (r, out)) := by
  unfold many0F at h
  split at h
  · cases h
    exact Or.inl ⟨by assumption, rfl, rfl⟩
  · split at h
    · cases h
    · exact Or.inr ⟨_, _, by assumption, by assumption, h⟩

theorem sepLoopF_succ_inv {α β : Type} {sep : P β} {elem : P α} {i r : Span} {f : Nat}
    {acc out : List α} (h : sepLoopF sep elem (f + 1) i acc = some (r, out)) :
    (sep i = none ∧ r = i ∧ out = acc) ∨
    (∃ i1 b, sep i = some (i1, b) ∧ elem i1 = none ∧ r = i ∧ out = acc) ∨
    (∃ i1 b i2 v, sep i = some (i1, b) ∧ elem i1 = some (i2, v) ∧ i2.len ≠ i.len ∧
      sepLoopF sep elem f i2 (acc ++ [v]) = some (r, out)) := by
  unfold sepLoopF at h
  split at h
  · cases h
    exact Or.inl ⟨by assumption, rfl, rfl⟩
  · split at h
    · cases h
      exact Or.inr (Or.inl ⟨_, _, by assumption, by assumption, rfl, rfl⟩)
    · split at h
      · cases h
      · exact Or.inr (Or.inr ⟨_, _, _, _, by assumption, by assumption, by assumption, h⟩)

theorem many1Count_inv {α : Type} {p : P α} {s r : Span} {m : Nat}
    (h : many1Count p s = some (r, m)) :
    ∃ r0 v0, p s = some (r0, v0) ∧ many0CountF p (r0.len + 1) r0 1 = some (r, m) := by
  unfold many1Count at h
  split at h
  · cases h
  · exact ⟨_, _, by assumption, h⟩

theorem sepList1_inv {α β : Type} {sep : P β} {elem : P α} {i r : Span} {out : List α}
    (h : sepList1 sep elem i = some (r, out)) :
    ∃ i1 v, elem i = some (i1, v) ∧ sepLoopF sep elem (i1.len + 1) i1 [v] = some (r, out) := by
  unfold sepList1 at h
  split at h
  · cases h
  · exact ⟨_, _, by assumption, h⟩

theorem sepList0_inv {α β : Type} {sep : P β} {elem : P α} {i r : Span} {out : List α}
    (h : sepList0 sep elem i = some (r, out)) :
    (elem i = none ∧ r = i ∧ out = []) ∨
    (∃ i1 v, elem i = some (i1, v) ∧
      sepLoopF sep elem (i1.len + 1) i1 [v] = some (r, out)) := by
  unfold sepList0 at h
  split at h
  · cases h
    exact Or.inl ⟨by assumption, rfl, rfl⟩
  · exact Or.inr ⟨_, _, by assumption, h⟩

theorem ws_inv {α : Type} {p : P α} {s r : Span} {v : α} (h : ws p s = some (r, v)) :
    ∃ r1 x r2 y, multispace0 s = some (r1, x) ∧ p r1 = some (r2, v) ∧
      multispace0 r2 = some (r, y) := delimited_inv h

theorem identifier_inv {input r res1 : Span} (h : identifier input = some (r, res1)) :
    ∃ rest res, identRun input = some (rest, res) ∧
      ((endsDashDash res.frag = true ∧ rest.frag.head? = some '>' ∧
          r = input.sliceFrom (res.len - 2) ∧ res1 = input.sliceTo (res.len - 2)) ∨
       (¬ (endsDashDash res.frag = true ∧ rest.frag.head? = some '>') ∧
          r = rest ∧ res1 = res)) := by
  rw [identifier_eq] at h
  split at h
  · cases h
  · rename_i rest res hrun
    split at h
    · cases h
      rename_i hcond
      exact ⟨rest, res, hrun, Or.inl ⟨hcond.1, hcond.2, rfl, rfl⟩⟩
    · cases h
      exact ⟨r, res1, hrun, Or.inr ⟨by assumption, rfl, rfl⟩⟩

/-! ## Canonical-suffix framework -/

theorem len_sliceFrom (s : Span) (i : Nat) : (s.sliceFrom i).len = s.len - i := by
  simp [Span.sliceFrom, Span.len]

theorem sliceFrom_sliceFrom (s : Span) (i j : Nat) :
    (s.sliceFrom i).sliceFrom j = s.sliceFrom (i + j) := by
  simp [Span.sliceFrom, List.drop_drop, Nat.add_assoc, Nat.add_comm i j]

theorem tag_length_le {lit : List Char} {s : Span} (hc : s.frag.take lit.length = lit) :
    lit.length ≤ s.len := by
  have h := congrArg List.length hc
  simp only [List.length_take, Span.len] at h ⊢
  omega

theorem takeWhile_len_le (f : Char → Bool) (l : List Char) :
    (l.takeWhile f).length ≤ l.length := by
  induction l with
  | nil => simp
  | cons c t ih =>
    rw [List.takeWhile_cons]
    split <;> simp <;> omega

/-- Every success of `p` returns a canonical suffix of the input. -/
def Canon {α : Type} (p : P α) : Prop :=
  ∀ s r : Span, ∀ v : α, p s = some (r, v) → ∃ k, k ≤ s.len ∧ r = s.sliceFrom k

/-- Every success of `p` returns a canonical suffix after consuming at
least one character. -/
def CanonGe1 {α : Type} (p : P α) : Prop :=
  ∀ s r : Span, ∀ v : α, p s = some (r, v) → ∃ k, 1 ≤ k ∧ k ≤ s.len ∧ r = s.sliceFrom k

theorem CanonGe1.canon {α : Type} {p : P α} (h : CanonGe1 p) : Canon p :=
  fun s r v hp => (h s r v hp).imp (fun _ hk => ⟨hk.2.1, hk.2.2⟩)

theorem canon_pmap {α β : Type} {p : P α} {f : α → β} (h : Canon p) : Canon (pmap p f) := by
  intro s r v hp
  obtain ⟨v0, hp0, rfl⟩ := pmap_inv hp
  exact h s r v0 hp0

theorem canonGe1_pmap {α β : Type} {p : P α} {f : α → β} (h : CanonGe1 p) :
    CanonGe1 (pmap p f) := by
  intro s r v hp
  obtain ⟨v0, hp0, rfl⟩ := pmap_inv hp
  exact h s r v0 hp0

theorem canon_palt {α : Type} {p q : P α} (hp : Canon p) (hq : Canon q) :
    Canon (palt p q) := by
  intro s r v h
  rcases palt_inv h with hc | ⟨-, hc⟩
  · exact hp s r v hc
  · exact hq s r v hc

theorem canonGe1_palt {α : Type} {p q : P α} (hp : CanonGe1 p) (hq : CanonGe1 q) :
    CanonGe1 (palt p q) := by
  intro s r v h
  rcases palt_inv h with hc | ⟨-, hc⟩
  · exact hp s r v hc
  · exact hq s r v hc

theorem canon_ppair {α β : Type} {p : P α} {q : P β} (hp : Canon p) (hq : Canon q) :
    Canon (ppair p q) := by
  intro s r v h
  obtain ⟨r1, h1, h2⟩ := ppair_inv h
  obtain ⟨k1, hk1, rfl⟩ := hp s r1 _ h1
  obtain ⟨k2, hk2, rfl⟩ := hq _ r _ h2
  rw [len_sliceFrom] at hk2
  exact ⟨k1 + k2, by omega, sliceFrom_sliceFrom s k1 k2⟩

theorem canonGe1_ppair_left {α β : Type} {p : P α} {q : P β}
    (hp : CanonGe1 p) (hq : Canon q) : CanonGe1 (ppair p q) := by
  intro s r v h
  obtain ⟨r1, h1, h2⟩ := ppair_inv h
  obtain ⟨k1, hk11, hk1, rfl⟩ := hp s r1 _ h1
  obtain ⟨k2, hk2, rfl⟩ := hq _ r _ h2
  rw [len_sliceFrom] at hk2
  exact ⟨k1 + k2, by omega, by omega, sliceFrom_sliceFrom s k1 k2⟩

theorem canon_preceded {α β : Type} {p : P α} {q : P β} (hp : Canon p) (hq : Canon q) :
    Canon (preceded p q) := canon_pmap (canon_ppair hp hq)

theorem canon_delimited {α β γ : Type} {a : P α} {b : P β} {c : P γ}
    (ha : Canon a) (hb : Canon b) (hc : Canon c) : Canon (delimited a b c) := by
  intro s r v h
  obtain ⟨r1, x, r2, y, h1, h2, h3⟩ := delimited_inv h
  obtain ⟨k1, hk1, rfl⟩ := ha s r1 _ h1
  obtain ⟨k2, hk2, rfl⟩ := hb _ r2 _ h2
  obtain ⟨k3, hk3, rfl⟩ := hc _ r _ h3
  rw [len_sliceFrom] at hk2
  rw [sliceFrom_sliceFrom, len_sliceFrom] at hk3
  refine ⟨k1 + k2 + k3, by omega, ?_⟩
  rw [sliceFrom_sliceFrom, sliceFrom_sliceFrom]
  congr 1
  omega

theorem canonGe1_delimited {α β γ : Type} {a : P α} {b : P β} {c : P γ}
    (ha : CanonGe1 a) (hb : Canon b) (hc : Canon c) : CanonGe1 (delimited a b c) := by
  intro s r v h
  obtain ⟨r1, x, r2, y, h1, h2, h3⟩ := delimited_inv h
  obtain ⟨k1, hk11, hk1, rfl⟩ := ha s r1 _ h1
  obtain ⟨k2, hk2, rfl⟩ := hb _ r2 _ h2
  obtain ⟨k3, hk3, rfl⟩ := hc _ r _ h3
  rw [len_sliceFrom] at hk2
  rw [sliceFrom_sliceFrom, len_sliceFrom] at hk3
  refine ⟨k1 + k2 + k3, by omega, by omega, ?_⟩
  rw [sliceFrom_sliceFrom, sliceFrom_sliceFrom]
  congr 1
  omega

theorem canon_consumed {α : Type} {p : P α} (h : Canon p) : Canon (consumed p) := by
  intro s r v hp
  obtain ⟨sp, v0⟩ := v
  obtain ⟨hp0, -⟩ := consumed_inv hp
  exact h s r v0 hp0

theorem canonGe1_consumed {α : Type} {p : P α} (h : CanonGe1 p) : CanonGe1 (consumed p) := by
  intro s r v hp
  obtain ⟨sp, v0⟩ := v
  obtain ⟨hp0, -⟩ := consumed_inv hp
  exact h s r v0 hp0

theorem canon_recognize {α : Type} {p : P α} (h : Canon p) : Canon (recognize p) :=
  canon_pmap (canon_consumed h)

theorem canonGe1_recognize {α : Type} {p : P α} (h : CanonGe1 p) : CanonGe1 (recognize p) :=
  canonGe1_pmap (canonGe1_consumed h)

theorem canon_popt {α : Type} {p : P α} (h : Canon p) : Canon (popt p) := by
  intro s r v hp
  rcases popt_inv hp with ⟨-, rfl, -⟩ | ⟨v0, hp0, -⟩
  · exact ⟨0, Nat.zero_le _, (sliceFrom_zero r).symm⟩
  · exact h s r v0 hp0

theorem canon_tag {lit : List Char} : Canon (tag lit) := by
  intro s r v h
  obtain ⟨hc, rfl, -⟩ := tag_inv h
  exact ⟨lit.length, tag_length_le hc, rfl⟩

theorem canonGe1_tag {x : Char} {xs : List Char} : CanonGe1 (tag (x :: xs)) := by
  intro s r v h
  obtain ⟨hc, rfl, -⟩ := tag_inv h
  exact ⟨(x :: xs).length, by simp, tag_length_le hc, rfl⟩

theorem canon_take1 : Canon take1 := by
  intro s r v h
  obtain ⟨hne, rfl, -⟩ := take1_inv h
  refine ⟨1, ?_, rfl⟩
  cases hf : s.frag with
  | nil => exact absurd hf hne
  | cons c t => simp [Span.len, hf]

theorem canon_munch1 {f : Char → Bool} : Canon (munch1 f) := by
  intro s r v h
  obtain ⟨-, rfl, -⟩ := munch1_inv h
  exact ⟨_, takeWhile_len_le f s.frag, rfl⟩

theorem canon_munch0 {f : Char → Bool} : Canon (munch0 f) := by
  intro s r v h
  obtain ⟨rfl, -⟩ := munch0_inv h
  exact ⟨_, takeWhile_len_le f s.frag, rfl⟩

theorem findSubIdx_le {lit cs : List Char} {k : Nat} (h : findSubIdx lit cs = some k) :
    k ≤ cs.length := by
  induction cs generalizing k with
  | nil =>
    unfold findSubIdx at h
    split at h
    · cases h; simp
    · cases h
  | cons c t ih =>
    unfold findSubIdx at h
    split at h
    · cases h; simp
    · simp only [Option.map_eq_some'] at h
      obtain ⟨k0, hk0, rfl⟩ := h
      have := ih hk0
      simp only [List.length_cons]
      omega

theorem canon_takeUntil {lit : List Char} : Canon (takeUntil lit) := by
  intro s r v h
  obtain ⟨k, hk, rfl, -⟩ := takeUntil_inv h
  exact ⟨k, findSubIdx_le hk, rfl⟩

theorem canon_many0CountF {α : Type} {p : P α} (hp : Canon p) :
    ∀ (f : Nat) (s r : Span) (n m : Nat), many0CountF p f s n = some (r, m) →
      ∃ k, k ≤ s.len ∧ r = s.sliceFrom k := by
  intro f
  induction f with
  | zero => intro s r n m h; cases h
  | succ f ih =>
    intro s r n m h
    rcases many0CountF_succ_inv h with ⟨-, rfl, -⟩ | ⟨r0, v0, hp0, -, hrec⟩
    · exact ⟨0, Nat.zero_le _, (sliceFrom_zero r).symm⟩
    · obtain ⟨k1, hk1, rfl⟩ := hp s r0 v0 hp0
      obtain ⟨k2, hk2, rfl⟩ := ih _ r _ _ hrec
      rw [len_sliceFrom] at hk2
      exact ⟨k1 + k2, by omega, sliceFrom_sliceFrom s k1 k2⟩

theorem canon_many1Count {α : Type} {p : P α} (hp : Canon p) : Canon (many1Count p) := by
  intro s r v h
  obtain ⟨r0, v0, hp0, hrec⟩ := many1Count_inv h
  obtain ⟨k1, hk1, rfl⟩ := hp s r0 v0 hp0
  obtain ⟨k2, hk2, rfl⟩ := canon_many0CountF hp _ _ r _ _ hrec
  rw [len_sliceFrom] at hk2
  exact ⟨k1 + k2, by omega, sliceFrom_sliceFrom s k1 k2⟩

theorem canon_many0F {α : Type} {p : P α} (hp : Canon p) :
    ∀ (f : Nat) (s r : Span) (acc out : List α), many0F p f s acc = some (r, out) →
      ∃ k, k ≤ s.len ∧ r = s.sliceFrom k := by
  intro f
  induction f with
  | zero => intro s r acc out h; cases h
  | succ f ih =>
    intro s r acc out h
    rcases many0F_succ_inv h with ⟨-, rfl, -⟩ | ⟨r0, v0, hp0, -, hrec⟩
    · exact ⟨0, Nat.zero_le _, (sliceFrom_zero r).symm⟩
    · obtain ⟨k1, hk1, rfl⟩ := hp s r0 v0 hp0
      obtain ⟨k2, hk2, rfl⟩ := ih _ r _ _ hrec
      rw [len_sliceFrom] at hk2
      exact ⟨k1 + k2, by omega, sliceFrom_sliceFrom s k1 k2⟩

theorem canon_many0P {α : Type} {p : P α} (hp : Canon p) : Canon (many0P p) :=
  fun s r v h => canon_many0F hp _ s r _ _ h

theorem canon_sepLoopF {α β : Type} {sep : P β} {elem : P α}
    (hsep : Canon sep) (helem : Canon elem) :
    ∀ (f : Nat) (i r : Span) (acc out : List α), sepLoopF sep elem f i acc = some (r, out) →
      ∃ k, k ≤ i.len ∧ r = i.sliceFrom k := by
  intro f
  induction f with
  | zero => intro i r acc out h; cases h
  | succ f ih =>
    intro i r acc out h
    rcases sepLoopF_succ_inv h with ⟨-, rfl, -⟩ | ⟨i1, b, -, -, rfl, -⟩ |
      ⟨i1, b, i2, v0, h1, h2, -, hrec⟩
    · exact ⟨0, Nat.zero_le _, (sliceFrom_zero r).symm⟩
    · exact ⟨0, Nat.zero_le _, (sliceFrom_zero r).symm⟩
    · obtain ⟨k1, hk1, rfl⟩ := hsep i i1 b h1
      obtain ⟨k2, hk2, rfl⟩ := helem _ i2 v0 h2
      obtain ⟨k3, hk3, rfl⟩ := ih _ r _ _ hrec
      rw [len_sliceFrom] at hk2
      rw [sliceFrom_sliceFrom, len_sliceFrom] at hk3
      refine ⟨k1 + k2 + k3, by omega, ?_⟩
      rw [sliceFrom_sliceFrom, sliceFrom_sliceFrom]
      congr 1
      omega

theorem canon_sepList1 {α β : Type} {sep : P β} {elem : P α}
    (hsep : Canon sep) (helem : Canon elem) : Canon (sepList1 sep elem) := by
  intro s r v h
  obtain ⟨i1, v0, he, hrec⟩ := sepList1_inv h
  obtain ⟨k1, hk1, rfl⟩ := helem s i1 v0 he
  obtain ⟨k2, hk2, rfl⟩ := canon_sepLoopF hsep helem _ _ r _ _ hrec
  rw [len_sliceFrom] at hk2
  exact ⟨k1 + k2, by omega, sliceFrom_sliceFrom s k1 k2⟩

theorem canon_sepList0 {α β : Type} {sep : P β} {elem : P α}
    (hsep : Canon sep) (helem : Canon elem) : Canon (sepList0 sep elem) := by
  intro s r v h
  rcases sepList0_inv h with ⟨-, rfl, -⟩ | ⟨i1, v0, he, hrec⟩
  · exact ⟨0, Nat.zero_le _, (sliceFrom_zero r).symm⟩
  · obtain ⟨k1, hk1, rfl⟩ := helem s i1 v0 he
    obtain ⟨k2, hk2, rfl⟩ := canon_sepLoopF hsep helem _ _ r _ _ hrec
    rw [len_sliceFrom] at hk2
    exact ⟨k1 + k2, by omega, sliceFrom_sliceFrom s k1 k2⟩

theorem canon_multispace0 : Canon multispace0 := canon_munch0

theorem canon_ws {α : Type} {p : P α} (h : Canon p) : Canon (ws p) :=
  canon_delimited canon_multispace0 h canon_multispace0

theorem canon_identRun : Canon identRun :=
  canon_recognize (canon_many1Count (canon_palt canon_munch1 canon_munch1))

theorem canon_identifier : Canon identifier := by
  intro s r v h
  obtain ⟨rest, res, hrun, hcase⟩ := identifier_inv h
  rcases hcase with ⟨-, -, rfl, -⟩ | ⟨-, rfl, -⟩
  · obtain ⟨k, hk, -⟩ := canon_identRun s rest res hrun
    exact ⟨res.len - 2, by
      have hres : res.len ≤ s.len := by
        obtain ⟨v0, -, hsp⟩ := recognize_inv hrun
        subst hsp
        simp only [Span.sliceTo, Span.len, List.length_take]
        omega
      omega, rfl⟩
  · exact canon_identRun s r res hrun

/-- The expression grammar parsers are all canonical. -/
theorem canon_keyword_tags : Canon keyword_tags := by
  unfold keyword_tags
  exact canon_palt canon_tag (canon_palt canon_tag (canon_palt canon_tag
    (canon_palt canon_tag (canon_palt canon_tag canon_tag))))

theorem canon_scope_marker : Canon scope_marker :=
  canon_pmap (canon_palt canon_tag canon_tag)

theorem canon_string_literal : Canon string_literal := by
  unfold string_literal
  exact canon_pmap (canon_recognize (canon_delimited canon_tag
    (fun s r v h => canon_many0CountF
      (canon_palt (canon_preceded canon_tag canon_take1) canon_munch1) _ s r _ _ h)
    canon_tag))

theorem canon_path : Canon path := by
  unfold path
  exact canon_palt (canon_pmap canon_keyword_tags)
    (canon_pmap (canon_consumed (canon_ppair (canon_many0P canon_scope_marker)
      (canon_sepList1 canon_tag (canon_pmap canon_identifier)))))

theorem canon_negativeP {q : P Expression} (hq : Canon q) : Canon (negativeP q) := by
  unfold negativeP
  exact canon_pmap (canon_consumed (canon_preceded (canon_ws canon_tag) hq))

theorem canon_helperP {q : P Expression} (hq : Canon q) : Canon (helperP q) := by
  unfold helperP
  exact canon_pmap (canon_consumed (canon_ppair canon_identifier
    (canon_delimited canon_tag (canon_sepList0 canon_tag (canon_ws hq)) canon_tag)))

theorem canon_legacyHelperBody {q : P Expression} (hq : Canon q) :
    Canon (legacyHelperBody q) := by
  unfold legacyHelperBody
  exact canon_consumed (canon_ppair (canon_preceded canon_tag canon_identifier)
    (canon_popt (canon_preceded (canon_ws canon_tag)
      (canon_sepList0 (canon_ws canon_tag) hq))))

theorem canon_legacyHelperP {q : P Expression} (hq : Canon q) : Canon (legacyHelperP q) :=
  canon_pmap (canon_legacyHelperBody hq)

theorem canon_expressionF : ∀ f : Nat, Canon (expressionF f) := by
  intro f
  induction f with
  | zero => intro s r v h; cases h
  | succ f ih =>
    rw [expressionF_succ]
    exact canon_palt (canon_negativeP ih) (canon_palt (canon_legacyHelperP ih)
      (canon_palt (canon_helperP ih) (canon_palt canon_string_literal canon_path)))

theorem canon_expression : Canon expression :=
  fun s r v h => canon_expressionF (s.len + 1) s r v h

/-! ## Token recognizers: consumption and span facts -/

/-- Every success of a token recognizer consumes `k ≥ 1` characters,
returns the canonical suffix, and the token's span is exactly the consumed
prefix. -/
def TokSpec (p : P Token) : Prop :=
  ∀ s r : Span, ∀ t : Token, p s = some (r, t) →
    ∃ k, 1 ≤ k ∧ k ≤ s.len ∧ r = s.sliceFrom k ∧ Token.span t = s.sliceTo k

theorem tokspec_palt {p q : P Token} (hp : TokSpec p) (hq : TokSpec q) :
    TokSpec (palt p q) := by
  intro s r t h
  rcases palt_inv h with hc | ⟨-, hc⟩
  · exact hp s r t hc
  · exact hq s r t hc

theorem len_sub_len_sliceFrom {s : Span} {k : Nat} (hk : k ≤ s.len) :
    s.len - (s.sliceFrom k).len = k := by
  rw [len_sliceFrom]
  omega

theorem tokspec_consumed_shape {α : Type} {q : P α} {f : Span × α → Token}
    (hq : CanonGe1 q) (hf : ∀ sp : Span, ∀ v : α, Token.span (f (sp, v)) = sp) :
    TokSpec (pmap (consumed q) f) := by
  intro s r t h
  obtain ⟨⟨sp, v⟩, hc, rfl⟩ := pmap_inv h
  obtain ⟨hqs, hsp⟩ := consumed_inv hc
  obtain ⟨k, hk1, hk, rfl⟩ := hq s r v hqs
  refine ⟨k, hk1, hk, rfl, ?_⟩
  rw [hf, hsp, len_sub_len_sliceFrom hk]

theorem tokspec_recognize_shape {α : Type} {q : P α} {f : Span → Token}
    (hq : CanonGe1 q) (hf : ∀ sp : Span, Token.span (f sp) = sp) :
    TokSpec (pmap (recognize q) f) := by
  intro s r t h
  obtain ⟨sp, hc, rfl⟩ := pmap_inv h
  obtain ⟨v, hqs, hsp⟩ := recognize_inv hc
  obtain ⟨k, hk1, hk, rfl⟩ := hq s r v hqs
  refine ⟨k, hk1, hk, rfl, ?_⟩
  rw [hf, hsp, len_sub_len_sliceFrom hk]

theorem canonGe1_ws_tag_head {α : Type} {a : P α} {x : Char} {xs : List Char}
    (ha : CanonGe1 a) : CanonGe1 (ppair a (ws (tag (x :: xs)))) :=
  canonGe1_ppair_left ha (canon_ws canon_tag)

theorem tokspec_interp_escaped : TokSpec interp_escaped := by
  unfold interp_escaped
  exact tokspec_consumed_shape
    (canonGe1_delimited canonGe1_tag (canon_ws canon_expression) canon_tag)
    (fun sp v => rfl)

theorem tokspec_interp_raw : TokSpec interp_raw := by
  unfold interp_raw
  exact tokspec_consumed_shape
    (canonGe1_delimited canonGe1_tag (canon_ws canon_expression) canon_tag)
    (fun sp v => rfl)

theorem tokspec_new_each : TokSpec new_each := by
  unfold new_each
  exact tokspec_consumed_shape
    (canonGe1_delimited (canonGe1_ppair_left canonGe1_tag (canon_ws canon_tag))
      (canon_ws canon_expression) canon_tag)
    (fun sp v => rfl)

theorem tokspec_new_if : TokSpec new_if := by
  unfold new_if
  exact tokspec_consumed_shape
    (canonGe1_delimited (canonGe1_ppair_left canonGe1_tag (canon_ws canon_tag))
      (canon_ws canon_expression) canon_tag)
    (fun sp v => rfl)

theorem tokspec_new_else : TokSpec new_else := by
  unfold new_else
  exact tokspec_recognize_shape
    (canonGe1_delimited canonGe1_tag (canon_ws canon_tag) canon_tag)
    (fun sp => rfl)

theorem tokspec_new_end : TokSpec new_end := by
  unfold new_end
  exact tokspec_recognize_shape
    (canonGe1_delimited canonGe1_tag (canon_ws canon_tag) canon_tag)
    (fun sp => rfl)

theorem tokspec_legacy_begin : TokSpec legacy_begin := by
  unfold legacy_begin
  exact tokspec_consumed_shape
    (canonGe1_delimited (canonGe1_ppair_left canonGe1_tag (canon_ws canon_tag))
      (canon_ws canon_expression) canon_tag)
    (fun sp v => rfl)

theorem tokspec_legacy_if : TokSpec legacy_if := by
  unfold legacy_if legacyIfBody
  exact tokspec_consumed_shape
    (canonGe1_delimited (canonGe1_ppair_left canonGe1_tag (canon_ws canon_tag))
      (canon_ws canon_expression) canon_tag)
    (fun sp v => rfl)

theorem tokspec_legacy_else : TokSpec legacy_else := by
  unfold legacy_else
  exact tokspec_recognize_shape
    (canonGe1_delimited canonGe1_tag (canon_ws canon_tag) canon_tag)
    (fun sp => rfl)

theorem tokspec_legacy_end : TokSpec legacy_end := by
  unfold legacy_end
  exact tokspec_consumed_shape
    (canonGe1_delimited
      (canonGe1_ppair_left canonGe1_tag (canon_ws (canon_palt canon_tag canon_tag)))
      (canon_ws canon_takeUntil) canon_tag)
    (fun sp v => rfl)

theorem tokspec_token : TokSpec token := by
  unfold token
  exact tokspec_palt tokspec_interp_escaped (tokspec_palt tokspec_interp_raw
    (tokspec_palt tokspec_new_each (tokspec_palt tokspec_new_if
    (tokspec_palt tokspec_new_else (tokspec_palt tokspec_new_end
    (tokspec_palt tokspec_legacy_begin (tokspec_palt tokspec_legacy_if
    (tokspec_palt tokspec_legacy_else tokspec_legacy_end))))))))

/-! ## The anchor scan: facts about `acFind` -/

theorem firstMatch_spec {cs : List Char} :
    ∀ (pats : List (List Char)) (i pi : Nat), firstMatch cs pats i = some pi →
      ∃ j, j < pats.length ∧ pi = i + j ∧
        cs.take (pats.getD j []).length = pats.getD j [] := by
  intro pats
  induction pats with
  | nil => intro i pi h; cases h
  | cons p ps ih =>
    intro i pi h
    unfold firstMatch at h
    split at h
    · cases h
      exact ⟨0, by simp, by omega, by simpa using (by assumption)⟩
    · obtain ⟨j, hj, rfl, hc⟩ := ih _ _ h
      exact ⟨j + 1, by simp; omega, by omega, by simpa using hc⟩

theorem firstPatIdx_spec {cs : List Char} {pi : Nat} (h : firstPatIdx cs = some pi) :
    pi < 9 ∧ cs.take (PATTERNS.getD pi []).length = PATTERNS.getD pi [] := by
  obtain ⟨j, hj, hpi, hc⟩ := firstMatch_spec PATTERNS 0 pi h
  have h9 : PATTERNS.length = 9 := rfl
  constructor
  · omega
  · have : pi = j := by omega
    rw [this]
    exact hc

theorem acFind_spec {cs : List Char} {pi st : Nat} (h : acFind cs = some (pi, st)) :
    pi < 9 ∧ (cs.drop st).take (PATTERNS.getD pi []).length = PATTERNS.getD pi [] := by
  induction cs generalizing st with
  | nil => cases h
  | cons c t ih =>
    unfold acFind at h
    split at h
    · rename_i pi0 hfp
      cases h
      exact ⟨(firstPatIdx_spec hfp).1, by simpa using (firstPatIdx_spec hfp).2⟩
    · simp only [Option.map_eq_some'] at h
      obtain ⟨⟨pi0, st0⟩, hfind, heq⟩ := h
      cases heq
      obtain ⟨h1, h2⟩ := ih hfind
      exact ⟨h1, by simpa using h2⟩

theorem patterns_len_pos {pi : Nat} (h : pi < 9) : 1 ≤ (PATTERNS.getD pi []).length := by
  interval_cases pi <;> decide

theorem patterns_esc_head {pi : Nat} (h : pi ≤ 3) :
    (PATTERNS.getD pi []).head? = some '\\' := by
  interval_cases pi <;> decide

theorem acFind_bound {cs : List Char} {pi st : Nat} (h : acFind cs = some (pi, st)) :
    st + (PATTERNS.getD pi []).length ≤ cs.length := by
  obtain ⟨h9, hc⟩ := acFind_spec h
  have hlen := congrArg List.length hc
  simp only [List.length_take, List.length_drop] at hlen
  have := patterns_len_pos h9
  omega

/-! ## Coverage instrumentation: tokens interleaved with elided escapes -/

/-- A piece of the source as the tokenizer accounts for it: either an
elided escape backslash or an emitted token. -/
inductive Piece where
  | esc : Piece
  | tok : Token → Piece

/-- The source text a piece covers. -/
def pieceText : Piece → List Char
  | .esc => ['\\']
  | .tok t => (Token.span t).frag

/-- The tokens among a list of pieces, in order. -/
def piecesToks (ps : List Piece) : List Token :=
  ps.filterMap (fun pc => match pc with | .esc => none | .tok t => some t)

theorem piecesToks_append (ps qs : List Piece) :
    piecesToks (ps ++ qs) = piecesToks ps ++ piecesToks qs := by
  simp [piecesToks]

theorem piecesToks_cons_tok (t : Token) (ps : List Piece) :
    piecesToks (Piece.tok t :: ps) = t :: piecesToks ps := rfl

theorem piecesToks_cons_esc (ps : List Piece) :
    piecesToks (Piece.esc :: ps) = piecesToks ps := rfl

theorem sliceFrom_len (s : Span) : s.sliceFrom s.len = ⟨[], s.off + s.len⟩ := by
  simp [Span.sliceFrom, Span.len]

theorem cover_split (l : List Char) (i k : Nat) :
    l.take i ++ ((l.drop i).take k ++ l.drop (i + k)) = l := by
  have h : l.drop (i + k) = (l.drop i).drop k := by rw [List.drop_drop]
  rw [h, List.take_append_drop, List.take_append_drop]

theorem head_take {l : List Char} {n : Nat} (hn : n ≠ 0) :
    (l.take n).head? = l.head? := by
  cases l with
  | nil => simp
  | cons c t =>
    cases n with
    | zero => exact absurd rfl hn
    | succ n => simp

theorem span_ne_of_len_ne {a b : Span} (h : a.len ≠ b.len) : a ≠ b := by
  intro he
  exact h (he ▸ rfl)

/-! ## Branch evaluation lemmas for the tokenizer loop -/

theorem tokensF_exit {fuel : Nat} {input : Span} {index : Nat} {acc : List Token}
    (h : ¬ index < input.len) :
    tokensF (fuel + 1) input index acc = some (input.sliceFrom input.len,
      acc ++ (if 0 < index then [Token.Text (input.sliceTo index)] else [])) := by
  simp [tokensF, h]

theorem tokensF_nofind {fuel : Nat} {input : Span} {index : Nat} {acc : List Token}
    (h1 : index < input.len) (h2 : acFind (input.sliceFrom index).frag = none) :
    tokensF (fuel + 1) input index acc = some (input.sliceFrom input.len,
      acc ++ (if 0 < input.len then [Token.Text (input.sliceTo input.len)] else [])) := by
  simp [tokensF, h1, h2]

theorem tokensF_opener_err {fuel : Nat} {input : Span} {index : Nat} {acc : List Token}
    {pi st : Nat} (h1 : index < input.len)
    (h2 : acFind (input.sliceFrom index).frag = some (pi, st))
    (h3 : 4 ≤ pi ∧ pi ≤ 5) (h4 : token (input.sliceFrom (index + st)) = none) :
    tokensF (fuel + 1) input index acc = tokensF fuel input (index + st + 1) acc := by
  simp [tokensF, h1, h2, h3, h4]

theorem tokensF_opener_ok {fuel : Nat} {input rest : Span} {index : Nat}
    {acc : List Token} {pi st : Nat} {tok : Token} (h1 : index < input.len)
    (h2 : acFind (input.sliceFrom index).frag = some (pi, st))
    (h3 : 4 ≤ pi ∧ pi ≤ 5) (h4 : token (input.sliceFrom (index + st)) = some (rest, tok))
    (h5 : ¬ rest = input) :
    tokensF (fuel + 1) input index acc = tokensF fuel rest 0
      ((if 0 < index + st then acc ++ [Token.Text (input.sliceTo (index + st))] else acc)
        ++ [tok]) := by
  simp [tokensF, h1, h2, h3, h4, h5]

theorem tokensF_escape {fuel : Nat} {input : Span} {index : Nat} {acc : List Token}
    {pi st : Nat} (h1 : index < input.len)
    (h2 : acFind (input.sliceFrom index).frag = some (pi, st))
    (h3 : ¬ (4 ≤ pi ∧ pi ≤ 5)) (h4 : pi ≤ 3) :
    tokensF (fuel + 1) input index acc =
      tokensF fuel (input.sliceFrom (index + st + 1)) ((PATTERNS.getD pi []).length - 1)
        (if 0 < index + st then acc ++ [Token.Text (input.sliceTo (index + st))]
         else acc) := by
  simp [tokensF, h1, h2, h3, h4]

theorem tokensF_keyword {fuel : Nat} {input re : Span} {index : Nat} {acc : List Token}
    {pi st : Nat} {expr : Expression} (h1 : index < input.len)
    (h2 : acFind (input.sliceFrom index).frag = some (pi, st))
    (h3 : ¬ (4 ≤ pi ∧ pi ≤ 5)) (h4 : ¬ pi ≤ 3)
    (h5 : expression ((input.sliceFrom (index + st)).sliceTo
        (PATTERNS.getD pi []).length) = some (re, expr)) :
    tokensF (fuel + 1) input index acc =
      tokensF fuel (input.sliceFrom (index + st + (PATTERNS.getD pi []).length)) 0
        ((if 0 < index + st then acc ++ [Token.Text (input.sliceTo (index + st))]
          else acc)
          ++ [Token.InterpEscaped
            ((input.sliceFrom (index + st)).sliceTo (PATTERNS.getD pi []).length) expr]) := by
  have h5a : expression ((input.sliceFrom (index + st)).sliceTo
      ((PATTERNS[pi]?.getD []).length)) = some (re, expr) := by simpa using h5
  simp [tokensF, h1, h2, h3, h4, h5a]

theorem kw_expr_isSome {pi : Nat} (h6 : 6 ≤ pi) (h9 : pi < 9) (o : Nat) :
    ∃ (re : Span) (ex : Expression),
      expression ⟨PATTERNS.getD pi [], o⟩ = some (re, ex) := by
  interval_cases pi
  · exact ⟨_, _, rfl⟩
  · exact ⟨_, _, rfl⟩
  · exact ⟨_, _, rfl⟩

/-- The master loop invariant: from any reachable state the tokenizer
terminates successfully, positioned at end of input, and the emitted
tokens, interleaved with the elided escape backslashes at their original
positions, cover the remaining input exactly. -/
theorem tokensF_master :
    ∀ (fuel : Nat) (input : Span) (index : Nat) (acc : List Token),
      index ≤ input.len → 2 * input.len - index < fuel →
      ∃ ps : List Piece,
        tokensF fuel input index acc =
          some (⟨[], input.off + input.len⟩, acc ++ piecesToks ps) ∧
        (ps.map pieceText).flatten = input.frag := by
  intro fuel
  induction fuel with
  | zero =>
    intro input index acc h1 h2
    omega
  | succ fuel ih =>
    intro input index acc hidx hfuel
    by_cases hlt : index < input.len
    case neg =>
      have hie : index = input.len := by omega
      refine ⟨if 0 < index then [Piece.tok (Token.Text (input.sliceTo index))] else [],
        ?_, ?_⟩
      · rw [tokensF_exit hlt, sliceFrom_len input]
        by_cases h0 : 0 < index <;> simp [h0, piecesToks]
      · by_cases h0 : 0 < index
        · simp only [h0, if_true, List.map_cons, List.map_nil, List.flatten_cons,
            List.flatten_nil, List.append_nil, pieceText, Token.span, Span.sliceTo]
          rw [hie]
          exact List.take_length input.frag
        · have hfr : input.frag = [] := by
            apply List.length_eq_zero.mp
            have : input.len = 0 := by omega
            simpa [Span.len] using this
          simp [h0, hfr]
    case pos =>
      cases hf : acFind (input.sliceFrom index).frag with
      | none =>
        refine ⟨if 0 < input.len then [Piece.tok (Token.Text (input.sliceTo input.len))]
          else [], ?_, ?_⟩
        · rw [tokensF_nofind hlt hf, sliceFrom_len input]
          by_cases h0 : 0 < input.len <;> simp [h0, piecesToks]
        · by_cases h0 : 0 < input.len
          · simp only [h0, if_true, List.map_cons, List.map_nil, List.flatten_cons,
              List.flatten_nil, List.append_nil, pieceText, Token.span, Span.sliceTo]
            exact List.take_length input.frag
          · have hfr : input.frag = [] := by
              apply List.length_eq_zero.mp
              have : input.len = 0 := by omega
              simpa [Span.len] using this
            simp [h0, hfr]
      | some pist =>
        obtain ⟨pi, st⟩ := pist
        have hlen : input.len = input.frag.length := rfl
        obtain ⟨h9, hpat0⟩ := acFind_spec hf
        have hplen1 : 1 ≤ (PATTERNS.getD pi []).length := patterns_len_pos h9
        have hbound : st + (PATTERNS.getD pi []).length ≤ input.len - index := by
          have hb0 := acFind_bound hf
          simp only [Span.sliceFrom, List.length_drop] at hb0
          exact hb0
        have hpat : (input.frag.drop (index + st)).take (PATTERNS.getD pi []).length =
            PATTERNS.getD pi [] := by
          have hdd : (input.sliceFrom index).frag.drop st = input.frag.drop (index + st) := by
            simp [Span.sliceFrom, List.drop_drop]
          rw [← hdd]
          exact hpat0
        by_cases h45 : 4 ≤ pi ∧ pi ≤ 5
        · -- an opener: attempt a token at index + st
          cases htok : token (input.sliceFrom (index + st)) with
          | none =>
            have hb : index + st + 1 ≤ input.len := by omega
            obtain ⟨ps, hrun, hcov⟩ := ih input (index + st + 1) acc hb (by omega)
            exact ⟨ps, by rw [tokensF_opener_err hlt hf h45 htok]; exact hrun, hcov⟩
          | some rt =>
            obtain ⟨rest, tok⟩ := rt
            obtain ⟨k, hk1, hk0, hrest, hspan⟩ := tokspec_token _ _ _ htok
            have hk : k ≤ input.len - (index + st) := by
              rw [len_sliceFrom] at hk0
              exact hk0
            rw [sliceFrom_sliceFrom] at hrest
            have hne : ¬ rest = input := by
              apply span_ne_of_len_ne
              rw [hrest, len_sliceFrom]
              omega
            subst hrest
            obtain ⟨ps, hrun, hcov⟩ :=
              ih (input.sliceFrom (index + st + k)) 0
                ((if 0 < index + st then acc ++ [Token.Text (input.sliceTo (index + st))]
                  else acc) ++ [tok])
                (Nat.zero_le _) (by rw [len_sliceFrom]; omega)
            have hoff : (⟨[], (input.sliceFrom (index + st + k)).off +
                  (input.sliceFrom (index + st + k)).len⟩ : Span) =
                ⟨[], input.off + input.len⟩ := by
              simp only [Span.sliceFrom, Span.len, List.length_drop]
              congr 1
              omega
            rw [hoff] at hrun
            have hacc : ((if 0 < index + st then
                  acc ++ [Token.Text (input.sliceTo (index + st))] else acc) ++ [tok]) ++
                  piecesToks ps =
                acc ++ piecesToks ((if 0 < index + st then
                  [Piece.tok (Token.Text (input.sliceTo (index + st)))] else []) ++
                  Piece.tok tok :: ps) := by
              rw [piecesToks_append, piecesToks_cons_tok]
              by_cases h0 : 0 < index + st <;> simp [h0, piecesToks]
            refine ⟨(if 0 < index + st then
                [Piece.tok (Token.Text (input.sliceTo (index + st)))] else []) ++
                Piece.tok tok :: ps, ?_, ?_⟩
            · rw [tokensF_opener_ok hlt hf h45 htok hne, hrun, hacc]
            · have hsp : (Token.span tok).frag =
                  (input.frag.drop (index + st)).take k := by
                rw [hspan]
                rfl
              have hrf : (input.sliceFrom (index + st + k)).frag =
                  input.frag.drop (index + st + k) := rfl
              rw [hrf] at hcov
              rw [List.map_append, List.flatten_append]
              have hfront : ((if 0 < index + st then
                  [Piece.tok (Token.Text (input.sliceTo (index + st)))]
                  else []).map pieceText).flatten = input.frag.take (index + st) := by
                by_cases h0 : 0 < index + st
                · simp [h0, pieceText, Token.span, Span.sliceTo]
                · have h00 : index + st = 0 := by omega
                  simp [h0, h00]
              rw [hfront]
              simp only [List.map_cons, List.flatten_cons, pieceText]
              rw [hsp, hcov]
              exact cover_split input.frag (index + st) k
        · by_cases hesc : pi ≤ 3
          · -- an escaped opener
            have hplen5 : (PATTERNS.getD pi []).length ≤ 5 := by
              interval_cases pi <;> simp_all <;> decide
            have hb1 : index + st + 1 ≤ input.len := by omega
            have hhead : input.frag.drop (index + st) =
                '\\' :: input.frag.drop (index + st + 1) := by
              have hh := congrArg List.head? hpat
              rw [head_take (by omega)] at hh
              rw [patterns_esc_head hesc] at hh
              cases hdr : input.frag.drop (index + st) with
              | nil => rw [hdr] at hh; cases hh
              | cons c t =>
                rw [hdr] at hh
                simp only [List.head?_cons, Option.some.injEq] at hh
                subst hh
                congr 1
                have h3 := List.tail_drop input.frag (index + st)
                rw [hdr] at h3
                simpa using h3
            obtain ⟨ps, hrun, hcov⟩ :=
              ih (input.sliceFrom (index + st + 1)) ((PATTERNS.getD pi []).length - 1)
                (if 0 < index + st then acc ++ [Token.Text (input.sliceTo (index + st))]
                 else acc)
                (by rw [len_sliceFrom]; omega) (by rw [len_sliceFrom]; omega)
            have hoff : (⟨[], (input.sliceFrom (index + st + 1)).off +
                  (input.sliceFrom (index + st + 1)).len⟩ : Span) =
                ⟨[], input.off + input.len⟩ := by
              simp only [Span.sliceFrom, Span.len, List.length_drop]
              congr 1
              omega
            rw [hoff] at hrun
            have hacc : (if 0 < index + st then
                  acc ++ [Token.Text (input.sliceTo (index + st))] else acc) ++
                  piecesToks ps =
                acc ++ piecesToks ((if 0 < index + st then
                  [Piece.tok (Token.Text (input.sliceTo (index + st)))] else []) ++
                  Piece.esc :: ps) := by
              rw [piecesToks_append, piecesToks_cons_esc]
              by_cases h0 : 0 < index + st <;> simp [h0, piecesToks]
            refine ⟨(if 0 < index + st then
                [Piece.tok (Token.Text (input.sliceTo (index + st)))] else []) ++
                Piece.esc :: ps, ?_, ?_⟩
            · rw [tokensF_escape hlt hf h45 hesc, hrun, hacc]
            · have hrf : (input.sliceFrom (index + st + 1)).frag =
                  input.frag.drop (index + st + 1) := rfl
              rw [hrf] at hcov
              rw [List.map_append, List.flatten_append]
              have hfront : ((if 0 < index + st then
                  [Piece.tok (Token.Text (input.sliceTo (index + st)))]
                  else []).map pieceText).flatten = input.frag.take (index + st) := by
                by_cases h0 : 0 < index + st
                · simp [h0, pieceText, Token.span, Span.sliceTo]
                · have h00 : index + st = 0 := by omega
                  simp [h0, h00]
              rw [hfront]
              simp only [List.map_cons, List.flatten_cons, pieceText]
              rw [hcov]
              rw [show (['\\'] : List Char) ++ input.frag.drop (index + st + 1) =
                '\\' :: input.frag.drop (index + st + 1) from rfl, ← hhead]
              exact List.take_append_drop (index + st) input.frag
          · -- a bare keyword
            have h6 : 6 ≤ pi := by omega
            have hspan : (input.sliceFrom (index + st)).sliceTo
                (PATTERNS.getD pi []).length =
                ⟨PATTERNS.getD pi [], input.off + (index + st)⟩ := by
              show Span.mk ((input.frag.drop (index + st)).take (PATTERNS.getD pi []).length)
                (input.off + (index + st)) = _
              rw [hpat]
            obtain ⟨re, ex, hex⟩ := kw_expr_isSome h6 h9 (input.off + (index + st))
            rw [← hspan] at hex
            obtain ⟨ps, hrun, hcov⟩ :=
              ih (input.sliceFrom (index + st + (PATTERNS.getD pi []).length)) 0
                ((if 0 < index + st then acc ++ [Token.Text (input.sliceTo (index + st))]
                  else acc) ++ [Token.InterpEscaped ((input.sliceFrom (index + st)).sliceTo
                    (PATTERNS.getD pi []).length) ex])
                (Nat.zero_le _) (by rw [len_sliceFrom]; omega)
            have hoff : (⟨[], (input.sliceFrom (index + st + (PATTERNS.getD pi []).length)).off +
                  (input.sliceFrom (index + st + (PATTERNS.getD pi []).length)).len⟩ : Span) =
                ⟨[], input.off + input.len⟩ := by
              simp only [Span.sliceFrom, Span.len, List.length_drop]
              congr 1
              omega
            rw [hoff] at hrun
            have hacc : ((if 0 < index + st then
                  acc ++ [Token.Text (input.sliceTo (index + st))] else acc) ++
                  [Token.InterpEscaped ((input.sliceFrom (index + st)).sliceTo
                    (PATTERNS.getD pi []).length) ex]) ++ piecesToks ps =
                acc ++ piecesToks ((if 0 < index + st then
                  [Piece.tok (Token.Text (input.sliceTo (index + st)))] else []) ++
                  Piece.tok (Token.InterpEscaped ((input.sliceFrom (index + st)).sliceTo
                    (PATTERNS.getD pi []).length) ex) :: ps) := by
              rw [piecesToks_append, piecesToks_cons_tok]
              by_cases h0 : 0 < index + st <;> simp [h0, piecesToks]
            refine ⟨(if 0 < index + st then
                [Piece.tok (Token.Text (input.sliceTo (index + st)))] else []) ++
                Piece.tok (Token.InterpEscaped ((input.sliceFrom (index + st)).sliceTo
                  (PATTERNS.getD pi []).length) ex) :: ps, ?_, ?_⟩
            · rw [tokensF_keyword hlt hf h45 hesc hex, hrun, hacc]
            · have hrf : (input.sliceFrom (index + st + (PATTERNS.getD pi []).length)).frag =
                  input.frag.drop (index + st + (PATTERNS.getD pi []).length) := rfl
              rw [hrf] at hcov
              rw [List.map_append, List.flatten_append]
              have hfront : ((if 0 < index + st then
                  [Piece.tok (Token.Text (input.sliceTo (index + st)))]
                  else []).map pieceText).flatten = input.frag.take (index + st) := by
                by_cases h0 : 0 < index + st
                · simp [h0, pieceText, Token.span, Span.sliceTo]
                · have h00 : index + st = 0 := by omega
                  simp [h0, h00]
              rw [hfront]
              simp only [List.map_cons, List.flatten_cons, pieceText]
              have hsp : (Token.span (Token.InterpEscaped
                  ((input.sliceFrom (index + st)).sliceTo (PATTERNS.getD pi []).length)
                    ex)).frag
                  = (input.frag.drop (index + st)).take (PATTERNS.getD pi []).length := rfl
              rw [hsp, hcov]
              exact cover_split input.frag (index + st) (PATTERNS.getD pi []).length


/-- Top-level consequence of the master invariant: `tokens` succeeds on
every input and its output is covered by an interleaving of pieces. -/
theorem tokens_cover (s : Span) :
    ∃ ps : List Piece, tokens s = some (s.sliceFrom s.len, piecesToks ps) ∧
      (ps.map pieceText).flatten = s.frag := by
  obtain ⟨ps, hrun, hcov⟩ := tokensF_master (2 * s.len + 2) s 0 [] (Nat.zero_le _) (by omega)
  refine ⟨ps, ?_, hcov⟩
  rw [show tokens s = tokensF (2 * s.len + 2) s 0 [] from rfl, hrun, sliceFrom_len]
  simp

/-- Claim C1: for every input, `tokens` succeeds, and the concatenation of
all emitted token spans, in order, with each elided escape backslash
re-inserted at its original position (the `Piece.esc` entries of the
interleaving), equals the input exactly. -/
theorem claim_C1 (s : Span) :
    ∃ ps : List Piece, tokens s = some (s.sliceFrom s.len, piecesToks ps) ∧
      (ps.map pieceText).flatten = s.frag := tokens_cover s

/-- Claim C2: `tokens` is total — for every input it returns successfully
with an empty remainder, never reporting an error to the caller; in
particular a candidate opener whose recognizer fails is skipped and ends
up inside a `Text` run, as in `{{{ each /abc }}} mid {{{ end }}}`, which
yields `Text("{{{ each /abc }}} mid ")` followed by the `End` token. -/
theorem claim_C2 :
    (∀ s : Span, ∃ toks : List Token, tokens s = some (s.sliceFrom s.len, toks)) ∧
    tokens ⟨"\x7b\x7b\x7b each /abc \x7d\x7d\x7d mid \x7b\x7b\x7b end \x7d\x7d\x7d".toList, 0⟩ =
      some (⟨[], 33⟩,
        [Token.Text ⟨"\x7b\x7b\x7b each /abc \x7d\x7d\x7d mid ".toList, 0⟩,
         Token.End ⟨"\x7b\x7b\x7b end \x7d\x7d\x7d".toList, 22⟩]) := by
  constructor
  · intro s
    obtain ⟨ps, hrun, hcov⟩ := tokens_cover s
    exact ⟨piecesToks ps, hrun⟩
  · rfl


/-! ## Span containment within expression trees (claim C7) -/

theorem within_refl (a : Span) : a.within a := ⟨le_refl _, le_refl _⟩

theorem within_trans {a b c : Span} (h1 : a.within b) (h2 : b.within c) : a.within c :=
  ⟨le_trans h2.1 h1.1, le_trans h1.2 h2.2⟩

theorem len_sliceTo (s : Span) (j : Nat) : (s.sliceTo j).len = min j s.len := by
  simp [Span.sliceTo, Span.len]

theorem within_sliceTo_mono {s : Span} {j k : Nat} (h : j ≤ k) :
    (s.sliceTo j).within (s.sliceTo k) := by
  refine ⟨le_refl _, ?_⟩
  simp only [Span.sliceTo, Span.len, List.length_take]
  omega

theorem sliceTo_within (s : Span) (j : Nat) : (s.sliceTo j).within s := by
  refine ⟨le_refl _, ?_⟩
  simp only [Span.sliceTo, Span.len, List.length_take]
  omega

theorem within_slice_chain {s : Span} {m j k : Nat} (hmk : m + j ≤ k) (hk : k ≤ s.len) :
    ((s.sliceFrom m).sliceTo j).within (s.sliceTo k) := by
  constructor
  · simp [Span.sliceFrom, Span.sliceTo]
  · simp only [Span.sliceFrom, Span.sliceTo, Span.len, List.length_take,
      List.length_drop]
    simp only [Span.len] at hk
    omega

theorem sliceTo_zero_within {a b : Span} (h : a.within b) : (a.sliceTo 0).within b := by
  obtain ⟨h1, h2⟩ := h
  constructor
  · simpa [Span.sliceTo] using h1
  · simp only [Span.sliceTo, Span.len, List.length_take]
    simp only [Span.len] at h2
    omega

theorem sliceFrom_len_within (sp : Span) : (sp.sliceFrom sp.len).within sp := by
  constructor
  · simp [Span.sliceFrom]
  · simp only [Span.sliceFrom, Span.len, List.length_drop]
    omega

/-- Whether a path part's span lies within `sp`. -/
def partIn (sp : Span) : PathPart → Prop
  | .Part p => p.within sp

mutual

/-- Span containment throughout an expression tree, with the one exception
the code makes: a `Path` whose parts are the synthesized `@root`/`@value`
keyword parts carries fresh spans over the keyword text instead of
sub-ranges of its zero-width span. -/
def exprOk : Expression → Prop
  | .StringLiteral _ => True
  | .Path sp parts =>
      (∀ pc ∈ parts, partIn sp pc) ∨
      (sp.len = 0 ∧
        (parts = [PathPart.Part (Span.fresh ['@', 'r', 'o', 'o', 't'])] ∨
         parts = [PathPart.Part (Span.fresh ['@', 'v', 'a', 'l', 'u', 'e'])]))
  | .Negative sp e => (Expression.span e).within sp ∧ exprOk e
  | .Helper sp name args => name.within sp ∧ argsOk sp args
  | .LegacyHelper sp name args => name.within sp ∧ argsOk sp args

/-- Each argument's span lies within `sp` and its tree is contained. -/
def argsOk : Span → List Expression → Prop
  | _, [] => True
  | sp, a :: rest => (Expression.span a).within sp ∧ exprOk a ∧ argsOk sp rest

end

/-- Span containment for a produced token: the expression's outer span is
a sub-range of the token's span and the expression tree is contained. -/
def tokOk : Token → Prop
  | .Text _ => True
  | .InterpEscaped sp e => (Expression.span e).within sp ∧ exprOk e
  | .InterpRaw sp e => (Expression.span e).within sp ∧ exprOk e
  | .If sp e => (Expression.span e).within sp ∧ exprOk e
  | .Each sp e => (Expression.span e).within sp ∧ exprOk e
  | .Else _ => True
  | .End _ => True
  | .LegacyIf sp e => (Expression.span e).within sp ∧ exprOk e
  | .LegacyBegin sp e => (Expression.span e).within sp ∧ exprOk e
  | .LegacyElse _ => True
  | .LegacyEnd sp raw => raw.within sp

/-! ## Expression parses produce contained trees -/

/-- The span of a path part. -/
def partSpan : PathPart → Span
  | .Part p => p

theorem partIn_iff (sp : Span) (pc : PathPart) :
    partIn sp pc ↔ (partSpan pc).within sp := by
  cases pc with
  | Part p => rfl

theorem argsOk_iff (sp : Span) (l : List Expression) :
    argsOk sp l ↔ ∀ a ∈ l, (Expression.span a).within sp ∧ exprOk a := by
  induction l with
  | nil => simp [argsOk]
  | cons a rest ih =>
    rw [argsOk]
    simp only [List.mem_cons]
    constructor
    · rintro ⟨h1, h2, h3⟩ b hb
      rcases hb with rfl | hb
      · exact ⟨h1, h2⟩
      · exact (ih.mp h3) b hb
    · intro h
      exact ⟨(h a (Or.inl rfl)).1, (h a (Or.inl rfl)).2, ih.mpr (fun b hb => h b (Or.inr hb))⟩

/-- A parser whose value is an expression: the value's span equals the
consumed prefix and the tree is contained. -/
def ExprSpec (p : P Expression) : Prop :=
  ∀ s r : Span, ∀ e : Expression, p s = some (r, e) →
    ∃ k, k ≤ s.len ∧ r = s.sliceFrom k ∧ Expression.span e = s.sliceTo k ∧ exprOk e

/-- A parser whose values carry a span (via `S`) within the consumed
prefix and a payload property `Q`; used to thread span containment through
`ws` and the list loops. -/
def ElemWithin {α : Type} (p : P α) (S : α → Span) (Q : α → Prop) : Prop :=
  ∀ s r : Span, ∀ v : α, p s = some (r, v) →
    ∃ k, k ≤ s.len ∧ r = s.sliceFrom k ∧ (S v).within (s.sliceTo k) ∧ Q v

theorem ExprSpec.elemWithin {p : P Expression} (h : ExprSpec p) :
    ElemWithin p Expression.span exprOk := by
  intro s r e hp
  obtain ⟨k, hk, hr, hsp, hok⟩ := h s r e hp
  exact ⟨k, hk, hr, hsp ▸ within_refl _, hok⟩

theorem elemWithin_ws {α : Type} {p : P α} {S : α → Span} {Q : α → Prop}
    (h : ElemWithin p S Q) : ElemWithin (ws p) S Q := by
  intro s r e hw
  obtain ⟨r1, x, r2, y, h1, h2, h3⟩ := ws_inv hw
  obtain ⟨hr1, -⟩ := munch0_inv h1
  generalize hA : (s.frag.takeWhile wsChar).length = k1 at hr1
  subst hr1
  obtain ⟨k2, hk2, hr2, hsp, hok⟩ := h _ r2 e h2
  rw [len_sliceFrom] at hk2
  subst hr2
  obtain ⟨hr3, -⟩ := munch0_inv h3
  generalize hB : (((s.sliceFrom k1).sliceFrom k2).frag.takeWhile wsChar).length = k3 at hr3
  subst hr3
  have hk1 : k1 ≤ s.len := by
    rw [← hA]
    exact takeWhile_len_le _ _
  have hk3 : k3 ≤ s.len - (k1 + k2) := by
    rw [← hB]
    refine le_trans (takeWhile_len_le _ _) (le_of_eq ?_)
    simp [Span.sliceFrom, Span.len]
  rw [sliceFrom_sliceFrom, sliceFrom_sliceFrom]
  refine ⟨k1 + (k2 + k3), by omega, rfl, ?_, hok⟩
  exact within_trans hsp (within_slice_chain (by omega) (by omega))

/-- A span-valued parser whose value is exactly its consumed prefix. -/
def SpanSpec (p : P Span) : Prop :=
  ∀ s r v : Span, p s = some (r, v) →
    ∃ k, k ≤ s.len ∧ r = s.sliceFrom k ∧ v = s.sliceTo k

theorem spanSpec_recognize {α : Type} {p : P α} (h : Canon p) :
    SpanSpec (recognize p) := by
  intro s r v hr
  obtain ⟨v0, hp, hsp⟩ := recognize_inv hr
  obtain ⟨k, hk, rfl⟩ := h s _ v0 hp
  refine ⟨k, hk, rfl, ?_⟩
  rw [hsp, len_sliceFrom]
  congr 1
  omega

theorem spanSpec_tag {lit : List Char} : SpanSpec (tag lit) := by
  intro s r v h
  obtain ⟨hc, rfl, rfl⟩ := tag_inv h
  exact ⟨lit.length, tag_length_le hc, rfl, rfl⟩

theorem spanSpec_palt {p q : P Span} (hp : SpanSpec p) (hq : SpanSpec q) :
    SpanSpec (palt p q) := by
  intro s r v h
  rcases palt_inv h with h1 | ⟨-, h1⟩
  · exact hp s r v h1
  · exact hq s r v h1

theorem spanSpec_keyword_tags : SpanSpec keyword_tags := by
  unfold keyword_tags
  exact spanSpec_palt spanSpec_tag (spanSpec_palt spanSpec_tag (spanSpec_palt spanSpec_tag
    (spanSpec_palt spanSpec_tag (spanSpec_palt spanSpec_tag spanSpec_tag))))

theorem spanSpec_identifier : SpanSpec identifier := by
  intro s r v h
  obtain ⟨rest, res, hrun, hcase⟩ := identifier_inv h
  obtain ⟨k, hk, hrest, hres⟩ :=
    spanSpec_recognize (canon_many1Count (canon_palt canon_munch1 canon_munch1)) s rest res hrun
  have hlen : res.len = k := by
    rw [hres, len_sliceTo]
    omega
  rcases hcase with ⟨-, -, rfl, rfl⟩ | ⟨-, rfl, rfl⟩
  · exact ⟨res.len - 2, by omega, rfl, rfl⟩
  · exact ⟨k, hk, hrest, hres⟩

/-! ## Threading span containment through the list loops -/

theorem sepLoopF_within {α β : Type} {sep : P β} {elem : P α} {S : α → Span} {Q : α → Prop}
    (hsep : Canon sep) (helem : ElemWithin elem S Q) :
    ∀ (f : Nat) (i : Span) (acc : List α) (r : Span) (l : List α),
      sepLoopF sep elem f i acc = some (r, l) →
      ∃ k, k ≤ i.len ∧ r = i.sliceFrom k ∧
        ∀ v ∈ l, v ∈ acc ∨ ((S v).within (i.sliceTo k) ∧ Q v) := by
  intro f
  induction f with
  | zero => intro i acc r l h; cases h
  | succ f ih =>
    intro i acc r l h
    rcases sepLoopF_succ_inv h with ⟨-, rfl, rfl⟩ | ⟨i1, b, -, -, rfl, rfl⟩ |
      ⟨i1, b, i2, v, hsep1, helem1, -, hrec⟩
    · exact ⟨0, Nat.zero_le _, (sliceFrom_zero r).symm, fun v hv => Or.inl hv⟩
    · exact ⟨0, Nat.zero_le _, (sliceFrom_zero r).symm, fun v hv => Or.inl hv⟩
    · obtain ⟨k1, hk1, rfl⟩ := hsep i i1 b hsep1
      obtain ⟨k2, hk2, rfl, hw, hq⟩ := helem _ _ _ helem1
      obtain ⟨k3, hk3, hr, hmem⟩ := ih _ _ _ _ hrec
      rw [len_sliceFrom] at hk2
      rw [len_sliceFrom, len_sliceFrom] at hk3
      refine ⟨k1 + k2 + k3, by omega, ?_, ?_⟩
      · rw [hr, sliceFrom_sliceFrom, sliceFrom_sliceFrom]
        congr 1
        omega
      · intro w hw1
        rcases hmem w hw1 with hacc | ⟨hw2, hq2⟩
        · rcases List.mem_append.mp hacc with hin | hin
          · exact Or.inl hin
          · simp only [List.mem_singleton] at hin
            subst hin
            refine Or.inr ⟨within_trans hw ?_, hq⟩
            exact within_slice_chain (by omega) (by omega)
        · rw [sliceFrom_sliceFrom] at hw2
          refine Or.inr ⟨within_trans hw2 ?_, hq2⟩
          exact within_slice_chain (by omega) (by omega)

theorem sepList1_within {α β : Type} {sep : P β} {elem : P α} {S : α → Span} {Q : α → Prop}
    (hsep : Canon sep) (helem : ElemWithin elem S Q) :
    ∀ (i r : Span) (l : List α), sepList1 sep elem i = some (r, l) →
      ∃ k, k ≤ i.len ∧ r = i.sliceFrom k ∧
        ∀ v ∈ l, (S v).within (i.sliceTo k) ∧ Q v := by
  intro i r l h
  obtain ⟨i1, v, he, hloop⟩ := sepList1_inv h
  obtain ⟨k0, hk0, rfl, hw, hq⟩ := helem _ _ _ he
  obtain ⟨k1, hk1, hr, hmem⟩ := sepLoopF_within hsep helem _ _ _ _ _ hloop
  rw [len_sliceFrom] at hk1
  refine ⟨k0 + k1, by omega, by rw [hr, sliceFrom_sliceFrom], ?_⟩
  intro w hwl
  rcases hmem w hwl with hone | ⟨hw2, hq2⟩
  · simp only [List.mem_singleton] at hone
    subst hone
    exact ⟨within_trans hw (within_sliceTo_mono (by omega)), hq⟩
  · exact ⟨within_trans hw2 (within_slice_chain (by omega) (by omega)), hq2⟩

theorem sepList0_within {α β : Type} {sep : P β} {elem : P α} {S : α → Span} {Q : α → Prop}
    (hsep : Canon sep) (helem : ElemWithin elem S Q) :
    ∀ (i r : Span) (l : List α), sepList0 sep elem i = some (r, l) →
      ∃ k, k ≤ i.len ∧ r = i.sliceFrom k ∧
        ∀ v ∈ l, (S v).within (i.sliceTo k) ∧ Q v := by
  intro i r l h
  rcases sepList0_inv h with ⟨-, rfl, rfl⟩ | ⟨i1, v, he, hloop⟩
  · exact ⟨0, Nat.zero_le _, (sliceFrom_zero r).symm, by simp⟩
  · obtain ⟨k0, hk0, rfl, hw, hq⟩ := helem _ _ _ he
    obtain ⟨k1, hk1, hr, hmem⟩ := sepLoopF_within hsep helem _ _ _ _ _ hloop
    rw [len_sliceFrom] at hk1
    refine ⟨k0 + k1, by omega, by rw [hr, sliceFrom_sliceFrom], ?_⟩
    intro w hwl
    rcases hmem w hwl with hone | ⟨hw2, hq2⟩
    · simp only [List.mem_singleton] at hone
      subst hone
      exact ⟨within_trans hw (within_sliceTo_mono (by omega)), hq⟩
    · exact ⟨within_trans hw2 (within_slice_chain (by omega) (by omega)), hq2⟩

theorem many0F_within {α : Type} {p : P α} {S : α → Span} {Q : α → Prop}
    (hp : ElemWithin p S Q) :
    ∀ (f : Nat) (s : Span) (acc : List α) (r : Span) (l : List α),
      many0F p f s acc = some (r, l) →
      ∃ k, k ≤ s.len ∧ r = s.sliceFrom k ∧
        ∀ v ∈ l, v ∈ acc ∨ ((S v).within (s.sliceTo k) ∧ Q v) := by
  intro f
  induction f with
  | zero => intro s acc r l h; cases h
  | succ f ih =>
    intro s acc r l h
    rcases many0F_succ_inv h with ⟨-, rfl, rfl⟩ | ⟨r0, v0, hp0, -, hrec⟩
    · exact ⟨0, Nat.zero_le _, (sliceFrom_zero r).symm, fun v hv => Or.inl hv⟩
    · obtain ⟨k1, hk1, rfl, hw, hq⟩ := hp _ _ _ hp0
      obtain ⟨k2, hk2, hr, hmem⟩ := ih _ _ _ _ hrec
      rw [len_sliceFrom] at hk2
      refine ⟨k1 + k2, by omega, by rw [hr, sliceFrom_sliceFrom], ?_⟩
      intro w hw1
      rcases hmem w hw1 with hacc | ⟨hw2, hq2⟩
      · rcases List.mem_append.mp hacc with hin | hin
        · exact Or.inl hin
        · simp only [List.mem_singleton] at hin
          subst hin
          exact Or.inr ⟨within_trans hw (within_sliceTo_mono (by omega)), hq⟩
      · exact Or.inr ⟨within_trans hw2 (within_slice_chain (by omega) (by omega)), hq2⟩

theorem many0P_within {α : Type} {p : P α} {S : α → Span} {Q : α → Prop}
    (hp : ElemWithin p S Q) :
    ∀ (s r : Span) (l : List α), many0P p s = some (r, l) →
      ∃ k, k ≤ s.len ∧ r = s.sliceFrom k ∧ ∀ v ∈ l, (S v).within (s.sliceTo k) ∧ Q v := by
  intro s r l h
  obtain ⟨k, hk, hr, hmem⟩ := many0F_within hp _ _ _ _ _ h
  refine ⟨k, hk, hr, fun v hv => ?_⟩
  rcases hmem v hv with hin | hgood
  · simp at hin
  · exact hgood


/-! ## Expression parses produce contained trees: the alternatives -/

theorem elemWithin_scope_marker : ElemWithin scope_marker partSpan (fun _ => True) := by
  intro s r v h
  obtain ⟨v0, hp, rfl⟩ := pmap_inv h
  rcases palt_inv hp with h1 | ⟨-, h1⟩ <;>
  · obtain ⟨k, hk, rfl, rfl⟩ := spanSpec_tag s _ _ h1
    exact ⟨k, hk, rfl, within_refl _, trivial⟩

theorem elemWithin_ident_part :
    ElemWithin (pmap identifier PathPart.Part) partSpan (fun _ => True) := by
  intro s r v h
  obtain ⟨v0, hp, rfl⟩ := pmap_inv h
  obtain ⟨k, hk, rfl, rfl⟩ := spanSpec_identifier s _ _ hp
  exact ⟨k, hk, rfl, within_refl _, trivial⟩

theorem exprSpec_path : ExprSpec path := by
  intro s r e h
  rcases palt_inv h with h1 | ⟨-, h1⟩
  · obtain ⟨v0, hk, rfl⟩ := pmap_inv h1
    obtain ⟨k, hkle, rfl, rfl⟩ := spanSpec_keyword_tags s _ _ hk
    refine ⟨k, hkle, rfl, rfl, ?_⟩
    show exprOk (Expression.Path (s.sliceTo k) [PathPart.Part (s.sliceTo k)])
    rw [exprOk]
    refine Or.inl ?_
    intro pc hpc
    simp only [List.mem_singleton] at hpc
    subst hpc
    exact within_refl _
  · obtain ⟨⟨sp, l1, l2⟩, hc, rfl⟩ := pmap_inv h1
    obtain ⟨hp, hsp⟩ := consumed_inv hc
    obtain ⟨r1, h1a, h2a⟩ := ppair_inv hp
    obtain ⟨k1, hk1, rfl, hm1⟩ := many0P_within elemWithin_scope_marker _ _ _ h1a
    obtain ⟨k2, hk2, rfl, hm2⟩ :=
      sepList1_within canon_tag elemWithin_ident_part _ _ _ h2a
    rw [len_sliceFrom] at hk2
    have hlen2 : ((s.sliceFrom k1).sliceFrom k2).len = s.len - (k1 + k2) := by
      rw [sliceFrom_sliceFrom, len_sliceFrom]
    have hsp2 : sp = s.sliceTo (k1 + k2) := by
      rw [hsp, hlen2]
      congr 1
      omega
    refine ⟨k1 + k2, by omega, sliceFrom_sliceFrom s k1 k2, hsp2, ?_⟩
    rw [exprOk]
    refine Or.inl ?_
    intro pc hpc
    rw [partIn_iff, hsp2]
    rcases List.mem_append.mp hpc with hin | hin
    · exact within_trans (hm1 pc hin).1 (within_sliceTo_mono (by omega))
    · exact within_trans (hm2 pc hin).1 (within_slice_chain (by omega) (by omega))

theorem exprSpec_string_literal : ExprSpec string_literal := by
  intro s r e h
  obtain ⟨v0, hp, rfl⟩ := pmap_inv h
  have hcan : Canon (delimited (tag ['"'])
      (many0Count (palt (preceded (tag ['\\']) take1) (isNot ['\\', '"'])))
      (tag ['"'])) :=
    canon_delimited canon_tag
      (fun s r v h => canon_many0CountF
        (canon_palt (canon_preceded canon_tag canon_take1) canon_munch1) _ s r _ _ h)
      canon_tag
  obtain ⟨k, hk, rfl, rfl⟩ := spanSpec_recognize hcan s _ _ hp
  refine ⟨k, hk, rfl, rfl, ?_⟩
  rw [exprOk]
  trivial

theorem exprSpec_negativeP {q : P Expression} (hq : ExprSpec q) :
    ExprSpec (negativeP q) := by
  intro s r e h
  obtain ⟨⟨sp, e0⟩, hc, rfl⟩ := pmap_inv h
  obtain ⟨hp, hsp⟩ := consumed_inv hc
  obtain ⟨r1, a, h1, h2⟩ := preceded_inv hp
  obtain ⟨k1, hk1, rfl⟩ := canon_ws canon_tag s r1 a h1
  obtain ⟨k2, hk2, rfl, hspan, hok⟩ := hq _ _ _ h2
  rw [len_sliceFrom] at hk2
  have hlen2 : ((s.sliceFrom k1).sliceFrom k2).len = s.len - (k1 + k2) := by
    rw [sliceFrom_sliceFrom, len_sliceFrom]
  have hsp2 : sp = s.sliceTo (k1 + k2) := by
    rw [hsp, hlen2]
    congr 1
    omega
  refine ⟨k1 + k2, by omega, sliceFrom_sliceFrom s k1 k2, hsp2, ?_⟩
  rw [exprOk]
  refine ⟨?_, hok⟩
  rw [hspan, hsp2]
  exact within_slice_chain (by omega) (by omega)


theorem exprSpec_helperP {q : P Expression} (hq : ExprSpec q) :
    ExprSpec (helperP q) := by
  intro s r e h
  obtain ⟨⟨sp, name, args⟩, hc, rfl⟩ := pmap_inv h
  obtain ⟨hp, hsp⟩ := consumed_inv hc
  obtain ⟨r1, hid, hdel⟩ := ppair_inv hp
  obtain ⟨k1, hk1, rfl, rfl⟩ := spanSpec_identifier s _ _ hid
  obtain ⟨r2, x, r3, y, hopen, hlist, hclose⟩ := delimited_inv hdel
  obtain ⟨hc1, hr2, -⟩ := tag_inv hopen
  have hb1 : (1 : Nat) ≤ (s.sliceFrom k1).len := tag_length_le hc1
  have hr2a : r2 = (s.sliceFrom k1).sliceFrom 1 := hr2
  subst hr2a
  obtain ⟨k4, hk4, rfl, hargs⟩ := sepList0_within canon_tag
    (elemWithin_ws (ExprSpec.elemWithin hq)) _ _ _ hlist
  obtain ⟨hc2, hr3, -⟩ := tag_inv hclose
  have hb2 : (1 : Nat) ≤ (((s.sliceFrom k1).sliceFrom 1).sliceFrom k4).len :=
    tag_length_le hc2
  have hr3a : r = (((s.sliceFrom k1).sliceFrom 1).sliceFrom k4).sliceFrom 1 := hr3
  subst hr3a
  rw [len_sliceFrom] at hb1
  rw [len_sliceFrom, len_sliceFrom] at hk4
  rw [len_sliceFrom, len_sliceFrom, len_sliceFrom] at hb2
  have hrK : (((s.sliceFrom k1).sliceFrom 1).sliceFrom k4).sliceFrom 1
      = s.sliceFrom (k1 + 1 + k4 + 1) := by
    rw [sliceFrom_sliceFrom, sliceFrom_sliceFrom, sliceFrom_sliceFrom]
    congr 1
    omega
  have hsp2 : sp = s.sliceTo (k1 + 1 + k4 + 1) := by
    rw [hsp, hrK, len_sliceFrom]
    congr 1
    omega
  refine ⟨k1 + 1 + k4 + 1, by omega, hrK, hsp2, ?_⟩
  rw [exprOk]
  constructor
  · rw [hsp2]
    exact within_sliceTo_mono (by omega)
  · rw [argsOk_iff]
    intro w hw
    rw [sliceFrom_sliceFrom] at hargs
    refine ⟨?_, (hargs w hw).2⟩
    rw [hsp2]
    exact within_trans (hargs w hw).1 (within_slice_chain (by omega) (by omega))

theorem exprSpec_legacyHelperP {q : P Expression} (hq : ExprSpec q) :
    ExprSpec (legacyHelperP q) := by
  intro s r e h
  obtain ⟨⟨sp, name, oargs⟩, hc, rfl⟩ := pmap_inv h
  obtain ⟨hp, hsp⟩ := consumed_inv hc
  obtain ⟨r1, hname, hopt⟩ := ppair_inv hp
  obtain ⟨ra, a, htag, hid⟩ := preceded_inv hname
  obtain ⟨hcf, hra, -⟩ := tag_inv htag
  have hb9 : (9 : Nat) ≤ s.len := tag_length_le hcf
  have hraa : ra = s.sliceFrom 9 := hra
  subst hraa
  obtain ⟨k1, hk1, rfl, rfl⟩ := spanSpec_identifier _ _ _ hid
  rw [len_sliceFrom] at hk1
  rcases popt_inv hopt with ⟨-, rfl, rfl⟩ | ⟨args, hargs, rfl⟩
  · have hrK : (s.sliceFrom 9).sliceFrom k1 = s.sliceFrom (9 + k1) :=
      sliceFrom_sliceFrom s 9 k1
    have hsp2 : sp = s.sliceTo (9 + k1) := by
      rw [hsp, hrK, len_sliceFrom]
      congr 1
      omega
    refine ⟨9 + k1, by omega, hrK, hsp2, ?_⟩
    rw [exprOk]
    constructor
    · rw [hsp2]
      exact within_slice_chain (by omega) (by omega)
    · rw [argsOk]
      refine ⟨sliceFrom_len_within sp, ?_, ?_⟩
      · rw [exprOk]
        refine Or.inr ⟨?_, Or.inr rfl⟩
        rw [len_sliceFrom]
        omega
      · rw [argsOk]
        trivial
  · obtain ⟨rb, b, hsep1, hlist⟩ := preceded_inv hargs
    obtain ⟨k2, hk2, rfl⟩ := canon_ws canon_tag _ rb b hsep1
    obtain ⟨k3, hk3, hr, hmem⟩ := sepList0_within (canon_ws canon_tag)
      (ExprSpec.elemWithin hq) _ _ _ hlist
    rw [len_sliceFrom, len_sliceFrom] at hk2
    rw [len_sliceFrom, len_sliceFrom, len_sliceFrom] at hk3
    have hrK : (((s.sliceFrom 9).sliceFrom k1).sliceFrom k2).sliceFrom k3
        = s.sliceFrom (9 + k1 + k2 + k3) := by
      rw [sliceFrom_sliceFrom, sliceFrom_sliceFrom, sliceFrom_sliceFrom]
      congr 1
      omega
    rw [hrK] at hr
    have hsp2 : sp = s.sliceTo (9 + k1 + k2 + k3) := by
      rw [hsp, hr, len_sliceFrom]
      congr 1
      omega
    refine ⟨9 + k1 + k2 + k3, by omega, hr, hsp2, ?_⟩
    rw [exprOk]
    constructor
    · rw [hsp2]
      exact within_slice_chain (by omega) (by omega)
    · rw [argsOk_iff]
      intro w hw
      rw [sliceFrom_sliceFrom, sliceFrom_sliceFrom] at hmem
      refine ⟨?_, (hmem w hw).2⟩
      rw [hsp2]
      exact within_trans (hmem w hw).1 (within_slice_chain (by omega) (by omega))

theorem exprSpec_expressionF : ∀ f : Nat, ExprSpec (expressionF f) := by
  intro f
  induction f with
  | zero => intro s r e h; cases h
  | succ f ih =>
    rw [expressionF_succ]
    intro s r e h
    rcases palt_inv h with h1 | ⟨-, h1⟩
    · exact exprSpec_negativeP ih s r e h1
    rcases palt_inv h1 with h2 | ⟨-, h2⟩
    · exact exprSpec_legacyHelperP ih s r e h2
    rcases palt_inv h2 with h3 | ⟨-, h3⟩
    · exact exprSpec_helperP ih s r e h3
    rcases palt_inv h3 with h4 | ⟨-, h4⟩
    · exact exprSpec_string_literal s r e h4
    · exact exprSpec_path s r e h4

theorem exprSpec_expression : ExprSpec expression :=
  fun s r e h => exprSpec_expressionF (s.len + 1) s r e h


/-! ## Token recognizers produce contained trees -/

theorem consumed_delimited_within {α β γ : Type} {aP : P α} {bP : P β} {cP : P γ}
    {S : β → Span} {Q : β → Prop}
    (ha : Canon aP) (hb : ElemWithin bP S Q) (hc : Canon cP)
    {s r sp : Span} {v : β}
    (h : consumed (delimited aP bP cP) s = some (r, (sp, v))) :
    (S v).within sp ∧ Q v := by
  obtain ⟨hp, hsp⟩ := consumed_inv h
  obtain ⟨r1, x, r2, y, hopen, hmid, hclose⟩ := delimited_inv hp
  obtain ⟨k1, hk1, rfl⟩ := ha s r1 x hopen
  obtain ⟨k2, hk2, rfl, hw, hok⟩ := hb _ _ _ hmid
  obtain ⟨k3, hk3, rfl⟩ := hc _ _ y hclose
  rw [len_sliceFrom] at hk2
  rw [len_sliceFrom, len_sliceFrom] at hk3
  have hsp2 : sp = s.sliceTo (k1 + (k2 + k3)) := by
    rw [hsp, sliceFrom_sliceFrom, sliceFrom_sliceFrom, len_sliceFrom]
    congr 1
    omega
  refine ⟨?_, hok⟩
  rw [hsp2]
  exact within_trans hw (within_slice_chain (by omega) (by omega))

theorem elemWithin_expr : ElemWithin (ws expression) Expression.span exprOk :=
  elemWithin_ws (ExprSpec.elemWithin exprSpec_expression)

theorem tokOk_interp_escaped {s r : Span} {t : Token}
    (h : interp_escaped s = some (r, t)) : tokOk t := by
  obtain ⟨⟨sp, e⟩, hc, rfl⟩ := pmap_inv h
  have hcw := consumed_delimited_within canon_tag elemWithin_expr canon_tag hc
  rw [tokOk]
  exact hcw

theorem tokOk_interp_raw {s r : Span} {t : Token}
    (h : interp_raw s = some (r, t)) : tokOk t := by
  obtain ⟨⟨sp, e⟩, hc, rfl⟩ := pmap_inv h
  have hcw := consumed_delimited_within canon_tag elemWithin_expr canon_tag hc
  rw [tokOk]
  exact hcw

theorem tokOk_new_each {s r : Span} {t : Token}
    (h : new_each s = some (r, t)) : tokOk t := by
  obtain ⟨⟨sp, e⟩, hc, rfl⟩ := pmap_inv h
  have hcw := consumed_delimited_within (canon_ppair canon_tag (canon_ws canon_tag))
    elemWithin_expr canon_tag hc
  rw [tokOk]
  exact hcw

theorem tokOk_new_if {s r : Span} {t : Token}
    (h : new_if s = some (r, t)) : tokOk t := by
  obtain ⟨⟨sp, e⟩, hc, rfl⟩ := pmap_inv h
  have hcw := consumed_delimited_within (canon_ppair canon_tag (canon_ws canon_tag))
    elemWithin_expr canon_tag hc
  rw [tokOk]
  exact hcw

theorem tokOk_new_else {s r : Span} {t : Token}
    (h : new_else s = some (r, t)) : tokOk t := by
  obtain ⟨v0, -, rfl⟩ := pmap_inv h
  rw [tokOk]
  trivial

theorem tokOk_new_end {s r : Span} {t : Token}
    (h : new_end s = some (r, t)) : tokOk t := by
  obtain ⟨v0, -, rfl⟩ := pmap_inv h
  rw [tokOk]
  trivial

theorem tokOk_legacy_begin {s r : Span} {t : Token}
    (h : legacy_begin s = some (r, t)) : tokOk t := by
  obtain ⟨⟨sp, e⟩, hc, rfl⟩ := pmap_inv h
  have hcw := consumed_delimited_within (canon_ppair canon_tag (canon_ws canon_tag))
    elemWithin_expr canon_tag hc
  rw [tokOk]
  exact hcw

theorem span_legacyIfSubject (e : Expression) :
    Expression.span (legacyIfSubject e) = Expression.span e := by
  cases e <;> rfl

theorem exprOk_legacyIfSubject {e : Expression} (h : exprOk e) :
    exprOk (legacyIfSubject e) := by
  cases e with
  | StringLiteral sp => exact h
  | Path sp parts => exact h
  | Negative sp e0 => exact h
  | Helper sp name args => exact h
  | LegacyHelper sp name args =>
    rw [exprOk] at h
    obtain ⟨hname, hargs⟩ := h
    cases args with
    | nil =>
      show exprOk (Expression.LegacyHelper sp name
        [Expression.Path (sp.sliceFrom sp.len)
          [PathPart.Part (Span.fresh ['@', 'r', 'o', 'o', 't'])]])
      rw [exprOk]
      refine ⟨hname, ?_⟩
      rw [argsOk]
      refine ⟨sliceFrom_len_within sp, ?_, ?_⟩
      · rw [exprOk]
        refine Or.inr ⟨?_, Or.inl rfl⟩
        rw [len_sliceFrom]
        omega
      · rw [argsOk]
        trivial
    | cons a rest =>
      rw [argsOk] at hargs
      obtain ⟨ha, hoka, hrest⟩ := hargs
      show exprOk (Expression.LegacyHelper sp name
        (Expression.Path ((Expression.span a).sliceTo 0)
          [PathPart.Part (Span.fresh ['@', 'r', 'o', 'o', 't'])] :: a :: rest))
      rw [exprOk]
      refine ⟨hname, ?_⟩
      rw [argsOk]
      refine ⟨sliceTo_zero_within ha, ?_, ?_⟩
      · rw [exprOk]
        refine Or.inr ⟨?_, Or.inl rfl⟩
        rw [len_sliceTo]
        omega
      · rw [argsOk]
        exact ⟨ha, hoka, hrest⟩

theorem tokOk_legacy_if {s r : Span} {t : Token}
    (h : legacy_if s = some (r, t)) : tokOk t := by
  obtain ⟨⟨sp, e⟩, hc, rfl⟩ := pmap_inv h
  have hcw := consumed_delimited_within (canon_ppair canon_tag (canon_ws canon_tag))
    elemWithin_expr canon_tag hc
  rw [tokOk]
  constructor
  · rw [span_legacyIfSubject]
    exact hcw.1
  · exact exprOk_legacyIfSubject hcw.2

theorem tokOk_legacy_else {s r : Span} {t : Token}
    (h : legacy_else s = some (r, t)) : tokOk t := by
  obtain ⟨v0, -, rfl⟩ := pmap_inv h
  rw [tokOk]
  trivial

theorem elemWithin_takeUntil {lit : List Char} :
    ElemWithin (takeUntil lit) (fun v => v) (fun _ => True) := by
  intro s r v h
  obtain ⟨k, hk, rfl, rfl⟩ := takeUntil_inv h
  exact ⟨k, findSubIdx_le hk, rfl, within_refl _, trivial⟩

theorem tokOk_legacy_end {s r : Span} {t : Token}
    (h : legacy_end s = some (r, t)) : tokOk t := by
  obtain ⟨⟨sp, raw⟩, hc, rfl⟩ := pmap_inv h
  have hcw := consumed_delimited_within
    (canon_ppair canon_tag (canon_ws (canon_palt canon_tag canon_tag)))
    (elemWithin_ws elemWithin_takeUntil) canon_tag hc
  rw [tokOk]
  exact within_trans (sliceTo_within _ _) hcw.1

theorem tokOk_token {s r : Span} {t : Token} (h : token s = some (r, t)) : tokOk t := by
  rcases palt_inv h with h1 | ⟨-, h1⟩
  · exact tokOk_interp_escaped h1
  rcases palt_inv h1 with h2 | ⟨-, h2⟩
  · exact tokOk_interp_raw h2
  rcases palt_inv h2 with h3 | ⟨-, h3⟩
  · exact tokOk_new_each h3
  rcases palt_inv h3 with h4 | ⟨-, h4⟩
  · exact tokOk_new_if h4
  rcases palt_inv h4 with h5 | ⟨-, h5⟩
  · exact tokOk_new_else h5
  rcases palt_inv h5 with h6 | ⟨-, h6⟩
  · exact tokOk_new_end h6
  rcases palt_inv h6 with h7 | ⟨-, h7⟩
  · exact tokOk_legacy_begin h7
  rcases palt_inv h7 with h8 | ⟨-, h8⟩
  · exact tokOk_legacy_if h8
  rcases palt_inv h8 with h9 | ⟨-, h9⟩
  · exact tokOk_legacy_else h9
  · exact tokOk_legacy_end h9


/-! ## The tokenizer loop preserves containment -/

theorem tokensF_opener_self {fuel : Nat} {input : Span} {index : Nat} {acc : List Token}
    {pi st : Nat} {tok : Token} (h1 : index < input.len)
    (h2 : acFind (input.sliceFrom index).frag = some (pi, st))
    (h3 : 4 ≤ pi ∧ pi ≤ 5)
    (h4 : token (input.sliceFrom (index + st)) = some (input, tok)) :
    tokensF (fuel + 1) input index acc = none := by
  simp [tokensF, h1, h2, h3, h4]

theorem tokensF_keyword_err {fuel : Nat} {input : Span} {index : Nat} {acc : List Token}
    {pi st : Nat} (h1 : index < input.len)
    (h2 : acFind (input.sliceFrom index).frag = some (pi, st))
    (h3 : ¬ (4 ≤ pi ∧ pi ≤ 5)) (h4 : ¬ pi ≤ 3)
    (h5 : expression ((input.sliceFrom (index + st)).sliceTo
        (PATTERNS.getD pi []).length) = none) :
    tokensF (fuel + 1) input index acc = none := by
  have h5a : expression ((input.sliceFrom (index + st)).sliceTo
      ((PATTERNS[pi]?.getD []).length)) = none := by simpa using h5
  simp [tokensF, h1, h2, h3, h4, h5a]

theorem tokOk_acc_text {acc : List Token} {sp : Span} {b : Prop} [Decidable b]
    (hacc : ∀ t ∈ acc, tokOk t) :
    ∀ t ∈ (if b then acc ++ [Token.Text sp] else acc), tokOk t := by
  split
  · intro t ht
    rcases List.mem_append.mp ht with hin | hin
    · exact hacc t hin
    · simp only [List.mem_singleton] at hin
      subst hin
      rw [tokOk]
      trivial
  · exact hacc

theorem tokOk_textopt {t : Token} {sp : Span} {b : Prop} [Decidable b]
    (h : t ∈ (if b then [Token.Text sp] else [])) : tokOk t := by
  split at h
  · simp only [List.mem_singleton] at h
    subst h
    rw [tokOk]
    trivial
  · simp at h

theorem tokensF_tokOk : ∀ (fuel : Nat) (input : Span) (index : Nat) (acc : List Token)
    (r : Span) (out : List Token),
    tokensF fuel input index acc = some (r, out) →
    (∀ t ∈ acc, tokOk t) → ∀ t ∈ out, tokOk t := by
  intro fuel
  induction fuel with
  | zero => intro input index acc r out h; cases h
  | succ fuel ih =>
    intro input index acc r out h hacc
    by_cases hidx : index < input.len
    · cases hfind : acFind (input.sliceFrom index).frag with
      | none =>
        rw [tokensF_nofind hidx hfind] at h
        cases h
        intro t ht
        rcases List.mem_append.mp ht with hin | hin
        · exact hacc t hin
        · exact tokOk_textopt hin
      | some pr =>
        obtain ⟨pi, st⟩ := pr
        by_cases hcls : 4 ≤ pi ∧ pi ≤ 5
        · cases htok : token (input.sliceFrom (index + st)) with
          | none =>
            rw [tokensF_opener_err hidx hfind hcls htok] at h
            exact ih _ _ _ _ _ h hacc
          | some rt =>
            obtain ⟨rest, tok⟩ := rt
            by_cases hrest : rest = input
            · subst hrest
              rw [tokensF_opener_self hidx hfind hcls htok] at h
              cases h
            · rw [tokensF_opener_ok hidx hfind hcls htok hrest] at h
              refine ih _ _ _ _ _ h ?_
              intro t ht
              rcases List.mem_append.mp ht with hin | hin
              · exact tokOk_acc_text hacc t hin
              · simp only [List.mem_singleton] at hin
                subst hin
                exact tokOk_token htok
        · by_cases hle : pi ≤ 3
          · rw [tokensF_escape hidx hfind hcls hle] at h
            exact ih _ _ _ _ _ h (tokOk_acc_text hacc)
          · cases hexp : expression ((input.sliceFrom (index + st)).sliceTo
                (PATTERNS.getD pi []).length) with
            | none =>
              rw [tokensF_keyword_err hidx hfind hcls hle hexp] at h
              cases h
            | some re =>
              obtain ⟨re, expr⟩ := re
              rw [tokensF_keyword hidx hfind hcls hle hexp] at h
              refine ih _ _ _ _ _ h ?_
              intro t ht
              rcases List.mem_append.mp ht with hin | hin
              · exact tokOk_acc_text hacc t hin
              · simp only [List.mem_singleton] at hin
                subst hin
                obtain ⟨k, hk, -, hspan, hok⟩ := exprSpec_expression _ _ _ hexp
                rw [tokOk]
                refine ⟨?_, hok⟩
                rw [hspan]
                exact sliceTo_within _ _
    · rw [tokensF_exit hidx] at h
      cases h
      intro t ht
      rcases List.mem_append.mp ht with hin | hin
      · exact hacc t hin
      · exact tokOk_textopt hin


/-- C7 (amended): for every token produced by the tokenizer, the
expression's outer span is a sub-range of the enclosing token's span, and
every sub-span within the expression tree (path parts, helper names,
argument spans) is a sub-range of its expression's outer span — with the
one exception the code makes: a synthesized `@root`/`@value` argument is a
path whose zero-width span sits inside the enclosing spans but whose
single keyword part carries a fresh span (offset 0 over the keyword text)
instead of a sub-range. -/
theorem claim_C7 (s r : Span) (toks : List Token)
    (h : tokens s = some (r, toks)) : ∀ t ∈ toks, tokOk t :=
  tokensF_tokOk _ _ _ _ _ _ h (by simp)

theorem claim_C7_witness :
    tokOk (Token.InterpEscaped ⟨"{ a }".toList, 0⟩
      (Expression.Path ⟨"a".toList, 2⟩ [PathPart.Part ⟨"a".toList, 2⟩])) :=
  claim_C7 ⟨"{ a }".toList, 0⟩ ⟨[], 5⟩
    [Token.InterpEscaped ⟨"{ a }".toList, 0⟩
      (Expression.Path ⟨"a".toList, 2⟩ [PathPart.Part ⟨"a".toList, 2⟩])] rfl
    _ (List.mem_singleton.mpr rfl)


/-! ## Escape semantics (claim C8) -/

/-- Concatenation of the source text covered by a token list's spans. -/
def spansText (toks : List Token) : List Char :=
  (toks.map (fun t => (Token.span t).frag)).flatten

/-- The kind of tokenizer event starting at the head of the unescaped
text: `2`/`3` for an opener that `escape` protects (`\x7b`, `<!--`), and
`6`/`7`/`8` for a bare keyword, numbered like `PATTERNS`. -/
def evKind (cs : List Char) : Option Nat :=
  if cs.take 1 = ['{'] then some 2
  else if cs.take 4 = ['<', '!', '-', '-'] then some 3
  else if cs.take 4 = ['@', 'k', 'e', 'y'] then some 6
  else if cs.take 6 = ['@', 'v', 'a', 'l', 'u', 'e'] then some 7
  else if cs.take 6 = ['@', 'i', 'n', 'd', 'e', 'x'] then some 8
  else none

/-- The first tokenizer event in the unescaped text: kind and position. -/
def evFind : List Char → Option (Nat × Nat)
  | [] => none
  | c :: t =>
    match evKind (c :: t) with
    | some k => some (k, 0)
    | none => (evFind t).map (fun pr => (pr.1, pr.2 + 1))

theorem spansText_nil : spansText [] = [] := rfl

theorem spansText_append (a b : List Token) :
    spansText (a ++ b) = spansText a ++ spansText b := by
  simp [spansText]

theorem spansText_cons (t : Token) (b : List Token) :
    spansText (t :: b) = (Token.span t).frag ++ spansText b := by
  simp [spansText]

theorem take_eq_append_inv : ∀ (w cs : List Char), cs.take w.length = w → ∃ t, cs = w ++ t := by
  intro w
  induction w with
  | nil => intro cs h; exact ⟨cs, rfl⟩
  | cons a w' ih =>
    intro cs h
    cases cs with
    | nil => simp at h
    | cons c cs' =>
      rw [List.length_cons, List.take_succ_cons] at h
      injection h with h1 h2
      subst h1
      obtain ⟨t, rfl⟩ := ih cs' h2
      exact ⟨t, rfl⟩

theorem escape_cons_opener {c : Char} {t : List Char}
    (h : c = '{' ∨ (c = '<' ∧ t.take 3 = ['!', '-', '-'])) :
    escape (c :: t) = '\\' :: c :: escape t := by
  rw [escape, if_pos h]

theorem escape_cons_plain {c : Char} {t : List Char}
    (h : ¬ (c = '{' ∨ (c = '<' ∧ t.take 3 = ['!', '-', '-']))) :
    escape (c :: t) = c :: escape t := by
  rw [escape, if_neg h]

theorem escape_head_ne_brace : ∀ (t t' : List Char), ¬ escape t = '{' :: t' := by
  intro t t' h
  cases t with
  | nil => cases h
  | cons c u =>
    rw [escape] at h
    split at h
    · injection h with h1
      exact absurd h1 (by decide)
    · rename_i hc
      injection h with h1
      exact hc (Or.inl h1)

theorem escape_append_safe : ∀ (w t : List Char),
    (∀ c ∈ w, ¬ c = '{' ∧ ¬ c = '<') → escape (w ++ t) = w ++ escape t := by
  intro w
  induction w with
  | nil => intro t h; rfl
  | cons a w' ih =>
    intro t h
    have ha := h a (List.mem_cons_self a w')
    have hne : ¬ (a = '{' ∨ (a = '<' ∧ (w' ++ t).take 3 = ['!', '-', '-'])) := by
      rintro (h1 | ⟨h1, -⟩)
      · exact ha.1 h1
      · exact ha.2 h1
    rw [List.cons_append, escape_cons_plain hne,
      ih t (fun c hc => h c (List.mem_cons_of_mem a hc))]
    rfl

theorem escape_take_rev : ∀ (w t : List Char), (∀ c ∈ w, ¬ c = '\\') →
    (escape t).take w.length = w → t.take w.length = w := by
  intro w
  induction w with
  | nil => intro t h1 h2; rfl
  | cons a w' ih =>
    intro t h1 h2
    cases t with
    | nil => simp [escape] at h2
    | cons c t' =>
      rw [escape] at h2
      split at h2
      · rw [List.length_cons, List.take_succ_cons] at h2
        simp only [List.cons.injEq] at h2
        exact absurd h2.1.symm (h1 a (List.mem_cons_self a w'))
      · rw [List.length_cons, List.take_succ_cons] at h2 ⊢
        simp only [List.cons.injEq] at h2
        obtain ⟨rfl, hB⟩ := h2
        rw [ih t' (fun d hd => h1 d (List.mem_cons_of_mem c hd)) hB]

theorem evKind_none_conds {cs : List Char} (h : evKind cs = none) :
    ¬ cs.take 1 = ['{'] ∧ ¬ cs.take 4 = ['<', '!', '-', '-'] ∧
    ¬ cs.take 4 = ['@', 'k', 'e', 'y'] ∧ ¬ cs.take 6 = ['@', 'v', 'a', 'l', 'u', 'e'] ∧
    ¬ cs.take 6 = ['@', 'i', 'n', 'd', 'e', 'x'] := by
  rw [evKind] at h
  split_ifs at h with h1 h2 h3 h4 h5
  exact ⟨h1, h2, h3, h4, h5⟩

theorem evKind_none_not_opener {c : Char} {t : List Char} (h : evKind (c :: t) = none) :
    ¬ (c = '{' ∨ (c = '<' ∧ t.take 3 = ['!', '-', '-'])) := by
  obtain ⟨h1, h2, -⟩ := evKind_none_conds h
  rintro (rfl | ⟨rfl, h3⟩)
  · exact h1 rfl
  · refine h2 ?_
    show '<' :: t.take 3 = ['<', '!', '-', '-']
    rw [h3]

theorem evKind_some_inv {cs : List Char} {k : Nat} (h : evKind cs = some k) :
    (k = 2 ∧ ∃ t, cs = '{' :: t) ∨
    (k = 3 ∧ ∃ t, cs = '<' :: '!' :: '-' :: '-' :: t) ∨
    (k = 6 ∧ ∃ t, cs = '@' :: 'k' :: 'e' :: 'y' :: t) ∨
    (k = 7 ∧ ∃ t, cs = '@' :: 'v' :: 'a' :: 'l' :: 'u' :: 'e' :: t) ∨
    (k = 8 ∧ ∃ t, cs = '@' :: 'i' :: 'n' :: 'd' :: 'e' :: 'x' :: t) := by
  rw [evKind] at h
  split_ifs at h with h1 h2 h3 h4 h5 <;> injection h with hk
  · obtain ⟨t, rfl⟩ := take_eq_append_inv ['{'] cs h1
    exact Or.inl ⟨hk.symm, t, rfl⟩
  · obtain ⟨t, rfl⟩ := take_eq_append_inv ['<', '!', '-', '-'] cs h2
    exact Or.inr (Or.inl ⟨hk.symm, t, rfl⟩)
  · obtain ⟨t, rfl⟩ := take_eq_append_inv ['@', 'k', 'e', 'y'] cs h3
    exact Or.inr (Or.inr (Or.inl ⟨hk.symm, t, rfl⟩))
  · obtain ⟨t, rfl⟩ := take_eq_append_inv ['@', 'v', 'a', 'l', 'u', 'e'] cs h4
    exact Or.inr (Or.inr (Or.inr (Or.inl ⟨hk.symm, t, rfl⟩)))
  · obtain ⟨t, rfl⟩ := take_eq_append_inv ['@', 'i', 'n', 'd', 'e', 'x'] cs h5
    exact Or.inr (Or.inr (Or.inr (Or.inr ⟨hk.symm, t, rfl⟩)))

theorem escape_eq_of_no_event : ∀ v : List Char, evFind v = none → escape v = v := by
  intro v
  induction v with
  | nil => intro h; rfl
  | cons c t ih =>
    intro h
    rw [evFind] at h
    cases hk : evKind (c :: t) with
    | some k0 => rw [hk] at h; cases h
    | none =>
      rw [hk] at h
      rw [Option.map_eq_none'] at h
      rw [escape_cons_plain (evKind_none_not_opener hk), ih h]

theorem escape_split_at_event : ∀ (v : List Char) (k i : Nat), evFind v = some (k, i) →
    (escape v).take i = v.take i ∧ (escape v).drop i = escape (v.drop i) ∧
    evKind (v.drop i) = some k := by
  intro v
  induction v with
  | nil => intro k i h; cases h
  | cons c t ih =>
    intro k i h
    rw [evFind] at h
    cases hk : evKind (c :: t) with
    | some k0 =>
      rw [hk] at h
      injection h with h1
      injection h1 with h2 h3
      subst h2
      subst h3
      exact ⟨rfl, rfl, hk⟩
    | none =>
      rw [hk] at h
      rw [Option.map_eq_some'] at h
      obtain ⟨⟨k1, i1⟩, hf, heq⟩ := h
      simp only [Prod.mk.injEq] at heq
      obtain ⟨rfl, rfl⟩ := heq
      obtain ⟨hT, hD, hK⟩ := ih k1 i1 hf
      rw [escape_cons_plain (evKind_none_not_opener hk)]
      refine ⟨?_, ?_, ?_⟩
      · show c :: (escape t).take i1 = c :: t.take i1
        rw [hT]
      · show (escape t).drop i1 = escape (t.drop i1)
        exact hD
      · show evKind (t.drop i1) = some k1
        exact hK


theorem firstMatch_none {cs : List Char} : ∀ {ps : List (List Char)} {i : Nat},
    (∀ p ∈ ps, ¬ cs.take p.length = p) → firstMatch cs ps i = none := by
  intro ps
  induction ps with
  | nil => intro i h; rfl
  | cons p ps' ih =>
    intro i h
    rw [firstMatch, if_neg (h p (List.mem_cons_self p ps'))]
    exact ih (fun q hq => h q (List.mem_cons_of_mem p hq))

theorem firstMatch_cons_pos {cs p : List Char} {ps : List (List Char)} {i : Nat}
    (h : cs.take p.length = p) : firstMatch cs (p :: ps) i = some i := by
  rw [firstMatch, if_pos h]

theorem firstMatch_cons_neg {cs p : List Char} {ps : List (List Char)} {i : Nat}
    (h : ¬ cs.take p.length = p) : firstMatch cs (p :: ps) i = firstMatch cs ps (i + 1) := by
  rw [firstMatch, if_neg h]

theorem acFind_cons_some {c : Char} {t : List Char} {pi : Nat}
    (h : firstPatIdx (c :: t) = some pi) : acFind (c :: t) = some (pi, 0) := by
  unfold acFind
  rw [h]

theorem acFind_cons_none {c : Char} {t : List Char}
    (h : firstPatIdx (c :: t) = none) :
    acFind (c :: t) = (acFind t).map (fun pr => (pr.1, pr.2 + 1)) := by
  conv_lhs => unfold acFind
  rw [h]

theorem acFind_escape : ∀ v : List Char, acFind (escape v) = evFind v := by
  intro v
  induction v with
  | nil => rfl
  | cons c t ih =>
    cases hk : evKind (c :: t) with
    | none =>
      obtain ⟨hb1, hb2, hb3, hb4, hb5⟩ := evKind_none_conds hk
      have hcb : ¬ c = '{' := by
        intro hc
        subst hc
        exact hb1 rfl
      have hall : ∀ p ∈ PATTERNS, ¬ (c :: escape t).take p.length = p := by
        intro p hp
        unfold PATTERNS at hp
        simp only [List.mem_cons, List.not_mem_nil, or_false] at hp
        rcases hp with rfl | rfl | rfl | rfl | rfl | rfl | rfl | rfl | rfl
        · intro h0
          have h1 : c :: (escape t).take 3 = ['\\', '{', '{', '{'] := h0
          simp only [List.cons.injEq] at h1
          obtain ⟨t0, ht0⟩ := take_eq_append_inv ['{', '{', '{'] _ h1.2
          exact escape_head_ne_brace t _ ht0
        · intro h0
          have h1 : c :: (escape t).take 2 = ['\\', '{', '{'] := h0
          simp only [List.cons.injEq] at h1
          obtain ⟨t0, ht0⟩ := take_eq_append_inv ['{', '{'] _ h1.2
          exact escape_head_ne_brace t _ ht0
        · intro h0
          have h1 : c :: (escape t).take 1 = ['\\', '{'] := h0
          simp only [List.cons.injEq] at h1
          obtain ⟨t0, ht0⟩ := take_eq_append_inv ['{'] _ h1.2
          exact escape_head_ne_brace t _ ht0
        · intro h0
          have h1 : c :: (escape t).take 4 = ['\\', '<', '!', '-', '-'] := h0
          simp only [List.cons.injEq] at h1
          have hrev := escape_take_rev ['<', '!', '-', '-'] t (by decide) h1.2
          obtain ⟨t0, ht0⟩ := take_eq_append_inv ['<', '!', '-', '-'] t hrev
          have h2 := h1.2
          rw [ht0] at h2
          have h3 : (escape ('<' :: '!' :: '-' :: '-' :: t0)).take 4 = ['<', '!', '-', '-'] := h2
          rw [@escape_cons_opener '<' ('!' :: '-' :: '-' :: t0) (Or.inr ⟨rfl, rfl⟩)] at h3
          have h4 : '\\' :: ('<' :: escape ('!' :: '-' :: '-' :: t0)).take 3
              = ['<', '!', '-', '-'] := h3
          simp only [List.cons.injEq] at h4
          exact absurd h4.1 (by decide)
        · intro h0
          have h1 : [c] = ['{'] := h0
          simp only [List.cons.injEq] at h1
          exact hcb h1.1
        · intro h0
          have h1 : c :: (escape t).take 3 = ['<', '!', '-', '-'] := h0
          simp only [List.cons.injEq] at h1
          have hrev := escape_take_rev ['!', '-', '-'] t (by decide) h1.2
          refine hb2 ?_
          show c :: t.take (['!', '-', '-'] : List Char).length = ['<', '!', '-', '-']
          rw [h1.1, hrev]
        · intro h0
          have h1 : c :: (escape t).take 3 = ['@', 'k', 'e', 'y'] := h0
          simp only [List.cons.injEq] at h1
          have hrev := escape_take_rev ['k', 'e', 'y'] t (by decide) h1.2
          refine hb3 ?_
          show c :: t.take (['k', 'e', 'y'] : List Char).length = ['@', 'k', 'e', 'y']
          rw [h1.1, hrev]
        · intro h0
          have h1 : c :: (escape t).take 5 = ['@', 'v', 'a', 'l', 'u', 'e'] := h0
          simp only [List.cons.injEq] at h1
          have hrev := escape_take_rev ['v', 'a', 'l', 'u', 'e'] t (by decide) h1.2
          refine hb4 ?_
          show c :: t.take (['v', 'a', 'l', 'u', 'e'] : List Char).length
            = ['@', 'v', 'a', 'l', 'u', 'e']
          rw [h1.1, hrev]
        · intro h0
          have h1 : c :: (escape t).take 5 = ['@', 'i', 'n', 'd', 'e', 'x'] := h0
          simp only [List.cons.injEq] at h1
          have hrev := escape_take_rev ['i', 'n', 'd', 'e', 'x'] t (by decide) h1.2
          refine hb5 ?_
          show c :: t.take (['i', 'n', 'd', 'e', 'x'] : List Char).length
            = ['@', 'i', 'n', 'd', 'e', 'x']
          rw [h1.1, hrev]
      have hfp : firstPatIdx (c :: escape t) = none := by
        unfold firstPatIdx
        exact firstMatch_none hall
      rw [escape_cons_plain (evKind_none_not_opener hk), acFind_cons_none hfp, ih,
        evFind, hk]
    | some k =>
      rcases evKind_some_inv hk with ⟨rfl, t', heq⟩ | ⟨rfl, t', heq⟩ | ⟨rfl, t', heq⟩ |
        ⟨rfl, t', heq⟩ | ⟨rfl, t', heq⟩ <;>
        simp only [List.cons.injEq] at heq
      · obtain ⟨rfl, rfl⟩ := heq
        rw [escape_cons_opener (Or.inl rfl)]
        have e0 : ¬ ('\\' :: '{' :: escape t).take (['\\', '{', '{', '{'] : List Char).length
            = ['\\', '{', '{', '{'] := by
          intro h0
          have h1 : '\\' :: '{' :: (escape t).take 2 = ['\\', '{', '{', '{'] := h0
          simp only [List.cons.injEq] at h1
          obtain ⟨t0, ht0⟩ := take_eq_append_inv ['{', '{'] _ h1.2.2
          exact escape_head_ne_brace t _ ht0
        have e1 : ¬ ('\\' :: '{' :: escape t).take (['\\', '{', '{'] : List Char).length
            = ['\\', '{', '{'] := by
          intro h0
          have h1 : '\\' :: '{' :: (escape t).take 1 = ['\\', '{', '{'] := h0
          simp only [List.cons.injEq] at h1
          obtain ⟨t0, ht0⟩ := take_eq_append_inv ['{'] _ h1.2.2
          exact escape_head_ne_brace t _ ht0
        have pos2 : ('\\' :: '{' :: escape t).take (['\\', '{'] : List Char).length
            = ['\\', '{'] := rfl
        have hfp : firstPatIdx ('\\' :: '{' :: escape t) = some 2 := by
          unfold firstPatIdx PATTERNS
          rw [firstMatch_cons_neg e0, firstMatch_cons_neg e1, firstMatch_cons_pos pos2]
        rw [acFind_cons_some hfp, evFind, hk]
      · obtain ⟨rfl, rfl⟩ := heq
        have hesc : escape ('!' :: '-' :: '-' :: t') = '!' :: '-' :: '-' :: escape t' :=
          escape_append_safe ['!', '-', '-'] t' (by decide)
        rw [@escape_cons_opener '<' ('!' :: '-' :: '-' :: t') (Or.inr ⟨rfl, rfl⟩), hesc]
        have e0 : ¬ ('\\' :: '<' :: '!' :: '-' :: '-' :: escape t').take
            (['\\', '{', '{', '{'] : List Char).length = ['\\', '{', '{', '{'] := by
          intro h0
          exact absurd (show (['\\', '<', '!', '-'] : List Char) = ['\\', '{', '{', '{'] from h0)
            (by decide)
        have e1 : ¬ ('\\' :: '<' :: '!' :: '-' :: '-' :: escape t').take
            ((['\\', '{', '{'] : List Char)).length = ['\\', '{', '{'] := by
          intro h0
          exact absurd (show (['\\', '<', '!'] : List Char) = ['\\', '{', '{'] from h0) (by decide)
        have e2 : ¬ ('\\' :: '<' :: '!' :: '-' :: '-' :: escape t').take
            ((['\\', '{'] : List Char)).length = ['\\', '{'] := by
          intro h0
          exact absurd (show (['\\', '<'] : List Char) = ['\\', '{'] from h0) (by decide)
        have pos3 : ('\\' :: '<' :: '!' :: '-' :: '-' :: escape t').take
            (('\\' :: ['<', '!', '-', '-']) : List Char).length = '\\' :: ['<', '!', '-', '-'] := rfl
        have hfp : firstPatIdx ('\\' :: '<' :: '!' :: '-' :: '-' :: escape t') = some 3 := by
          unfold firstPatIdx PATTERNS
          rw [firstMatch_cons_neg e0, firstMatch_cons_neg e1, firstMatch_cons_neg e2,
            firstMatch_cons_pos pos3]
        rw [acFind_cons_some hfp, evFind, hk]
      · obtain ⟨rfl, rfl⟩ := heq
        have hesc : escape ('k' :: 'e' :: 'y' :: t') = 'k' :: 'e' :: 'y' :: escape t' :=
          escape_append_safe ['k', 'e', 'y'] t' (by decide)
        have hpl : ¬ ('@' = '{' ∨ ('@' = '<' ∧
            ('k' :: 'e' :: 'y' :: t').take 3 = ['!', '-', '-'])) := by
          intro h0
          exact absurd
            (show ('@' = '{' ∨ ('@' = '<' ∧ (['k', 'e', 'y'] : List Char) = ['!', '-', '-'])) from h0)
            (by decide)
        rw [escape_cons_plain hpl, hesc]
        have e0 : ¬ ('@' :: 'k' :: 'e' :: 'y' :: escape t').take
            ((['\\', '{', '{', '{'] : List Char)).length = ['\\', '{', '{', '{'] := by
          intro h0
          exact absurd (show (['@', 'k', 'e', 'y'] : List Char) = ['\\', '{', '{', '{'] from h0) (by decide)
        have e1 : ¬ ('@' :: 'k' :: 'e' :: 'y' :: escape t').take
            ((['\\', '{', '{'] : List Char)).length = ['\\', '{', '{'] := by
          intro h0
          exact absurd (show (['@', 'k', 'e'] : List Char) = ['\\', '{', '{'] from h0) (by decide)
        have e2 : ¬ ('@' :: 'k' :: 'e' :: 'y' :: escape t').take
            ((['\\', '{'] : List Char)).length = ['\\', '{'] := by
          intro h0
          exact absurd (show (['@', 'k'] : List Char) = ['\\', '{'] from h0) (by decide)
        have e3 : ¬ ('@' :: 'k' :: 'e' :: 'y' :: escape t').take
            (('\\' :: ['<', '!', '-', '-']) : List Char).length = '\\' :: ['<', '!', '-', '-'] := by
          intro h0
          have h1 : '@' :: ('k' :: 'e' :: 'y' :: escape t').take 4
              = ['\\', '<', '!', '-', '-'] := h0
          simp only [List.cons.injEq] at h1
          exact absurd h1.1 (by decide)
        have e4 : ¬ ('@' :: 'k' :: 'e' :: 'y' :: escape t').take
            ((['{'] : List Char)).length = ['{'] := by
          intro h0
          exact absurd (show (['@'] : List Char) = ['{'] from h0) (by decide)
        have e5 : ¬ ('@' :: 'k' :: 'e' :: 'y' :: escape t').take
            ((['<', '!', '-', '-'] : List Char)).length = ['<', '!', '-', '-'] := by
          intro h0
          exact absurd (show (['@', 'k', 'e', 'y'] : List Char) = ['<', '!', '-', '-'] from h0) (by decide)
        have pos6 : ('@' :: 'k' :: 'e' :: 'y' :: escape t').take
            (['@', 'k', 'e', 'y'] : List Char).length = ['@', 'k', 'e', 'y'] := rfl
        have hfp : firstPatIdx ('@' :: 'k' :: 'e' :: 'y' :: escape t') = some 6 := by
          unfold firstPatIdx PATTERNS
          rw [firstMatch_cons_neg e0, firstMatch_cons_neg e1, firstMatch_cons_neg e2,
            firstMatch_cons_neg e3, firstMatch_cons_neg e4, firstMatch_cons_neg e5,
            firstMatch_cons_pos pos6]
        rw [acFind_cons_some hfp, evFind, hk]
      · obtain ⟨rfl, rfl⟩ := heq
        have hesc : escape ('v' :: 'a' :: 'l' :: 'u' :: 'e' :: t')
            = 'v' :: 'a' :: 'l' :: 'u' :: 'e' :: escape t' :=
          escape_append_safe ['v', 'a', 'l', 'u', 'e'] t' (by decide)
        have hpl : ¬ ('@' = '{' ∨ ('@' = '<' ∧
            ('v' :: 'a' :: 'l' :: 'u' :: 'e' :: t').take 3 = ['!', '-', '-'])) := by
          intro h0
          exact absurd
            (show ('@' = '{' ∨ ('@' = '<' ∧ (['v', 'a', 'l'] : List Char) = ['!', '-', '-'])) from h0)
            (by decide)
        rw [escape_cons_plain hpl, hesc]
        have e0 : ¬ ('@' :: 'v' :: 'a' :: 'l' :: 'u' :: 'e' :: escape t').take
            ((['\\', '{', '{', '{'] : List Char)).length = ['\\', '{', '{', '{'] := by
          intro h0
          exact absurd (show (['@', 'v', 'a', 'l'] : List Char) = ['\\', '{', '{', '{'] from h0) (by decide)
        have e1 : ¬ ('@' :: 'v' :: 'a' :: 'l' :: 'u' :: 'e' :: escape t').take
            ((['\\', '{', '{'] : List Char)).length = ['\\', '{', '{'] := by
          intro h0
          exact absurd (show (['@', 'v', 'a'] : List Char) = ['\\', '{', '{'] from h0) (by decide)
        have e2 : ¬ ('@' :: 'v' :: 'a' :: 'l' :: 'u' :: 'e' :: escape t').take
            ((['\\', '{'] : List Char)).length = ['\\', '{'] := by
          intro h0
          exact absurd (show (['@', 'v'] : List Char) = ['\\', '{'] from h0) (by decide)
        have e3 : ¬ ('@' :: 'v' :: 'a' :: 'l' :: 'u' :: 'e' :: escape t').take
            (('\\' :: ['<', '!', '-', '-']) : List Char).length = '\\' :: ['<', '!', '-', '-'] := by
          intro h0
          exact absurd
            (show (['@', 'v', 'a', 'l', 'u'] : List Char) = ['\\', '<', '!', '-', '-'] from h0)
            (by decide)
        have e4 : ¬ ('@' :: 'v' :: 'a' :: 'l' :: 'u' :: 'e' :: escape t').take
            ((['{'] : List Char)).length = ['{'] := by
          intro h0
          exact absurd (show (['@'] : List Char) = ['{'] from h0) (by decide)
        have e5 : ¬ ('@' :: 'v' :: 'a' :: 'l' :: 'u' :: 'e' :: escape t').take
            ((['<', '!', '-', '-'] : List Char)).length = ['<', '!', '-', '-'] := by
          intro h0
          exact absurd (show (['@', 'v', 'a', 'l'] : List Char) = ['<', '!', '-', '-'] from h0) (by decide)
        have e6 : ¬ ('@' :: 'v' :: 'a' :: 'l' :: 'u' :: 'e' :: escape t').take
            ((['@', 'k', 'e', 'y'] : List Char)).length = ['@', 'k', 'e', 'y'] := by
          intro h0
          exact absurd (show (['@', 'v', 'a', 'l'] : List Char) = ['@', 'k', 'e', 'y'] from h0) (by decide)
        have pos7 : ('@' :: 'v' :: 'a' :: 'l' :: 'u' :: 'e' :: escape t').take
            (['@', 'v', 'a', 'l', 'u', 'e'] : List Char).length
            = ['@', 'v', 'a', 'l', 'u', 'e'] := rfl
        have hfp : firstPatIdx ('@' :: 'v' :: 'a' :: 'l' :: 'u' :: 'e' :: escape t')
            = some 7 := by
          unfold firstPatIdx PATTERNS
          rw [firstMatch_cons_neg e0, firstMatch_cons_neg e1, firstMatch_cons_neg e2,
            firstMatch_cons_neg e3, firstMatch_cons_neg e4, firstMatch_cons_neg e5,
            firstMatch_cons_neg e6, firstMatch_cons_pos pos7]
        rw [acFind_cons_some hfp, evFind, hk]
      · obtain ⟨rfl, rfl⟩ := heq
        have hesc : escape ('i' :: 'n' :: 'd' :: 'e' :: 'x' :: t')
            = 'i' :: 'n' :: 'd' :: 'e' :: 'x' :: escape t' :=
          escape_append_safe ['i', 'n', 'd', 'e', 'x'] t' (by decide)
        have hpl : ¬ ('@' = '{' ∨ ('@' = '<' ∧
            ('i' :: 'n' :: 'd' :: 'e' :: 'x' :: t').take 3 = ['!', '-', '-'])) := by
          intro h0
          exact absurd
            (show ('@' = '{' ∨ ('@' = '<' ∧ (['i', 'n', 'd'] : List Char) = ['!', '-', '-'])) from h0)
            (by decide)
        rw [escape_cons_plain hpl, hesc]
        have e0 : ¬ ('@' :: 'i' :: 'n' :: 'd' :: 'e' :: 'x' :: escape t').take
            ((['\\', '{', '{', '{'] : List Char)).length = ['\\', '{', '{', '{'] := by
          intro h0
          exact absurd (show (['@', 'i', 'n', 'd'] : List Char) = ['\\', '{', '{', '{'] from h0) (by decide)
        have e1 : ¬ ('@' :: 'i' :: 'n' :: 'd' :: 'e' :: 'x' :: escape t').take
            ((['\\', '{', '{'] : List Char)).length = ['\\', '{', '{'] := by
          intro h0
          exact absurd (show (['@', 'i', 'n'] : List Char) = ['\\', '{', '{'] from h0) (by decide)
        have e2 : ¬ ('@' :: 'i' :: 'n' :: 'd' :: 'e' :: 'x' :: escape t').take
            ((['\\', '{'] : List Char)).length = ['\\', '{'] := by
          intro h0
          exact absurd (show (['@', 'i'] : List Char) = ['\\', '{'] from h0) (by decide)
        have e3 : ¬ ('@' :: 'i' :: 'n' :: 'd' :: 'e' :: 'x' :: escape t').take
            (('\\' :: ['<', '!', '-', '-']) : List Char).length = '\\' :: ['<', '!', '-', '-'] := by
          intro h0
          exact absurd
            (show (['@', 'i', 'n', 'd', 'e'] : List Char) = ['\\', '<', '!', '-', '-'] from h0)
            (by decide)
        have e4 : ¬ ('@' :: 'i' :: 'n' :: 'd' :: 'e' :: 'x' :: escape t').take
            ((['{'] : List Char)).length = ['{'] := by
          intro h0
          exact absurd (show (['@'] : List Char) = ['{'] from h0) (by decide)
        have e5 : ¬ ('@' :: 'i' :: 'n' :: 'd' :: 'e' :: 'x' :: escape t').take
            ((['<', '!', '-', '-'] : List Char)).length = ['<', '!', '-', '-'] := by
          intro h0
          exact absurd (show (['@', 'i', 'n', 'd'] : List Char) = ['<', '!', '-', '-'] from h0) (by decide)
        have e6 : ¬ ('@' :: 'i' :: 'n' :: 'd' :: 'e' :: 'x' :: escape t').take
            ((['@', 'k', 'e', 'y'] : List Char)).length = ['@', 'k', 'e', 'y'] := by
          intro h0
          exact absurd (show (['@', 'i', 'n', 'd'] : List Char) = ['@', 'k', 'e', 'y'] from h0) (by decide)
        have e7 : ¬ ('@' :: 'i' :: 'n' :: 'd' :: 'e' :: 'x' :: escape t').take
            (['@', 'v', 'a', 'l', 'u', 'e'] : List Char).length
            = ['@', 'v', 'a', 'l', 'u', 'e'] := by
          intro h0
          exact absurd
            (show (['@', 'i', 'n', 'd', 'e', 'x'] : List Char)
              = ['@', 'v', 'a', 'l', 'u', 'e'] from h0) (by decide)
        have pos8 : ('@' :: 'i' :: 'n' :: 'd' :: 'e' :: 'x' :: escape t').take
            (['@', 'i', 'n', 'd', 'e', 'x'] : List Char).length
            = ['@', 'i', 'n', 'd', 'e', 'x'] := rfl
        have hfp : firstPatIdx ('@' :: 'i' :: 'n' :: 'd' :: 'e' :: 'x' :: escape t')
            = some 8 := by
          unfold firstPatIdx PATTERNS
          rw [firstMatch_cons_neg e0, firstMatch_cons_neg e1, firstMatch_cons_neg e2,
            firstMatch_cons_neg e3, firstMatch_cons_neg e4, firstMatch_cons_neg e5,
            firstMatch_cons_neg e6, firstMatch_cons_neg e7, firstMatch_cons_pos pos8]
        rw [acFind_cons_some hfp, evFind, hk]


theorem evFind_lt : ∀ {v : List Char} {k i : Nat}, evFind v = some (k, i) → i < v.length := by
  intro v
  induction v with
  | nil => intro k i h; cases h
  | cons c t ih =>
    intro k i h
    rw [evFind] at h
    cases hk : evKind (c :: t) with
    | some k0 =>
      rw [hk] at h
      injection h with h1
      injection h1 with h2 h3
      subst h3
      simp
    | none =>
      rw [hk] at h
      rw [Option.map_eq_some'] at h
      obtain ⟨⟨k1, i1⟩, hf, heq⟩ := h
      simp only [Prod.mk.injEq] at heq
      obtain ⟨rfl, rfl⟩ := heq
      have := ih hf
      simp only [List.length_cons]
      omega

theorem acc_if_text {b : Prop} [Decidable b] (acc : List Token) (e : Token) :
    (if b then acc ++ [e] else acc) = acc ++ (if b then [e] else []) := by
  split <;> simp

theorem spansText_one (t : Token) : spansText [t] = (Token.span t).frag := by
  simp [spansText]

theorem tokensF_escape_loop : ∀ (fuel : Nat) (p v : List Char) (o : Nat) (acc : List Token),
    (p ++ escape v).length < fuel →
    ∃ rest : Span, ∃ toks : List Token,
      tokensF fuel ⟨p ++ escape v, o⟩ p.length acc = some (rest, acc ++ toks) ∧
      spansText toks = p ++ v := by
  intro fuel
  induction fuel with
  | zero => intro p v o acc h; exact absurd h (Nat.not_lt_zero _)
  | succ fuel ih =>
    intro p v o acc hfuel
    set input : Span := ⟨p ++ escape v, o⟩ with hinput
    cases hev : evFind v with
    | none =>
      have hesc : escape v = v := escape_eq_of_no_event v hev
      have hfind : acFind ((input.sliceFrom p.length).frag) = none := by
        show acFind ((p ++ escape v).drop p.length) = none
        rw [List.drop_left, acFind_escape, hev]
      by_cases hidx : p.length < input.len
      · rw [tokensF_nofind hidx hfind]
        have hpos : 0 < input.len := by omega
        rw [if_pos hpos]
        refine ⟨input.sliceFrom input.len, [Token.Text (input.sliceTo input.len)], rfl, ?_⟩
        rw [spansText_one]
        show (p ++ escape v).take (p ++ escape v).length = p ++ v
        rw [List.take_length, hesc]
      · rw [tokensF_exit hidx]
        have hlen0 : v.length = 0 := by
          have h1 : ¬ p.length < (p ++ escape v).length := hidx
          rw [List.length_append, hesc] at h1
          omega
        have hv0 : v = [] := List.length_eq_zero.mp hlen0
        subst hv0
        refine ⟨input.sliceFrom input.len,
          (if 0 < p.length then [Token.Text (input.sliceTo p.length)] else []), rfl, ?_⟩
        by_cases hpp : 0 < p.length
        · rw [if_pos hpp, spansText_one]
          show (p ++ escape ([] : List Char)).take p.length = p ++ ([] : List Char)
          simp [escape]
        · rw [if_neg hpp, spansText_nil]
          have hp0 : p = [] := List.length_eq_zero.mp (by omega)
          subst hp0
          rfl
    | some pr =>
      obtain ⟨k, i⟩ := pr
      obtain ⟨hT, hD, hK⟩ := escape_split_at_event v k i hev
      have hfind : acFind ((input.sliceFrom p.length).frag) = some (k, i) := by
        show acFind ((p ++ escape v).drop p.length) = some (k, i)
        rw [List.drop_left, acFind_escape, hev]
      have hvlt : i < v.length := evFind_lt hev
      rcases evKind_some_inv hK with ⟨rfl, t', hvi⟩ | ⟨rfl, t', hvi⟩ | ⟨rfl, t', hvi⟩ |
        ⟨rfl, t', hvi⟩ | ⟨rfl, t', hvi⟩
      · -- escaped brace opener
        have hstepE : escape (v.drop i) = '\\' :: '{' :: escape t' := by
          rw [hvi, escape_cons_opener (Or.inl rfl)]
        have hiE : i < (escape v).length := by
          by_contra hge
          have hnil : (escape v).drop i = [] := List.drop_eq_nil_of_le (by omega)
          rw [hD, hstepE] at hnil
          cases hnil
        have hidx : p.length < input.len := by
          show p.length < (p ++ escape v).length
          rw [List.length_append]
          omega
        have hlendrop : ((escape v).drop i).length = (escape v).length - i :=
          List.length_drop i (escape v)
        have hlen2 : (escape v).length - i = (escape t').length + 2 := by
          rw [hD, hstepE] at hlendrop
          simp only [List.length_cons] at hlendrop
          omega
        rw [tokensF_escape hidx hfind (by decide) (by decide)]
        rw [acc_if_text]
        have hi1 : p.length + i + 1 = p.length + (i + 1) := by omega
        rw [hi1]
        have hfrag : (p ++ escape v).drop (p.length + (i + 1)) = '{' :: escape t' := by
          rw [List.drop_append (i + 1)]
          have h2 : ((escape v).drop i).drop 1 = (escape v).drop (i + 1) := by
            rw [List.drop_drop]
          rw [← h2, hD, hstepE]
          rfl
        have hstep : input.sliceFrom (p.length + (i + 1))
            = ⟨'{' :: escape t', o + (p.length + (i + 1))⟩ := by
          show Span.mk ((p ++ escape v).drop (p.length + (i + 1))) (o + (p.length + (i + 1))) = _
          rw [hfrag]
        rw [hstep]
        obtain ⟨rest, toks', hrun, hcov⟩ := ih ['{'] t' (o + (p.length + (i + 1)))
          (acc ++ (if 0 < p.length + i
            then [Token.Text (input.sliceTo (p.length + i))] else []))
          (by
            show ('{' :: escape t').length < fuel
            have hfl : (p ++ escape v).length < fuel + 1 := hfuel
            rw [List.length_append] at hfl
            simp only [List.length_cons]
            omega)
        have hcov2 : spansText toks' = '{' :: t' := hcov
        refine ⟨rest, (if 0 < p.length + i
            then [Token.Text (input.sliceTo (p.length + i))] else []) ++ toks', ?_, ?_⟩
        · rw [← List.append_assoc]
          exact hrun
        · rw [spansText_append]
          by_cases hpos : 0 < p.length + i
          · rw [if_pos hpos, spansText_one]
            show (p ++ escape v).take (p.length + i) ++ spansText toks' = p ++ v
            rw [hcov2, List.take_append i, hT, ← hvi, List.append_assoc, List.take_append_drop]
          · rw [if_neg hpos, spansText_nil, List.nil_append, hcov2]
            have hp0 : p = [] := List.length_eq_zero.mp (by omega)
            have hi0 : i = 0 := by omega
            subst hp0
            subst hi0
            have hv2 : v = '{' :: t' := hvi
            rw [hv2]
            rfl
      · -- escaped comment opener
        have hescin : escape ('!' :: '-' :: '-' :: t') = '!' :: '-' :: '-' :: escape t' :=
          escape_append_safe ['!', '-', '-'] t' (by decide)
        have hstepE : escape (v.drop i) = '\\' :: '<' :: '!' :: '-' :: '-' :: escape t' := by
          rw [hvi, @escape_cons_opener '<' ('!' :: '-' :: '-' :: t') (Or.inr ⟨rfl, rfl⟩), hescin]
        have hiE : i < (escape v).length := by
          by_contra hge
          have hnil : (escape v).drop i = [] := List.drop_eq_nil_of_le (by omega)
          rw [hD, hstepE] at hnil
          cases hnil
        have hidx : p.length < input.len := by
          show p.length < (p ++ escape v).length
          rw [List.length_append]
          omega
        have hlendrop : ((escape v).drop i).length = (escape v).length - i :=
          List.length_drop i (escape v)
        have hlen2 : (escape v).length - i = (escape t').length + 5 := by
          rw [hD, hstepE] at hlendrop
          simp only [List.length_cons] at hlendrop
          omega
        rw [tokensF_escape hidx hfind (by decide) (by decide)]
        rw [acc_if_text]
        have hi1 : p.length + i + 1 = p.length + (i + 1) := by omega
        rw [hi1]
        have hfrag : (p ++ escape v).drop (p.length + (i + 1))
            = '<' :: '!' :: '-' :: '-' :: escape t' := by
          rw [List.drop_append (i + 1)]
          have h2 : ((escape v).drop i).drop 1 = (escape v).drop (i + 1) := by
            rw [List.drop_drop]
          rw [← h2, hD, hstepE]
          rfl
        have hstep : input.sliceFrom (p.length + (i + 1))
            = ⟨'<' :: '!' :: '-' :: '-' :: escape t', o + (p.length + (i + 1))⟩ := by
          show Span.mk ((p ++ escape v).drop (p.length + (i + 1))) (o + (p.length + (i + 1))) = _
          rw [hfrag]
        rw [hstep]
        obtain ⟨rest, toks', hrun, hcov⟩ := ih ['<', '!', '-', '-'] t' (o + (p.length + (i + 1)))
          (acc ++ (if 0 < p.length + i
            then [Token.Text (input.sliceTo (p.length + i))] else []))
          (by
            show ('<' :: '!' :: '-' :: '-' :: escape t').length < fuel
            have hfl : (p ++ escape v).length < fuel + 1 := hfuel
            rw [List.length_append] at hfl
            simp only [List.length_cons]
            omega)
        have hcov2 : spansText toks' = '<' :: '!' :: '-' :: '-' :: t' := hcov
        refine ⟨rest, (if 0 < p.length + i
            then [Token.Text (input.sliceTo (p.length + i))] else []) ++ toks', ?_, ?_⟩
        · rw [← List.append_assoc]
          exact hrun
        · rw [spansText_append]
          by_cases hpos : 0 < p.length + i
          · rw [if_pos hpos, spansText_one]
            show (p ++ escape v).take (p.length + i) ++ spansText toks' = p ++ v
            rw [hcov2, List.take_append i, hT, ← hvi, List.append_assoc, List.take_append_drop]
          · rw [if_neg hpos, spansText_nil, List.nil_append, hcov2]
            have hp0 : p = [] := List.length_eq_zero.mp (by omega)
            have hi0 : i = 0 := by omega
            subst hp0
            subst hi0
            have hv2 : v = '<' :: '!' :: '-' :: '-' :: t' := hvi
            rw [hv2]
            rfl
      · -- bare keyword ['@', 'k', 'e', 'y']
        have hescin : escape ('@' :: 'k' :: 'e' :: 'y' :: t') = '@' :: 'k' :: 'e' :: 'y' :: escape t' :=
          escape_append_safe ['@', 'k', 'e', 'y'] t' (by decide)
        have hstepE : escape (v.drop i) = '@' :: 'k' :: 'e' :: 'y' :: escape t' := by
          rw [hvi]
          exact hescin
        have hiE : i < (escape v).length := by
          by_contra hge
          have hnil : (escape v).drop i = [] := List.drop_eq_nil_of_le (by omega)
          rw [hD, hstepE] at hnil
          cases hnil
        have hidx : p.length < input.len := by
          show p.length < (p ++ escape v).length
          rw [List.length_append]
          omega
        have hlendrop : ((escape v).drop i).length = (escape v).length - i :=
          List.length_drop i (escape v)
        have hlen2 : (escape v).length - i = (escape t').length + 4 := by
          rw [hD, hstepE] at hlendrop
          simp only [List.length_cons] at hlendrop
          omega
        have hsp : (input.sliceFrom (p.length + i)).sliceTo
            (PATTERNS.getD 6 []).length = ⟨['@', 'k', 'e', 'y'], o + (p.length + i)⟩ := by
          show Span.mk (((p ++ escape v).drop (p.length + i)).take
            (PATTERNS.getD 6 []).length) (o + (p.length + i)) = _
          rw [List.drop_append i, hD, hstepE]
          rfl
        obtain ⟨re, expr, hexpr⟩ := @kw_expr_isSome 6 (by decide) (by decide)
          (o + (p.length + i))
        have h5 : expression ((input.sliceFrom (p.length + i)).sliceTo
            (PATTERNS.getD 6 []).length) = some (re, expr) := by
          rw [hsp]
          exact hexpr
        rw [tokensF_keyword hidx hfind (by decide) (by decide) h5]
        rw [acc_if_text, hsp]
        have hplen : (PATTERNS.getD 6 ([] : List Char)).length = 4 := rfl
        rw [hplen]
        have hi1 : p.length + i + 4 = p.length + (i + 4) := by omega
        rw [hi1]
        have hfrag : (p ++ escape v).drop (p.length + (i + 4)) = escape t' := by
          rw [List.drop_append (i + 4)]
          have h2 : ((escape v).drop i).drop 4 = (escape v).drop (i + 4) := by
            rw [List.drop_drop]
          rw [← h2, hD, hstepE]
          rfl
        have hstep : input.sliceFrom (p.length + (i + 4))
            = ⟨escape t', o + (p.length + (i + 4))⟩ := by
          show Span.mk ((p ++ escape v).drop (p.length + (i + 4)))
            (o + (p.length + (i + 4))) = _
          rw [hfrag]
        rw [hstep]
        obtain ⟨rest, toks', hrun, hcov⟩ := ih [] t' (o + (p.length + (i + 4)))
          ((acc ++ (if 0 < p.length + i
            then [Token.Text (input.sliceTo (p.length + i))] else []))
            ++ [Token.InterpEscaped ⟨['@', 'k', 'e', 'y'], o + (p.length + i)⟩ expr])
          (by
            show (escape t').length < fuel
            have hfl : (p ++ escape v).length < fuel + 1 := hfuel
            rw [List.length_append] at hfl
            omega)
        have hcov2 : spansText toks' = t' := hcov
        refine ⟨rest, (if 0 < p.length + i
            then [Token.Text (input.sliceTo (p.length + i))] else [])
            ++ ([Token.InterpEscaped ⟨['@', 'k', 'e', 'y'], o + (p.length + i)⟩ expr] ++ toks'), ?_, ?_⟩
        · rw [← List.append_assoc, ← List.append_assoc]
          exact hrun
        · rw [spansText_append, spansText_append, spansText_one, hcov2]
          have hkw : (['@', 'k', 'e', 'y'] : List Char) ++ t' = v.drop i := by
            rw [hvi]
            rfl
          by_cases hpos : 0 < p.length + i
          · rw [if_pos hpos, spansText_one]
            show (p ++ escape v).take (p.length + i)
              ++ ((['@', 'k', 'e', 'y'] : List Char) ++ t') = p ++ v
            rw [List.take_append i, hT, hkw, List.append_assoc, List.take_append_drop]
          · rw [if_neg hpos, spansText_nil, List.nil_append]
            have hp0 : p = [] := List.length_eq_zero.mp (by omega)
            have hi0 : i = 0 := by omega
            subst hp0
            subst hi0
            have hv2 : v = '@' :: 'k' :: 'e' :: 'y' :: t' := hvi
            rw [hv2]
            rfl
      · -- bare keyword ['@', 'v', 'a', 'l', 'u', 'e']
        have hescin : escape ('@' :: 'v' :: 'a' :: 'l' :: 'u' :: 'e' :: t') = '@' :: 'v' :: 'a' :: 'l' :: 'u' :: 'e' :: escape t' :=
          escape_append_safe ['@', 'v', 'a', 'l', 'u', 'e'] t' (by decide)
        have hstepE : escape (v.drop i) = '@' :: 'v' :: 'a' :: 'l' :: 'u' :: 'e' :: escape t' := by
          rw [hvi]
          exact hescin
        have hiE : i < (escape v).length := by
          by_contra hge
          have hnil : (escape v).drop i = [] := List.drop_eq_nil_of_le (by omega)
          rw [hD, hstepE] at hnil
          cases hnil
        have hidx : p.length < input.len := by
          show p.length < (p ++ escape v).length
          rw [List.length_append]
          omega
        have hlendrop : ((escape v).drop i).length = (escape v).length - i :=
          List.length_drop i (escape v)
        have hlen2 : (escape v).length - i = (escape t').length + 6 := by
          rw [hD, hstepE] at hlendrop
          simp only [List.length_cons] at hlendrop
          omega
        have hsp : (input.sliceFrom (p.length + i)).sliceTo
            (PATTERNS.getD 7 []).length = ⟨['@', 'v', 'a', 'l', 'u', 'e'], o + (p.length + i)⟩ := by
          show Span.mk (((p ++ escape v).drop (p.length + i)).take
            (PATTERNS.getD 7 []).length) (o + (p.length + i)) = _
          rw [List.drop_append i, hD, hstepE]
          rfl
        obtain ⟨re, expr, hexpr⟩ := @kw_expr_isSome 7 (by decide) (by decide)
          (o + (p.length + i))
        have h5 : expression ((input.sliceFrom (p.length + i)).sliceTo
            (PATTERNS.getD 7 []).length) = some (re, expr) := by
          rw [hsp]
          exact hexpr
        rw [tokensF_keyword hidx hfind (by decide) (by decide) h5]
        rw [acc_if_text, hsp]
        have hplen : (PATTERNS.getD 7 ([] : List Char)).length = 6 := rfl
        rw [hplen]
        have hi1 : p.length + i + 6 = p.length + (i + 6) := by omega
        rw [hi1]
        have hfrag : (p ++ escape v).drop (p.length + (i + 6)) = escape t' := by
          rw [List.drop_append (i + 6)]
          have h2 : ((escape v).drop i).drop 6 = (escape v).drop (i + 6) := by
            rw [List.drop_drop]
          rw [← h2, hD, hstepE]
          rfl
        have hstep : input.sliceFrom (p.length + (i + 6))
            = ⟨escape t', o + (p.length + (i + 6))⟩ := by
          show Span.mk ((p ++ escape v).drop (p.length + (i + 6)))
            (o + (p.length + (i + 6))) = _
          rw [hfrag]
        rw [hstep]
        obtain ⟨rest, toks', hrun, hcov⟩ := ih [] t' (o + (p.length + (i + 6)))
          ((acc ++ (if 0 < p.length + i
            then [Token.Text (input.sliceTo (p.length + i))] else []))
            ++ [Token.InterpEscaped ⟨['@', 'v', 'a', 'l', 'u', 'e'], o + (p.length + i)⟩ expr])
          (by
            show (escape t').length < fuel
            have hfl : (p ++ escape v).length < fuel + 1 := hfuel
            rw [List.length_append] at hfl
            omega)
        have hcov2 : spansText toks' = t' := hcov
        refine ⟨rest, (if 0 < p.length + i
            then [Token.Text (input.sliceTo (p.length + i))] else [])
            ++ ([Token.InterpEscaped ⟨['@', 'v', 'a', 'l', 'u', 'e'], o + (p.length + i)⟩ expr] ++ toks'), ?_, ?_⟩
        · rw [← List.append_assoc, ← List.append_assoc]
          exact hrun
        · rw [spansText_append, spansText_append, spansText_one, hcov2]
          have hkw : (['@', 'v', 'a', 'l', 'u', 'e'] : List Char) ++ t' = v.drop i := by
            rw [hvi]
            rfl
          by_cases hpos : 0 < p.length + i
          · rw [if_pos hpos, spansText_one]
            show (p ++ escape v).take (p.length + i)
              ++ ((['@', 'v', 'a', 'l', 'u', 'e'] : List Char) ++ t') = p ++ v
            rw [List.take_append i, hT, hkw, List.append_assoc, List.take_append_drop]
          · rw [if_neg hpos, spansText_nil, List.nil_append]
            have hp0 : p = [] := List.length_eq_zero.mp (by omega)
            have hi0 : i = 0 := by omega
            subst hp0
            subst hi0
            have hv2 : v = '@' :: 'v' :: 'a' :: 'l' :: 'u' :: 'e' :: t' := hvi
            rw [hv2]
            rfl
      · -- bare keyword ['@', 'i', 'n', 'd', 'e', 'x']
        have hescin : escape ('@' :: 'i' :: 'n' :: 'd' :: 'e' :: 'x' :: t') = '@' :: 'i' :: 'n' :: 'd' :: 'e' :: 'x' :: escape t' :=
          escape_append_safe ['@', 'i', 'n', 'd', 'e', 'x'] t' (by decide)
        have hstepE : escape (v.drop i) = '@' :: 'i' :: 'n' :: 'd' :: 'e' :: 'x' :: escape t' := by
          rw [hvi]
          exact hescin
        have hiE : i < (escape v).length := by
          by_contra hge
          have hnil : (escape v).drop i = [] := List.drop_eq_nil_of_le (by omega)
          rw [hD, hstepE] at hnil
          cases hnil
        have hidx : p.length < input.len := by
          show p.length < (p ++ escape v).length
          rw [List.length_append]
          omega
        have hlendrop : ((escape v).drop i).length = (escape v).length - i :=
          List.length_drop i (escape v)
        have hlen2 : (escape v).length - i = (escape t').length + 6 := by
          rw [hD, hstepE] at hlendrop
          simp only [List.length_cons] at hlendrop
          omega
        have hsp : (input.sliceFrom (p.length + i)).sliceTo
            (PATTERNS.getD 8 []).length = ⟨['@', 'i', 'n', 'd', 'e', 'x'], o + (p.length + i)⟩ := by
          show Span.mk (((p ++ escape v).drop (p.length + i)).take
            (PATTERNS.getD 8 []).length) (o + (p.length + i)) = _
          rw [List.drop_append i, hD, hstepE]
          rfl
        obtain ⟨re, expr, hexpr⟩ := @kw_expr_isSome 8 (by decide) (by decide)
          (o + (p.length + i))
        have h5 : expression ((input.sliceFrom (p.length + i)).sliceTo
            (PATTERNS.getD 8 []).length) = some (re, expr) := by
          rw [hsp]
          exact hexpr
        rw [tokensF_keyword hidx hfind (by decide) (by decide) h5]
        rw [acc_if_text, hsp]
        have hplen : (PATTERNS.getD 8 ([] : List Char)).length = 6 := rfl
        rw [hplen]
        have hi1 : p.length + i + 6 = p.length + (i + 6) := by omega
        rw [hi1]
        have hfrag : (p ++ escape v).drop (p.length + (i + 6)) = escape t' := by
          rw [List.drop_append (i + 6)]
          have h2 : ((escape v).drop i).drop 6 = (escape v).drop (i + 6) := by
            rw [List.drop_drop]
          rw [← h2, hD, hstepE]
          rfl
        have hstep : input.sliceFrom (p.length + (i + 6))
            = ⟨escape t', o + (p.length + (i + 6))⟩ := by
          show Span.mk ((p ++ escape v).drop (p.length + (i + 6)))
            (o + (p.length + (i + 6))) = _
          rw [hfrag]
        rw [hstep]
        obtain ⟨rest, toks', hrun, hcov⟩ := ih [] t' (o + (p.length + (i + 6)))
          ((acc ++ (if 0 < p.length + i
            then [Token.Text (input.sliceTo (p.length + i))] else []))
            ++ [Token.InterpEscaped ⟨['@', 'i', 'n', 'd', 'e', 'x'], o + (p.length + i)⟩ expr])
          (by
            show (escape t').length < fuel
            have hfl : (p ++ escape v).length < fuel + 1 := hfuel
            rw [List.length_append] at hfl
            omega)
        have hcov2 : spansText toks' = t' := hcov
        refine ⟨rest, (if 0 < p.length + i
            then [Token.Text (input.sliceTo (p.length + i))] else [])
            ++ ([Token.InterpEscaped ⟨['@', 'i', 'n', 'd', 'e', 'x'], o + (p.length + i)⟩ expr] ++ toks'), ?_, ?_⟩
        · rw [← List.append_assoc, ← List.append_assoc]
          exact hrun
        · rw [spansText_append, spansText_append, spansText_one, hcov2]
          have hkw : (['@', 'i', 'n', 'd', 'e', 'x'] : List Char) ++ t' = v.drop i := by
            rw [hvi]
            rfl
          by_cases hpos : 0 < p.length + i
          · rw [if_pos hpos, spansText_one]
            show (p ++ escape v).take (p.length + i)
              ++ ((['@', 'i', 'n', 'd', 'e', 'x'] : List Char) ++ t') = p ++ v
            rw [List.take_append i, hT, hkw, List.append_assoc, List.take_append_drop]
          · rw [if_neg hpos, spansText_nil, List.nil_append]
            have hp0 : p = [] := List.length_eq_zero.mp (by omega)
            have hi0 : i = 0 := by omega
            subst hp0
            subst hi0
            have hv2 : v = '@' :: 'i' :: 'n' :: 'd' :: 'e' :: 'x' :: t' := hvi
            rw [hv2]
            rfl


/-- C8 (amended): tokenizing `escape s` (a backslash prefixed before every
opener in `s`) always succeeds, and the concatenation of the emitted token
spans equals `s` exactly — the escape backslashes are elided.  The result
is not in general the singleton `[Text s]`: each escape forces a `Text`
break, and a bare `@key`/`@value`/`@index` keyword is emitted as an
`InterpEscaped` token; the span concatenation is the faithful remainder of
the stated law. -/
theorem claim_C8 (s : List Char) :
    ∃ rest : Span, ∃ toks : List Token,
      tokens ⟨escape s, 0⟩ = some (rest, toks) ∧ spansText toks = s := by
  obtain ⟨rest, toks, hrun, hcov⟩ := tokensF_escape_loop (2 * (escape s).length + 2) [] s 0 []
    (by
      show (([] : List Char) ++ escape s).length < 2 * (escape s).length + 2
      rw [List.nil_append]
      omega)
  refine ⟨rest, toks, ?_, hcov⟩
  show tokensF (2 * (⟨escape s, 0⟩ : Span).len + 2) ⟨escape s, 0⟩ 0 [] = some (rest, toks)
  exact hrun


/-! ## Claim C3: dispatch of the overlapping brace openers -/

/-- Tails made of spaces and closing braces: the right contexts an
interpolation wraps around its expression. -/
def SafeTail (u : List Char) : Prop := ∀ c ∈ u, c = ' ' ∨ c = '}'

theorem safeTail_nil : SafeTail [] := fun c hc => absurd hc (List.not_mem_nil c)

theorem safeTail_cons_space {z : List Char} (hz : SafeTail z) : SafeTail (' ' :: z) := by
  intro x hx
  rcases List.mem_cons.mp hx with rfl | hx
  · exact Or.inl rfl
  · exact hz x hx

theorem safeTail_cons_brace {z : List Char} (hz : SafeTail z) : SafeTail ('}' :: z) := by
  intro x hx
  rcases List.mem_cons.mp hx with rfl | hx
  · exact Or.inr rfl
  · exact hz x hx

theorem safe_takeWhile_nil {u : List Char} (hu : SafeTail u) {g : Char → Bool}
    (h1 : g ' ' = false) (h2 : g '}' = false) : u.takeWhile g = [] := by
  cases u with
  | nil => rfl
  | cons c t =>
    rcases hu c (List.mem_cons_self c t) with rfl | rfl
    · simp [List.takeWhile, h1]
    · simp [List.takeWhile, h2]

theorem safe_tag_none {u : List Char} (hu : SafeTail u) {d : Char} {l : List Char} {o : Nat}
    (hd1 : d ≠ ' ') (hd2 : d ≠ '}') : tag (d :: l) ⟨u, o⟩ = none := by
  cases u with
  | nil => exact tag_none_nil
  | cons c t =>
    rcases hu c (List.mem_cons_self c t) with rfl | rfl
    · exact tag_none_cons hd1
    · exact tag_none_cons hd2

theorem ms0_not_ws {c : Char} {t : List Char} {o : Nat} (hc : wsChar c = false) :
    multispace0 ⟨c :: t, o⟩ = some (⟨c :: t, o⟩, ⟨[], o⟩) := by
  have h : (List.takeWhile wsChar (c :: t)).length = 0 := by
    simp [List.takeWhile, hc]
  have h2 := @munch0_eval wsChar ⟨c :: t, o⟩ 0 (by exact h)
  rw [sliceFrom_zero, sliceTo_zero] at h2
  exact h2

theorem ms0_space {c : Char} {t : List Char} {o : Nat} (hc : wsChar c = false) :
    multispace0 ⟨' ' :: c :: t, o⟩ = some (⟨c :: t, o + 1⟩, ⟨[' '], o⟩) := by
  have hsp : wsChar ' ' = true := by decide
  have h : (List.takeWhile wsChar (' ' :: c :: t)).length = 1 := by
    simp [List.takeWhile, hsp, hc]
  have h2 := @munch0_eval wsChar ⟨' ' :: c :: t, o⟩ 1 (by exact h)
  exact h2

/-! Head-character failure of every `expression` alternative. -/

theorem munch1_none_head {g : Char → Bool} {c : Char} {t : List Char} {o : Nat}
    (h : g c = false) : munch1 g ⟨c :: t, o⟩ = none := by
  apply munch1_none
  show (List.takeWhile g (c :: t)).length = 0
  simp [List.takeWhile, h]

theorem identRun_none_head {c : Char} {t : List Char} {o : Nat}
    (h1 : (c.isAlpha || c.isDigit) = false)
    (h2 : (List.contains ['_', '-', ':', '@'] c) = false) :
    identRun ⟨c :: t, o⟩ = none := by
  have ha : alphanumeric1 ⟨c :: t, o⟩ = none := munch1_none_head h1
  have hb : isA ['_', '-', ':', '@'] ⟨c :: t, o⟩ = none := munch1_none_head h2
  have hp : palt alphanumeric1 (isA ['_', '-', ':', '@']) ⟨c :: t, o⟩ = none := by
    rw [palt_none ha]
    exact hb
  exact recognize_none (many1Count_none hp)

theorem negativeP_none_head {p : P Expression} {c : Char} {t : List Char} {o : Nat}
    (hws : wsChar c = false) (hc : c ≠ '!') :
    negativeP p ⟨c :: t, o⟩ = none := by
  apply pmap_none
  apply consumed_none
  apply preceded_none1
  exact ws_none (ms0_not_ws hws) (tag_none_cons (Ne.symm hc))

theorem legacyHelperP_none_head {p : P Expression} {c : Char} {t : List Char} {o : Nat}
    (hc : c ≠ 'f') : legacyHelperP p ⟨c :: t, o⟩ = none := by
  apply pmap_none
  apply consumed_none
  apply ppair_none1
  apply preceded_none1
  exact tag_none_cons (Ne.symm hc)

theorem helperP_none_head {p : P Expression} {c : Char} {t : List Char} {o : Nat}
    (h1 : (c.isAlpha || c.isDigit) = false)
    (h2 : (List.contains ['_', '-', ':', '@'] c) = false) :
    helperP p ⟨c :: t, o⟩ = none := by
  apply pmap_none
  apply consumed_none
  apply ppair_none1
  exact identifier_none (identRun_none_head h1 h2)

theorem string_literal_none_head {c : Char} {t : List Char} {o : Nat} (hc : c ≠ '"') :
    string_literal ⟨c :: t, o⟩ = none := by
  apply pmap_none
  apply recognize_none
  apply delimited_none1
  exact tag_none_cons (Ne.symm hc)

theorem keyword_tags_none_head {c : Char} {t : List Char} {o : Nat} (hc : c ≠ '@') :
    keyword_tags ⟨c :: t, o⟩ = none := by
  unfold keyword_tags
  rw [palt_none (tag_none_cons (Ne.symm hc)), palt_none (tag_none_cons (Ne.symm hc)),
    palt_none (tag_none_cons (Ne.symm hc)), palt_none (tag_none_cons (Ne.symm hc)),
    palt_none (tag_none_cons (Ne.symm hc))]
  exact tag_none_cons (Ne.symm hc)

theorem scope_marker_none_head {c : Char} {t : List Char} {o : Nat} (hc : c ≠ '.') :
    scope_marker ⟨c :: t, o⟩ = none := by
  apply pmap_none
  rw [palt_none (tag_none_cons (Ne.symm hc))]
  exact tag_none_cons (Ne.symm hc)

theorem path_none_head {c : Char} {t : List Char} {o : Nat}
    (h1 : (c.isAlpha || c.isDigit) = false)
    (h2 : (List.contains ['_', '-', ':', '@'] c) = false)
    (h3 : c ≠ '@') (h4 : c ≠ '.') :
    path ⟨c :: t, o⟩ = none := by
  unfold path
  rw [palt_none (pmap_none (keyword_tags_none_head h3))]
  apply pmap_none
  apply consumed_none
  have hm : many0P scope_marker ⟨c :: t, o⟩ = some (⟨c :: t, o⟩, ([] : List PathPart)) := by
    rw [many0P_eq]
    exact many0F_step_none (scope_marker_none_head h4)
  exact ppair_none2 hm
    (sepList1_none (pmap_none (identifier_none (identRun_none_head h1 h2))))

/-- No `expression` alternative can start at an opening brace: `{` is not
whitespace, not `!`, not `f`, not an identifier character, not `"`, not `@`
and not `.`. -/
theorem expressionF_brace_none (fuel : Nat) (t : List Char) (o : Nat) :
    expressionF fuel ⟨'{' :: t, o⟩ = none := by
  cases fuel with
  | zero => rfl
  | succ f =>
    rw [expressionF_succ]
    rw [palt_none (negativeP_none_head (by decide) (by decide))]
    rw [palt_none (legacyHelperP_none_head (by decide))]
    rw [palt_none (helperP_none_head (by decide) (by decide))]
    rw [palt_none (string_literal_none_head (by decide))]
    exact path_none_head (by decide) (by decide) (by decide) (by decide)

theorem expression_brace_none (t : List Char) (o : Nat) :
    expression ⟨'{' :: t, o⟩ = none :=
  expressionF_brace_none _ _ _

/-! Evaluation of `ws expression` around a stably parsing fragment. -/

theorem ws_expression_core {w w0 z : List Char} {c : Char} {e : Nat → Expression}
    (hw : w = c :: w0) (hcw : wsChar c = false)
    (h : ∀ o u, SafeTail u → expression ⟨w ++ u, o⟩ = some (⟨u, o + w.length⟩, e o))
    (hz : SafeTail z) (m : Nat) :
    ws expression ⟨' ' :: (w ++ (' ' :: '}' :: z)), m⟩
      = some (⟨'}' :: z, m + 1 + w.length + 1⟩, e (m + 1)) := by
  have h1 : multispace0 ⟨' ' :: (w ++ (' ' :: '}' :: z)), m⟩
      = some (⟨w ++ (' ' :: '}' :: z), m + 1⟩, ⟨[' '], m⟩) := by
    subst hw
    show multispace0 ⟨' ' :: c :: (w0 ++ (' ' :: '}' :: z)), m⟩
      = some (⟨c :: (w0 ++ (' ' :: '}' :: z)), m + 1⟩, ⟨[' '], m⟩)
    exact ms0_space hcw
  have h2 : expression ⟨w ++ (' ' :: '}' :: z), m + 1⟩
      = some (⟨' ' :: '}' :: z, m + 1 + w.length⟩, e (m + 1)) :=
    h (m + 1) (' ' :: '}' :: z) (safeTail_cons_space (safeTail_cons_brace hz))
  have h3 : multispace0 ⟨' ' :: '}' :: z, m + 1 + w.length⟩
      = some (⟨'}' :: z, m + 1 + w.length + 1⟩, ⟨[' '], m + 1 + w.length⟩) :=
    ms0_space (by decide)
  exact ws_eval h1 h2 h3

theorem ws_expression_core2 {w w0 z : List Char} {c : Char} {e : Nat → Expression}
    (hw : w = c :: w0) (hcw : wsChar c = false)
    (h : ∀ o u, SafeTail u → expression ⟨w ++ u, o⟩ = some (⟨u, o + w.length⟩, e o))
    (hz : SafeTail z) (m : Nat) :
    ws expression ⟨w ++ (' ' :: '}' :: z), m⟩
      = some (⟨'}' :: z, m + w.length + 1⟩, e m) := by
  have h1 : multispace0 ⟨w ++ (' ' :: '}' :: z), m⟩
      = some (⟨w ++ (' ' :: '}' :: z), m⟩, ⟨[], m⟩) := by
    subst hw
    show multispace0 ⟨c :: (w0 ++ (' ' :: '}' :: z)), m⟩
      = some (⟨c :: (w0 ++ (' ' :: '}' :: z)), m⟩, ⟨[], m⟩)
    exact ms0_not_ws hcw
  have h2 : expression ⟨w ++ (' ' :: '}' :: z), m⟩
      = some (⟨' ' :: '}' :: z, m + w.length⟩, e m) :=
    h m (' ' :: '}' :: z) (safeTail_cons_space (safeTail_cons_brace hz))
  have h3 : multispace0 ⟨' ' :: '}' :: z, m + w.length⟩
      = some (⟨'}' :: z, m + w.length + 1⟩, ⟨[' '], m + w.length⟩) :=
    ms0_space (by decide)
  exact ws_eval h1 h2 h3

/-! The ten recognizers on the three shaped inputs. -/

theorem interp_escaped_shape {w w0 : List Char} {c : Char} {e : Nat → Expression}
    (hw : w = c :: w0) (hcw : wsChar c = false)
    (h : ∀ o u, SafeTail u → expression ⟨w ++ u, o⟩ = some (⟨u, o + w.length⟩, e o))
    (o : Nat) :
    interp_escaped ⟨'{' :: ' ' :: (w ++ [' ', '}']), o⟩
      = some (⟨[], o + (w.length + 4)⟩,
          Token.InterpEscaped ⟨'{' :: ' ' :: (w ++ [' ', '}']), o⟩ (e (o + 2))) := by
  have h1 : tag ['{'] ⟨'{' :: ' ' :: (w ++ [' ', '}']), o⟩
      = some (⟨' ' :: (w ++ [' ', '}']), o + 1⟩, ⟨['{'], o⟩) :=
    @tag_some ['{'] ⟨'{' :: ' ' :: (w ++ [' ', '}']), o⟩ rfl
  have h2 : ws expression ⟨' ' :: (w ++ [' ', '}']), o + 1⟩
      = some (⟨['}'], o + 1 + 1 + w.length + 1⟩, e (o + 1 + 1)) :=
    ws_expression_core hw hcw h safeTail_nil (o + 1)
  have h3 : tag ['}'] ⟨['}'], o + 1 + 1 + w.length + 1⟩
      = some (⟨[], o + 1 + 1 + w.length + 1 + 1⟩, ⟨['}'], o + 1 + 1 + w.length + 1⟩) :=
    @tag_some ['}'] ⟨['}'], o + 1 + 1 + w.length + 1⟩ rfl
  have hcons := consumed_some (delimited_some h1 h2 h3)
  have hlen : (⟨'{' :: ' ' :: (w ++ [' ', '}']), o⟩ : Span).len
      - (⟨([] : List Char), o + 1 + 1 + w.length + 1 + 1⟩ : Span).len = w.length + 4 := by
    show ('{' :: ' ' :: (w ++ [' ', '}'])).length - ([] : List Char).length = w.length + 4
    simp only [List.length_cons, List.length_append, List.length_nil]
    omega
  rw [hlen] at hcons
  have htake : Span.sliceTo ⟨'{' :: ' ' :: (w ++ [' ', '}']), o⟩ (w.length + 4)
      = ⟨'{' :: ' ' :: (w ++ [' ', '}']), o⟩ := by
    show Span.mk (('{' :: ' ' :: (w ++ [' ', '}'])).take (w.length + 4)) o
      = Span.mk ('{' :: ' ' :: (w ++ [' ', '}'])) o
    rw [List.take_of_length_le (by
      simp only [List.length_cons, List.length_append, List.length_nil]
      omega)]
  rw [htake] at hcons
  rw [(by omega : o + (w.length + 4) = o + 1 + 1 + w.length + 1 + 1),
    (by omega : o + 2 = o + 1 + 1)]
  exact pmap_some hcons

theorem interp_escaped_none2 {t : List Char} {o : Nat} :
    interp_escaped ⟨'{' :: '{' :: t, o⟩ = none := by
  apply pmap_none
  apply consumed_none
  have h1 : tag ['{'] ⟨'{' :: '{' :: t, o⟩
      = some (⟨'{' :: t, o + 1⟩, ⟨['{'], o⟩) :=
    @tag_some ['{'] ⟨'{' :: '{' :: t, o⟩ rfl
  exact delimited_none2 h1
    (ws_none (ms0_not_ws (by decide)) (expression_brace_none t (o + 1)))

theorem interp_raw_shape {w w0 : List Char} {c : Char} {e : Nat → Expression}
    (hw : w = c :: w0) (hcw : wsChar c = false)
    (h : ∀ o u, SafeTail u → expression ⟨w ++ u, o⟩ = some (⟨u, o + w.length⟩, e o))
    (o : Nat) :
    interp_raw ⟨'{' :: '{' :: ' ' :: (w ++ [' ', '}', '}']), o⟩
      = some (⟨[], o + (w.length + 6)⟩,
          Token.InterpRaw ⟨'{' :: '{' :: ' ' :: (w ++ [' ', '}', '}']), o⟩ (e (o + 3))) := by
  have h1 : tag ['{', '{'] ⟨'{' :: '{' :: ' ' :: (w ++ [' ', '}', '}']), o⟩
      = some (⟨' ' :: (w ++ [' ', '}', '}']), o + 2⟩, ⟨['{', '{'], o⟩) :=
    @tag_some ['{', '{'] ⟨'{' :: '{' :: ' ' :: (w ++ [' ', '}', '}']), o⟩ rfl
  have h2 : ws expression ⟨' ' :: (w ++ [' ', '}', '}']), o + 2⟩
      = some (⟨['}', '}'], o + 2 + 1 + w.length + 1⟩, e (o + 2 + 1)) :=
    ws_expression_core hw hcw h (safeTail_cons_brace safeTail_nil) (o + 2)
  have h3 : tag ['}', '}'] ⟨['}', '}'], o + 2 + 1 + w.length + 1⟩
      = some (⟨[], o + 2 + 1 + w.length + 1 + 2⟩, ⟨['}', '}'], o + 2 + 1 + w.length + 1⟩) :=
    @tag_some ['}', '}'] ⟨['}', '}'], o + 2 + 1 + w.length + 1⟩ rfl
  have hcons := consumed_some (delimited_some h1 h2 h3)
  have hlen : (⟨'{' :: '{' :: ' ' :: (w ++ [' ', '}', '}']), o⟩ : Span).len
      - (⟨([] : List Char), o + 2 + 1 + w.length + 1 + 2⟩ : Span).len = w.length + 6 := by
    show ('{' :: '{' :: ' ' :: (w ++ [' ', '}', '}'])).length
      - ([] : List Char).length = w.length + 6
    simp only [List.length_cons, List.length_append, List.length_nil]
    omega
  rw [hlen] at hcons
  have htake : Span.sliceTo ⟨'{' :: '{' :: ' ' :: (w ++ [' ', '}', '}']), o⟩ (w.length + 6)
      = ⟨'{' :: '{' :: ' ' :: (w ++ [' ', '}', '}']), o⟩ := by
    show Span.mk (('{' :: '{' :: ' ' :: (w ++ [' ', '}', '}'])).take (w.length + 6)) o
      = Span.mk ('{' :: '{' :: ' ' :: (w ++ [' ', '}', '}'])) o
    rw [List.take_of_length_le (by
      simp only [List.length_cons, List.length_append, List.length_nil]
      omega)]
  rw [htake] at hcons
  rw [(by omega : o + (w.length + 6) = o + 2 + 1 + w.length + 1 + 2),
    (by omega : o + 3 = o + 2 + 1)]
  exact pmap_some hcons

theorem interp_raw_none3 {t : List Char} {o : Nat} :
    interp_raw ⟨'{' :: '{' :: '{' :: t, o⟩ = none := by
  apply pmap_none
  apply consumed_none
  have h1 : tag ['{', '{'] ⟨'{' :: '{' :: '{' :: t, o⟩
      = some (⟨'{' :: t, o + 2⟩, ⟨['{', '{'], o⟩) :=
    @tag_some ['{', '{'] ⟨'{' :: '{' :: '{' :: t, o⟩ rfl
  exact delimited_none2 h1
    (ws_none (ms0_not_ws (by decide)) (expression_brace_none t (o + 2)))

theorem new_each_none3 {t : List Char} {o : Nat} :
    new_each ⟨'{' :: '{' :: '{' :: ' ' :: 'i' :: 'f' :: t, o⟩ = none := by
  apply pmap_none
  apply consumed_none
  apply delimited_none1
  have h1 : tag ['{', '{', '{'] ⟨'{' :: '{' :: '{' :: ' ' :: 'i' :: 'f' :: t, o⟩
      = some (⟨' ' :: 'i' :: 'f' :: t, o + 3⟩, ⟨['{', '{', '{'], o⟩) :=
    @tag_some ['{', '{', '{'] ⟨'{' :: '{' :: '{' :: ' ' :: 'i' :: 'f' :: t, o⟩ rfl
  have hm : multispace0 ⟨' ' :: 'i' :: 'f' :: t, o + 3⟩
      = some (⟨'i' :: 'f' :: t, o + 3 + 1⟩, ⟨[' '], o + 3⟩) := ms0_space (by decide)
  exact ppair_none2 h1 (ws_none hm (tag_none_cons (by decide)))

theorem new_if_shape {w w0 : List Char} {c : Char} {e : Nat → Expression}
    (hw : w = c :: w0) (hcw : wsChar c = false)
    (h : ∀ o u, SafeTail u → expression ⟨w ++ u, o⟩ = some (⟨u, o + w.length⟩, e o))
    (o : Nat) :
    new_if ⟨'{' :: '{' :: '{' :: ' ' :: 'i' :: 'f' :: ' ' :: (w ++ [' ', '}', '}', '}']), o⟩
      = some (⟨[], o + (w.length + 11)⟩,
          Token.If
            ⟨'{' :: '{' :: '{' :: ' ' :: 'i' :: 'f' :: ' ' :: (w ++ [' ', '}', '}', '}']), o⟩
            (e (o + 7))) := by
  have h1 : tag ['{', '{', '{']
        ⟨'{' :: '{' :: '{' :: ' ' :: 'i' :: 'f' :: ' ' :: (w ++ [' ', '}', '}', '}']), o⟩
      = some (⟨' ' :: 'i' :: 'f' :: ' ' :: (w ++ [' ', '}', '}', '}']), o + 3⟩,
          ⟨['{', '{', '{'], o⟩) :=
    @tag_some ['{', '{', '{']
      ⟨'{' :: '{' :: '{' :: ' ' :: 'i' :: 'f' :: ' ' :: (w ++ [' ', '}', '}', '}']), o⟩ rfl
  have hm1 : multispace0 ⟨' ' :: 'i' :: 'f' :: ' ' :: (w ++ [' ', '}', '}', '}']), o + 3⟩
      = some (⟨'i' :: 'f' :: ' ' :: (w ++ [' ', '}', '}', '}']), o + 3 + 1⟩, ⟨[' '], o + 3⟩) :=
    ms0_space (by decide)
  have ht2 : tag ['i', 'f'] ⟨'i' :: 'f' :: ' ' :: (w ++ [' ', '}', '}', '}']), o + 3 + 1⟩
      = some (⟨' ' :: (w ++ [' ', '}', '}', '}']), o + 3 + 1 + 2⟩, ⟨['i', 'f'], o + 3 + 1⟩) :=
    @tag_some ['i', 'f'] ⟨'i' :: 'f' :: ' ' :: (w ++ [' ', '}', '}', '}']), o + 3 + 1⟩ rfl
  have hm2 : multispace0 ⟨' ' :: (w ++ [' ', '}', '}', '}']), o + 3 + 1 + 2⟩
      = some (⟨w ++ [' ', '}', '}', '}'], o + 3 + 1 + 2 + 1⟩, ⟨[' '], o + 3 + 1 + 2⟩) := by
    subst hw
    show multispace0 ⟨' ' :: c :: (w0 ++ [' ', '}', '}', '}']), o + 3 + 1 + 2⟩
      = some (⟨c :: (w0 ++ [' ', '}', '}', '}']), o + 3 + 1 + 2 + 1⟩, ⟨[' '], o + 3 + 1 + 2⟩)
    exact ms0_space hcw
  have hwst : ws (tag ['i', 'f'])
        ⟨' ' :: 'i' :: 'f' :: ' ' :: (w ++ [' ', '}', '}', '}']), o + 3⟩
      = some (⟨w ++ [' ', '}', '}', '}'], o + 3 + 1 + 2 + 1⟩, ⟨['i', 'f'], o + 3 + 1⟩) :=
    ws_eval hm1 ht2 hm2
  have hpair := ppair_some h1 hwst
  have hwe : ws expression ⟨w ++ [' ', '}', '}', '}'], o + 3 + 1 + 2 + 1⟩
      = some (⟨['}', '}', '}'], o + 3 + 1 + 2 + 1 + w.length + 1⟩, e (o + 3 + 1 + 2 + 1)) :=
    ws_expression_core2 hw hcw h
      (safeTail_cons_brace (safeTail_cons_brace safeTail_nil)) (o + 3 + 1 + 2 + 1)
  have ht3 : tag ['}', '}', '}'] ⟨['}', '}', '}'], o + 3 + 1 + 2 + 1 + w.length + 1⟩
      = some (⟨[], o + 3 + 1 + 2 + 1 + w.length + 1 + 3⟩,
          ⟨['}', '}', '}'], o + 3 + 1 + 2 + 1 + w.length + 1⟩) :=
    @tag_some ['}', '}', '}'] ⟨['}', '}', '}'], o + 3 + 1 + 2 + 1 + w.length + 1⟩ rfl
  have hcons := consumed_some (delimited_some hpair hwe ht3)
  have hlen : (⟨'{' :: '{' :: '{' :: ' ' :: 'i' :: 'f' :: ' '
        :: (w ++ [' ', '}', '}', '}']), o⟩ : Span).len
      - (⟨([] : List Char), o + 3 + 1 + 2 + 1 + w.length + 1 + 3⟩ : Span).len
      = w.length + 11 := by
    show ('{' :: '{' :: '{' :: ' ' :: 'i' :: 'f' :: ' ' :: (w ++ [' ', '}', '}', '}'])).length
      - ([] : List Char).length = w.length + 11
    simp only [List.length_cons, List.length_append, List.length_nil]
    omega
  rw [hlen] at hcons
  have htake : Span.sliceTo
        ⟨'{' :: '{' :: '{' :: ' ' :: 'i' :: 'f' :: ' ' :: (w ++ [' ', '}', '}', '}']), o⟩
        (w.length + 11)
      = ⟨'{' :: '{' :: '{' :: ' ' :: 'i' :: 'f' :: ' ' :: (w ++ [' ', '}', '}', '}']), o⟩ := by
    show Span.mk
        (('{' :: '{' :: '{' :: ' ' :: 'i' :: 'f' :: ' ' :: (w ++ [' ', '}', '}', '}'])).take
          (w.length + 11)) o
      = Span.mk ('{' :: '{' :: '{' :: ' ' :: 'i' :: 'f' :: ' ' :: (w ++ [' ', '}', '}', '}'])) o
    rw [List.take_of_length_le (by
      simp only [List.length_cons, List.length_append, List.length_nil]
      omega)]
  rw [htake] at hcons
  rw [(by omega : o + (w.length + 11) = o + 3 + 1 + 2 + 1 + w.length + 1 + 3),
    (by omega : o + 7 = o + 3 + 1 + 2 + 1)]
  exact pmap_some hcons

/-- Claim C3: the overlapping brace openers are dispatched by shape even
though the recognizers are attempted shortest-opener-first.  The fragment
`w` stands for a grammar expression: the hypothesis states that
`expression` accepts it at any offset, consuming exactly `w`, in front of
any tail of spaces and closing braces, with value `e` depending only on the
offset.  Then `{ w }` tokenizes to `InterpEscaped`, `{{ w }}` to
`InterpRaw` and `{{{ if w }}}` to `If`, each consuming the whole input and
carrying the full input span. -/
theorem claim_C3 (w w0 : List Char) (c : Char) (e : Nat → Expression)
    (hw : w = c :: w0) (hcw : wsChar c = false)
    (h : ∀ o u, SafeTail u → expression ⟨w ++ u, o⟩ = some (⟨u, o + w.length⟩, e o))
    (o : Nat) :
    token ⟨'{' :: ' ' :: (w ++ [' ', '}']), o⟩
      = some (⟨[], o + (w.length + 4)⟩,
          Token.InterpEscaped ⟨'{' :: ' ' :: (w ++ [' ', '}']), o⟩ (e (o + 2))) ∧
    token ⟨'{' :: '{' :: ' ' :: (w ++ [' ', '}', '}']), o⟩
      = some (⟨[], o + (w.length + 6)⟩,
          Token.InterpRaw ⟨'{' :: '{' :: ' ' :: (w ++ [' ', '}', '}']), o⟩ (e (o + 3))) ∧
    token ⟨'{' :: '{' :: '{' :: ' ' :: 'i' :: 'f' :: ' ' :: (w ++ [' ', '}', '}', '}']), o⟩
      = some (⟨[], o + (w.length + 11)⟩,
          Token.If
            ⟨'{' :: '{' :: '{' :: ' ' :: 'i' :: 'f' :: ' ' :: (w ++ [' ', '}', '}', '}']), o⟩
            (e (o + 7))) := by
  refine ⟨?e1, ?e2, ?e3⟩
  case e1 =>
    unfold token
    exact palt_some (interp_escaped_shape hw hcw h o)
  case e2 =>
    unfold token
    rw [palt_none interp_escaped_none2]
    exact palt_some (interp_raw_shape hw hcw h o)
  case e3 =>
    unfold token
    rw [palt_none interp_escaped_none2, palt_none interp_raw_none3,
      palt_none new_each_none3]
    exact palt_some (new_if_shape hw hcw h o)

/-- The single identifier character `a` parses as a one-part path at any
offset, in front of any tail of spaces and closing braces. -/
theorem expr_a (o : Nat) (u : List Char) (hu : SafeTail u) :
    expression ⟨'a' :: u, o⟩
      = some (⟨u, o + 1⟩, Expression.Path ⟨['a'], o⟩ [PathPart.Part ⟨['a'], o⟩]) := by
  have htw : List.takeWhile (fun ch => ch.isAlpha || ch.isDigit) ('a' :: u) = ['a'] := by
    have hp : (fun ch : Char => ch.isAlpha || ch.isDigit) 'a' = true := by decide
    simp [List.takeWhile, hp,
      @safe_takeWhile_nil u hu (fun ch => ch.isAlpha || ch.isDigit) (by decide) (by decide)]
  have halpha : alphanumeric1 ⟨'a' :: u, o⟩ = some (⟨u, o + 1⟩, ⟨['a'], o⟩) :=
    @munch1_some (fun ch => ch.isAlpha || ch.isDigit) ⟨'a' :: u, o⟩ 1
      (by
        show (List.takeWhile (fun ch => ch.isAlpha || ch.isDigit) ('a' :: u)).length = 1
        rw [htw]
        decide)
      (by decide)
  have ha2 : alphanumeric1 ⟨u, o + 1⟩ = none := by
    apply munch1_none
    show (List.takeWhile (fun ch => ch.isAlpha || ch.isDigit) u).length = 0
    rw [@safe_takeWhile_nil u hu (fun ch => ch.isAlpha || ch.isDigit) (by decide) (by decide)]
    decide
  have hb2 : isA ['_', '-', ':', '@'] ⟨u, o + 1⟩ = none := by
    apply munch1_none
    show (List.takeWhile (fun ch => List.contains ['_', '-', ':', '@'] ch) u).length = 0
    rw [@safe_takeWhile_nil u hu (fun ch => List.contains ['_', '-', ':', '@'] ch)
      (by decide) (by decide)]
    decide
  have hrest_none : palt alphanumeric1 (isA ['_', '-', ':', '@']) ⟨u, o + 1⟩ = none := by
    rw [palt_none ha2]
    exact hb2
  have hpalt1 : palt alphanumeric1 (isA ['_', '-', ':', '@']) ⟨'a' :: u, o⟩
      = some (⟨u, o + 1⟩, ⟨['a'], o⟩) := palt_some halpha
  have hm1c : many1Count (palt alphanumeric1 (isA ['_', '-', ':', '@'])) ⟨'a' :: u, o⟩
      = some (⟨u, o + 1⟩, 1) := by
    rw [many1Count_some hpalt1]
    exact many0CountF_step_none hrest_none
  have hrun : identRun ⟨'a' :: u, o⟩ = some (⟨u, o + 1⟩, ⟨['a'], o⟩) := by
    have hrec := recognize_some hm1c
    have hl : (⟨'a' :: u, o⟩ : Span).len - (⟨u, o + 1⟩ : Span).len = 1 := by
      show ('a' :: u).length - u.length = 1
      simp
    rw [hl] at hrec
    exact hrec
  have hident : identifier ⟨'a' :: u, o⟩ = some (⟨u, o + 1⟩, ⟨['a'], o⟩) := by
    apply identifier_plain hrun
    intro hcontra
    exact absurd (show endsDashDash ['a'] = true from hcontra.1) (by decide)
  have hhelper : helperP (expressionF (Span.len ⟨'a' :: u, o⟩)) ⟨'a' :: u, o⟩ = none := by
    apply pmap_none
    apply consumed_none
    exact ppair_none2 hident
      (delimited_none1 (@safe_tag_none u hu '(' [] (o + 1) (by decide) (by decide)))
  have hscope : many0P scope_marker ⟨'a' :: u, o⟩
      = some (⟨'a' :: u, o⟩, ([] : List PathPart)) := by
    rw [many0P_eq]
    exact many0F_step_none (scope_marker_none_head (by decide))
  have helem : pmap identifier PathPart.Part ⟨'a' :: u, o⟩
      = some (⟨u, o + 1⟩, PathPart.Part ⟨['a'], o⟩) := pmap_some hident
  have hlist : sepList1 (tag ['.']) (pmap identifier PathPart.Part) ⟨'a' :: u, o⟩
      = some (⟨u, o + 1⟩, [PathPart.Part ⟨['a'], o⟩]) := by
    rw [sepList1_some helem]
    exact sepLoopF_step_nosep (@safe_tag_none u hu '.' [] (o + 1) (by decide) (by decide))
  have hcp := consumed_some (ppair_some hscope hlist)
  have hl2 : (⟨'a' :: u, o⟩ : Span).len - (⟨u, o + 1⟩ : Span).len = 1 := by
    show ('a' :: u).length - u.length = 1
    simp
  rw [hl2] at hcp
  have hpath : path ⟨'a' :: u, o⟩
      = some (⟨u, o + 1⟩, Expression.Path ⟨['a'], o⟩ [PathPart.Part ⟨['a'], o⟩]) := by
    unfold path
    rw [palt_none (pmap_none (keyword_tags_none_head (by decide)))]
    exact pmap_some hcp
  show expressionF ((⟨'a' :: u, o⟩ : Span).len + 1) ⟨'a' :: u, o⟩
    = some (⟨u, o + 1⟩, Expression.Path ⟨['a'], o⟩ [PathPart.Part ⟨['a'], o⟩])
  rw [expressionF_succ]
  rw [palt_none (negativeP_none_head (by decide) (by decide))]
  rw [palt_none (legacyHelperP_none_head (by decide))]
  rw [palt_none hhelper]
  rw [palt_none (string_literal_none_head (by decide))]
  exact hpath

/-- Witness for C3 at the expression `a`: `{ a }`, `{{ a }}` and
`{{{ if a }}}` tokenize to `InterpEscaped`, `InterpRaw` and `If`. -/
theorem claim_C3_witness :
    token ⟨['{', ' ', 'a', ' ', '}'], 0⟩
      = some (⟨[], 5⟩, Token.InterpEscaped ⟨['{', ' ', 'a', ' ', '}'], 0⟩
          (Expression.Path ⟨['a'], 2⟩ [PathPart.Part ⟨['a'], 2⟩])) ∧
    token ⟨['{', '{', ' ', 'a', ' ', '}', '}'], 0⟩
      = some (⟨[], 7⟩, Token.InterpRaw ⟨['{', '{', ' ', 'a', ' ', '}', '}'], 0⟩
          (Expression.Path ⟨['a'], 3⟩ [PathPart.Part ⟨['a'], 3⟩])) ∧
    token ⟨['{', '{', '{', ' ', 'i', 'f', ' ', 'a', ' ', '}', '}', '}'], 0⟩
      = some (⟨[], 12⟩,
          Token.If ⟨['{', '{', '{', ' ', 'i', 'f', ' ', 'a', ' ', '}', '}', '}'], 0⟩
            (Expression.Path ⟨['a'], 7⟩ [PathPart.Part ⟨['a'], 7⟩])) := by
  have h := claim_C3 ['a'] [] 'a'
    (fun o => Expression.Path ⟨['a'], o⟩ [PathPart.Part ⟨['a'], o⟩])
    rfl (by decide) (fun o u hu => expr_a o u hu) 0
  exact ⟨h.1, h.2.1, h.2.2⟩

/-! ## Claim C9: the round trip through an expression's own span -/

/-- Claim C9 counterexample: parsing `-->` succeeds consuming nothing (the
identifier backup yields a zero-width path, claim C10), so the returned
expression's span is empty, and re-parsing that span fails; the round trip
does not hold in general. -/
theorem claim_C9_counterexample :
    expression ⟨['-', '-', '>'], 0⟩
      = some (⟨['-', '-', '>'], 0⟩, Expression.Path ⟨[], 0⟩ [PathPart.Part ⟨[], 0⟩]) ∧
    expression (Expression.span (Expression.Path ⟨([] : List Char), 0⟩
        [PathPart.Part ⟨[], 0⟩])) = none :=
  ⟨c10core [] 0, rfl⟩

/-- Claim C9 (amended): the round trip holds whenever the original call
consumed its entire input.  Then the expression's span is the whole input
span, and applying `expression` to it succeeds, consumes the whole span and
returns the same expression. -/
theorem claim_C9 (f : List Char) (o : Nat) (r : Span) (e : Expression)
    (h : expression ⟨f, o⟩ = some (r, e)) (hr : r.frag = []) :
    expression (Expression.span e) = some (r, e) := by
  obtain ⟨k, hk, hrk, hspan, -⟩ := exprSpec_expression _ _ _ h
  have hkl : k ≤ f.length := hk
  have hkf : k = f.length := by
    have hdrop : List.drop k f = [] := by
      rw [hrk] at hr
      exact hr
    have h0 := congrArg List.length hdrop
    rw [List.length_drop] at h0
    simp only [List.length_nil] at h0
    omega
  subst hkf
  have hsp2 : Expression.span e = ⟨f, o⟩ := by
    rw [hspan]
    show Span.mk (f.take f.length) o = Span.mk f o
    rw [List.take_length]
  rw [hsp2]
  exact h

/-- Witness for C9 at the fully consumed input `a`. -/
theorem claim_C9_witness :
    expression (Expression.span (Expression.Path ⟨['a'], 0⟩ [PathPart.Part ⟨['a'], 0⟩]))
      = some (⟨[], 1⟩, Expression.Path ⟨['a'], 0⟩ [PathPart.Part ⟨['a'], 0⟩]) :=
  claim_C9 ['a'] 0 ⟨[], 1⟩
    (Expression.Path ⟨['a'], 0⟩ [PathPart.Part ⟨['a'], 0⟩]) rfl rfl

end Benchpress
